import Mathlib

/-!
# Verification of the `ego-tree` arena tree (jessegrosjean fork)

A shallow embedding of `src/lib.rs`: a Vec-backed ID-tree whose nodes are
records of optional parent / sibling / child-bounds handles plus a value.
Handles (`NodeId`) are natural numbers indexing the arena.  Rust panics
(`unwrap` / `expect`) are modelled by `Option`-valued operations returning
`none`; unchecked arena accesses, which are only reachable on handles already
known valid, are likewise guarded.
-/

set_option autoImplicit false
set_option linter.unnecessarySeqFocus false
set_option linter.unusedVariables false
set_option maxHeartbeats 1000000

namespace EgoTree

/-- One arena record, mirroring `struct Node<T>` in `lib.rs`. -/
structure Node (α : Type) where
  parent : Option Nat
  prev_sibling : Option Nat
  next_sibling : Option Nat
  children : Option (Nat × Nat)
  value : α
deriving DecidableEq, Repr

/-- `Node::new`: a fresh orphan record. -/
def Node.new {α : Type} (value : α) : Node α :=
  { parent := none, prev_sibling := none, next_sibling := none,
    children := none, value := value }

/-- The tree is its arena: `struct Tree<T> { vec: Vec<Node<T>> }`. -/
structure Tree (α : Type) where
  vec : List (Node α)
deriving DecidableEq, Repr

variable {α : Type}

/-- `Tree::new`: a tree with a single root record at handle 0. -/
def Tree.new (root : α) : Tree α := ⟨[Node.new root]⟩

/-- Checked arena lookup (`Tree::get`, reduced to the record). -/
def getNode (t : Tree α) (i : Nat) : Option (Node α) := t.vec[i]?

/-- The `parent` field of node `i`, `none` when `i` is out of range. -/
def parentOf (t : Tree α) (i : Nat) : Option Nat :=
  (getNode t i).bind Node.parent

/-- The `prev_sibling` field of node `i`. -/
def prevOf (t : Tree α) (i : Nat) : Option Nat :=
  (getNode t i).bind Node.prev_sibling

/-- The `next_sibling` field of node `i`. -/
def nextOf (t : Tree α) (i : Nat) : Option Nat :=
  (getNode t i).bind Node.next_sibling

/-- The `children` bounds pair of node `i`. -/
def childrenOf (t : Tree α) (i : Nat) : Option (Nat × Nat) :=
  (getNode t i).bind Node.children

/-- The payload of node `i`. -/
def valueOf (t : Tree α) (i : Nat) : Option α :=
  (getNode t i).map Node.value

/-- In-place update of one arena record; a no-op out of range (the source
only ever writes through handles already known valid). -/
def modifyNode (t : Tree α) (i : Nat) (f : Node α → Node α) : Tree α :=
  match t.vec[i]? with
  | some n => ⟨t.vec.set i (f n)⟩
  | none => t

/-- Write the `parent` field of node `i`. -/
def setParent (t : Tree α) (i : Nat) (o : Option Nat) : Tree α :=
  modifyNode t i fun n => { n with parent := o }

/-- Write the `prev_sibling` field of node `i`. -/
def setPrev (t : Tree α) (i : Nat) (o : Option Nat) : Tree α :=
  modifyNode t i fun n => { n with prev_sibling := o }

/-- Write the `next_sibling` field of node `i`. -/
def setNext (t : Tree α) (i : Nat) (o : Option Nat) : Tree α :=
  modifyNode t i fun n => { n with next_sibling := o }

/-- Write the `children` bounds of node `i`. -/
def setChildren (t : Tree α) (i : Nat) (o : Option (Nat × Nat)) : Tree α :=
  modifyNode t i fun n => { n with children := o }

/-- `Tree::orphan`: push a fresh orphan record, returning the tree and the
new handle (= old arena length). -/
def orphan (t : Tree α) (value : α) : Tree α × Nat :=
  (⟨t.vec ++ [Node.new value]⟩, t.vec.length)

/-- `NodeMut::detach` at handle `id`.  Early return when the node has no
parent; the `unwrap`s on the parent's child bounds map to `none` (panic). -/
def detach (t : Tree α) (id : Nat) : Option (Tree α) :=
  match getNode t id with
  | none => none
  | some n =>
    match n.parent with
    | none => some t
    | some parentId =>
      let prevId := n.prev_sibling
      let nextId := n.next_sibling
      let t1 := setParent t id none
      let t2 := setPrev t1 id none
      let t3 := setNext t2 id none
      let t4 := match prevId with
        | some i => setNext t3 i nextId
        | none => t3
      let t5 := match nextId with
        | some i => setPrev t4 i prevId
        | none => t4
      match childrenOf t5 parentId with
      | none => none
      | some (firstId, lastId) =>
        if firstId = lastId then
          some (setChildren t5 parentId none)
        else if firstId = id then
          match nextId with
          | some nx => some (setChildren t5 parentId (some (nx, lastId)))
          | none => none
        else if lastId = id then
          match prevId with
          | some pv => some (setChildren t5 parentId (some (firstId, pv)))
          | none => none
        else
          some t5

/-- `NodeMut::append_id`: detach `newChildId`, then link it as the last
child of `selfId`. -/
def append_id (t : Tree α) (selfId newChildId : Nat) : Option (Tree α) :=
  match getNode t selfId with
  | none => none
  | some selfNode =>
    let lastChildId := selfNode.children.map Prod.snd
    match getNode t newChildId with
    | none => none
    | some _ =>
      match detach t newChildId with
      | none => none
      | some td =>
        let t1 := setParent td newChildId (some selfId)
        let t2 := setPrev t1 newChildId lastChildId
        let t3 := match lastChildId with
          | some i => setNext t2 i (some newChildId)
          | none => t2
        match childrenOf t3 selfId with
        | some (firstChildId, _) =>
          some (setChildren t3 selfId (some (firstChildId, newChildId)))
        | none =>
          some (setChildren t3 selfId (some (newChildId, newChildId)))

/-- `NodeMut::prepend_id`: detach `newChildId`, then link it as the first
child of `selfId`. -/
def prepend_id (t : Tree α) (selfId newChildId : Nat) : Option (Tree α) :=
  match getNode t selfId with
  | none => none
  | some selfNode =>
    let firstChildId := selfNode.children.map Prod.fst
    match getNode t newChildId with
    | none => none
    | some _ =>
      match detach t newChildId with
      | none => none
      | some td =>
        let t1 := setParent td newChildId (some selfId)
        let t2 := setNext t1 newChildId firstChildId
        let t3 := match firstChildId with
          | some i => setPrev t2 i (some newChildId)
          | none => t2
        match childrenOf t3 selfId with
        | some (_, lastChildId) =>
          some (setChildren t3 selfId (some (newChildId, lastChildId)))
        | none =>
          some (setChildren t3 selfId (some (newChildId, newChildId)))

/-- `NodeMut::insert_id_before`: link `newSiblingId` as the immediate
previous sibling of `selfId`.  Panics (`none`) when `selfId` is an orphan;
note the source performs no detach of `newSiblingId` here. -/
def insert_id_before (t : Tree α) (selfId newSiblingId : Nat) : Option (Tree α) :=
  match getNode t selfId with
  | none => none
  | some selfNode =>
    match selfNode.parent with
    | none => none
    | some parentId =>
      let prevSiblingId := selfNode.prev_sibling
      match getNode t newSiblingId with
      | none => none
      | some _ =>
        let t1 := setParent t newSiblingId (some parentId)
        let t2 := setPrev t1 newSiblingId prevSiblingId
        let t3 := setNext t2 newSiblingId (some selfId)
        let t4 := match prevSiblingId with
          | some i => setNext t3 i (some newSiblingId)
          | none => t3
        let t5 := setPrev t4 selfId (some newSiblingId)
        match childrenOf t5 parentId with
        | none => none
        | some (firstChildId, lastChildId) =>
          if firstChildId = selfId then
            some (setChildren t5 parentId (some (newSiblingId, lastChildId)))
          else
            some t5

/-- `NodeMut::insert_id_after`: link `newSiblingId` as the immediate next
sibling of `selfId`.  Panics (`none`) when `selfId` is an orphan; the source
performs no detach of `newSiblingId` here. -/
def insert_id_after (t : Tree α) (selfId newSiblingId : Nat) : Option (Tree α) :=
  match getNode t selfId with
  | none => none
  | some selfNode =>
    match selfNode.parent with
    | none => none
    | some parentId =>
      let nextSiblingId := selfNode.next_sibling
      match getNode t newSiblingId with
      | none => none
      | some _ =>
        let t1 := setParent t newSiblingId (some parentId)
        let t2 := setPrev t1 newSiblingId (some selfId)
        let t3 := setNext t2 newSiblingId nextSiblingId
        let t4 := match nextSiblingId with
          | some i => setPrev t3 i (some newSiblingId)
          | none => t3
        let t5 := setNext t4 selfId (some newSiblingId)
        match childrenOf t5 parentId with
        | none => none
        | some (firstChildId, lastChildId) =>
          if lastChildId = selfId then
            some (setChildren t5 parentId (some (firstChildId, newSiblingId)))
          else
            some t5

/-- Walk a `next_sibling` chain, fuel-bounded (the source iterators always
terminate because consistent chains are duplicate-free). -/
def sibChain (t : Tree α) : Nat → Option Nat → List Nat
  | _, none => []
  | 0, some _ => []
  | fuel + 1, some i => i :: sibChain t fuel (nextOf t i)

/-- Modelled from the spec: the children iterator of the `iter` module (not
present under `src/`) "produces the finite sequence of immediate children in
order", built from the read view's `first_child` / `next_sibling`
navigation. -/
def childIds (t : Tree α) (p : Nat) : List Nat :=
  sibChain t t.vec.length ((childrenOf t p).map Prod.fst)

/-- `NodeMut::insert_id`: index 0 delegates to `prepend_id`; otherwise find
the child at `index - 1` (children iterator `nth`, `expect`ing success) and
delegate to `insert_id_after` on it. -/
def insert_id (t : Tree α) (selfId newChildId : Nat) (index : Nat) : Option (Tree α) :=
  match getNode t selfId with
  | none => none
  | some _ =>
    if index = 0 then
      prepend_id t selfId newChildId
    else
      match (childIds t selfId)[index - 1]? with
      | none => none
      | some preSiblingId => insert_id_after t preSiblingId newChildId

/-- `NodeMut::append`: allocate an orphan, then `append_id` it; returns the
new handle alongside the tree. -/
def append (t : Tree α) (selfId : Nat) (value : α) : Option (Tree α × Nat) :=
  let (t1, id) := orphan t value
  (append_id t1 selfId id).map fun t2 => (t2, id)

/-- `NodeMut::prepend`. -/
def prepend (t : Tree α) (selfId : Nat) (value : α) : Option (Tree α × Nat) :=
  let (t1, id) := orphan t value
  (prepend_id t1 selfId id).map fun t2 => (t2, id)

/-- `NodeMut::insert`. -/
def insert (t : Tree α) (selfId : Nat) (value : α) (index : Nat) :
    Option (Tree α × Nat) :=
  let (t1, id) := orphan t value
  (insert_id t1 selfId id index).map fun t2 => (t2, id)

/-- `NodeMut::insert_before`. -/
def insert_before (t : Tree α) (selfId : Nat) (value : α) : Option (Tree α × Nat) :=
  let (t1, id) := orphan t value
  (insert_id_before t1 selfId id).map fun t2 => (t2, id)

/-- `NodeMut::insert_after`. -/
def insert_after (t : Tree α) (selfId : Nat) (value : α) : Option (Tree α × Nat) :=
  let (t1, id) := orphan t value
  (insert_id_after t1 selfId id).map fun t2 => (t2, id)

/-- `NodeMut::reparent_from_id_append`: splice all children of `fromId`
onto the end of `selfId`'s child list.  Only the two endpoint children get
their `parent` field rewritten, exactly as in the source. -/
def reparent_from_id_append (t : Tree α) (selfId fromId : Nat) : Option (Tree α) :=
  match getNode t selfId with
  | none => none
  | some _ =>
    match getNode t fromId with
    | none => none
    | some fromNode =>
      match fromNode.children with
      | none => some t
      | some (newFirst, newLast) =>
        let t0 := setChildren t fromId none
        let t1 := setParent t0 newFirst (some selfId)
        let t2 := setParent t1 newLast (some selfId)
        match childrenOf t2 selfId with
        | none => some (setChildren t2 selfId (some (newFirst, newLast)))
        | some (oldFirst, oldLast) =>
          let t3 := setNext t2 oldLast (some newFirst)
          let t4 := setPrev t3 newFirst (some oldLast)
          some (setChildren t4 selfId (some (oldFirst, newLast)))

/-- `NodeMut::reparent_from_id_prepend`: splice all children of `fromId`
onto the front of `selfId`'s child list. -/
def reparent_from_id_prepend (t : Tree α) (selfId fromId : Nat) : Option (Tree α) :=
  match getNode t selfId with
  | none => none
  | some _ =>
    match getNode t fromId with
    | none => none
    | some fromNode =>
      match fromNode.children with
      | none => some t
      | some (newFirst, newLast) =>
        let t0 := setChildren t fromId none
        let t1 := setParent t0 newFirst (some selfId)
        let t2 := setParent t1 newLast (some selfId)
        match childrenOf t2 selfId with
        | none => some (setChildren t2 selfId (some (newFirst, newLast)))
        | some (oldFirst, oldLast) =>
          let t3 := setPrev t2 oldFirst (some newLast)
          let t4 := setNext t3 newLast (some oldFirst)
          some (setChildren t4 selfId (some (newFirst, oldLast)))

/-! ## The linked-chain view, write-sequence helpers, and concrete trees -/

/-- The bounds pair `(first, last)` a child list `cs` induces. -/
def boundsOf (cs : List Nat) : Option (Nat × Nat) :=
  match cs.head?, cs.getLast? with
  | some h, some l => some (h, l)
  | _, _ => none

/-- Adjacent sibling records point at each other. -/
def SibLink (t : Tree α) (a b : Nat) : Prop :=
  nextOf t a = some b ∧ prevOf t b = some a

instance (t : Tree α) (a b : Nat) : Decidable (SibLink t a b) :=
  inferInstanceAs (Decidable (nextOf t a = some b ∧ prevOf t b = some a))

/-- `cs` is the child list of `p`, viewed through sibling links and the
`children` bounds (parent fields not constrained). -/
def LinkChain (t : Tree α) (p : Nat) (cs : List Nat) : Prop :=
  List.Chain' (SibLink t) cs ∧
  (∀ h ∈ cs.head?, prevOf t h = none) ∧
  (∀ l ∈ cs.getLast?, nextOf t l = none) ∧
  childrenOf t p = boundsOf cs ∧
  cs.Nodup ∧
  ∀ c ∈ cs, c < t.vec.length

/-- `cs` is the child list of `p`, including correct parent fields. -/
def IsChain (t : Tree α) (p : Nat) (cs : List Nat) : Prop :=
  LinkChain t p cs ∧ ∀ c ∈ cs, parentOf t c = some p

/-- A structurally recursive decision procedure for sibling chains (the
blanket `Chain'` instance does not reduce in the kernel). -/
instance sibChainDecidable (t : Tree α) :
    ∀ cs : List Nat, Decidable (List.Chain' (SibLink t) cs)
  | [] => isTrue List.chain'_nil
  | [a] => isTrue (List.chain'_singleton a)
  | a :: b :: rest =>
    have : Decidable (List.Chain' (SibLink t) (b :: rest)) :=
      sibChainDecidable t (b :: rest)
    decidable_of_iff (SibLink t a b ∧ List.Chain' (SibLink t) (b :: rest))
      List.chain'_cons.symm

instance (t : Tree α) (p : Nat) (cs : List Nat) : Decidable (LinkChain t p cs) :=
  inferInstanceAs (Decidable (List.Chain' (SibLink t) cs ∧
    (∀ h ∈ cs.head?, prevOf t h = none) ∧
    (∀ l ∈ cs.getLast?, nextOf t l = none) ∧
    childrenOf t p = boundsOf cs ∧
    cs.Nodup ∧
    ∀ c ∈ cs, c < t.vec.length))

instance (t : Tree α) (p : Nat) (cs : List Nat) : Decidable (IsChain t p cs) :=
  inferInstanceAs (Decidable (LinkChain t p cs ∧ ∀ c ∈ cs, parentOf t c = some p))

/-- The sibling-unlinking writes of `detach` (everything except the parent's
bounds update): clear the node's own links, then patch the neighbours. -/
def detachWrites (t : Tree α) (id : Nat) (pr nx : Option Nat) : Tree α :=
  let t3 := setNext (setPrev (setParent t id none) id none) id none
  let t4 := match pr with
    | some i => setNext t3 i nx
    | none => t3
  match nx with
  | some i => setPrev t4 i pr
  | none => t4

/-- The writes of `insert_id_before` except the parent's bounds update. -/
def insertBeforeWrites (t : Tree α) (selfId newId p : Nat) (pr : Option Nat) : Tree α :=
  let t1 := setParent t newId (some p)
  let t2 := setPrev t1 newId pr
  let t3 := setNext t2 newId (some selfId)
  let t4 := match pr with
    | some i => setNext t3 i (some newId)
    | none => t3
  setPrev t4 selfId (some newId)

/-- The writes of `insert_id_after` except the parent's bounds update. -/
def insertAfterWrites (t : Tree α) (selfId newId p : Nat) (nx : Option Nat) : Tree α :=
  let t1 := setParent t newId (some p)
  let t2 := setPrev t1 newId (some selfId)
  let t3 := setNext t2 newId nx
  let t4 := match nx with
    | some i => setPrev t3 i (some newId)
    | none => t3
  setNext t4 selfId (some newId)

/-- A sequence of `append` calls on one node, collecting the new handles in
call order. -/
def appendAll (t : Tree α) (p : Nat) : List α → Option (Tree α × List Nat)
  | [] => some (t, [])
  | v :: vs =>
    match append t p v with
    | none => none
    | some (t1, id) => (appendAll t1 p vs).map fun r => (r.1, id :: r.2)

/-- A sequence of `prepend` calls on one node, collecting the new handles in
call order. -/
def prependAll (t : Tree α) (p : Nat) : List α → Option (Tree α × List Nat)
  | [] => some (t, [])
  | v :: vs =>
    match prepend t p v with
    | none => none
    | some (t1, id) => (prependAll t1 p vs).map fun r => (r.1, id :: r.2)

/-- C1 counterexample input: `root(0) => [x(1), y(2)]` where `y` has the
child `z(3)`; `x.insert_id_after(z)` moves `z` without detaching it, so the
old parent `y` still lists `z` as its child while `z` hangs under the root. -/
def c1Tree : Tree Nat :=
  ⟨[{ parent := none, prev_sibling := none, next_sibling := none,
      children := some (1, 2), value := 0 },
    { parent := some 0, prev_sibling := none, next_sibling := some 2,
      children := none, value := 1 },
    { parent := some 0, prev_sibling := some 1, next_sibling := none,
      children := some (3, 3), value := 2 },
    { parent := some 2, prev_sibling := none, next_sibling := none,
      children := none, value := 3 }]⟩

/-- C2 failing input: `root(0) => [n(1), s(2)]` where the source `s` has the
three children `3, 4, 5`. -/
def c2Tree : Tree Nat :=
  ⟨[{ parent := none, prev_sibling := none, next_sibling := none,
      children := some (1, 2), value := 0 },
    { parent := some 0, prev_sibling := none, next_sibling := some 2,
      children := none, value := 1 },
    { parent := some 0, prev_sibling := some 1, next_sibling := none,
      children := some (3, 5), value := 2 },
    { parent := some 2, prev_sibling := none, next_sibling := some 4,
      children := none, value := 3 },
    { parent := some 2, prev_sibling := some 3, next_sibling := some 5,
      children := none, value := 4 },
    { parent := some 2, prev_sibling := some 4, next_sibling := none,
      children := none, value := 5 }]⟩

/-! ## The public-operation alphabet and the root-freeness invariant -/

/-- The root-freeness invariant behind the spec's root invariant: handle 0
exists, its parent and sibling links are absent, and no sibling link or
child-bounds endpoint anywhere in the arena mentions handle 0. -/
def RootFree (t : Tree α) : Prop :=
  0 < t.vec.length ∧
  parentOf t 0 = none ∧
  prevOf t 0 = none ∧
  nextOf t 0 = none ∧
  ∀ i, i < t.vec.length →
    prevOf t i ≠ some 0 ∧
    nextOf t i ≠ some 0 ∧
    (childrenOf t i).map Prod.fst ≠ some 0 ∧
    (childrenOf t i).map Prod.snd ≠ some 0

instance (t : Tree α) : Decidable (RootFree t) :=
  inferInstanceAs (Decidable (0 < t.vec.length ∧
    parentOf t 0 = none ∧
    prevOf t 0 = none ∧
    nextOf t 0 = none ∧
    ∀ i, i < t.vec.length →
      prevOf t i ≠ some 0 ∧
      nextOf t i ≠ some 0 ∧
      (childrenOf t i).map Prod.fst ≠ some 0 ∧
      (childrenOf t i).map Prod.snd ≠ some 0))

/-- One public mutating operation of the crate, with its arguments. -/
inductive Op (α : Type) where
  | append (selfId : Nat) (v : α)
  | prepend (selfId : Nat) (v : α)
  | insert (selfId : Nat) (v : α) (index : Nat)
  | insertBefore (selfId : Nat) (v : α)
  | insertAfter (selfId : Nat) (v : α)
  | orphanOp (v : α)
  | detachOp (id : Nat)
  | appendId (selfId newChildId : Nat)
  | prependId (selfId newChildId : Nat)
  | insertId (selfId newChildId index : Nat)
  | insertIdBefore (selfId newSiblingId : Nat)
  | insertIdAfter (selfId newSiblingId : Nat)
  | reparentAppend (selfId fromId : Nat)
  | reparentPrepend (selfId fromId : Nat)
deriving DecidableEq, Repr

/-- Run one public operation, keeping the tree (`none` = the call panicked). -/
def applyOp : Op α → Tree α → Option (Tree α)
  | .append s v, t => (append t s v).map Prod.fst
  | .prepend s v, t => (prepend t s v).map Prod.fst
  | .insert s v k, t => (insert t s v k).map Prod.fst
  | .insertBefore s v, t => (insert_before t s v).map Prod.fst
  | .insertAfter s v, t => (insert_after t s v).map Prod.fst
  | .orphanOp v, t => some (orphan t v).1
  | .detachOp i, t => detach t i
  | .appendId s c, t => append_id t s c
  | .prependId s c, t => prepend_id t s c
  | .insertId s c k, t => insert_id t s c k
  | .insertIdBefore s c, t => insert_id_before t s c
  | .insertIdAfter s c, t => insert_id_after t s c
  | .reparentAppend s f, t => reparent_from_id_append t s f
  | .reparentPrepend s f, t => reparent_from_id_prepend t s f

/-- Run a sequence of public operations left to right. -/
def applyOps : List (Op α) → Tree α → Option (Tree α)
  | [], t => some t
  | op :: ops, t => (applyOp op t).bind (applyOps ops)

/-- An operation never passes handle 0 (the root) as the handle it moves. -/
def movedOk : Op α → Bool
  | .appendId _ c => c ≠ 0
  | .prependId _ c => c ≠ 0
  | .insertId _ c _ => c ≠ 0
  | .insertIdBefore _ c => c ≠ 0
  | .insertIdAfter _ c => c ≠ 0
  | _ => true

def c3Tree : Tree Nat :=
  ⟨[⟨none, none, none, some (1, 1), 0⟩, ⟨some 0, none, none, none, 1⟩]⟩

def c10Tree : Tree Nat :=
  ⟨[⟨none, none, none, some (1, 1), 5⟩, ⟨some 0, none, none, none, 7⟩]⟩

/-- Concrete four-node tree for exercising the amended detach-first law:
`root(0) => [q(1) => [n(3)], p(2)]`. -/
def c1WTree : Tree Nat :=
  ⟨[⟨none, none, none, some (1, 2), 0⟩,
    ⟨some 0, none, some 2, some (3, 3), 1⟩,
    ⟨some 0, some 1, none, none, 2⟩,
    ⟨some 1, none, none, none, 3⟩]⟩

/-- Concrete tree for the reparent splice: orphan `1` owns child `2`; the
root is childless. -/
def c4Tree : Tree Nat :=
  ⟨[⟨none, none, none, none, 0⟩,
    ⟨none, none, none, some (2, 2), 1⟩,
    ⟨some 1, none, none, none, 2⟩]⟩

/-- Concrete two-node tree (root with a single child) for the `insert`
index law. -/
def c5Tree : Tree Nat :=
  ⟨[⟨none, none, none, some (1, 1), 0⟩, ⟨some 0, none, none, none, 1⟩]⟩

/-- Concrete two-node tree for the sibling-insertion law. -/
def c6Tree : Tree Nat :=
  ⟨[⟨none, none, none, some (1, 1), 0⟩, ⟨some 0, none, none, none, 1⟩]⟩

/-- The record of node 1 in `c6Tree`. -/
def c6Node : Node Nat := ⟨some 0, none, none, none, 1⟩

/-! ## Read-after-write lemmas for the arena -/

theorem getNode_modifyNode (t : Tree α) (i : Nat) (f : Node α → Node α) (j : Nat) :
    getNode (modifyNode t i f) j = if j = i then (getNode t i).map f else getNode t j := by
  unfold modifyNode getNode
  cases h : t.vec[i]? with
  | none =>
    simp only [h, Option.map_none']
    split <;> simp_all
  | some n =>
    have hi : i < t.vec.length := (List.getElem?_eq_some_iff.mp h).1
    by_cases hji : j = i
    · subst hji
      simp [h, List.getElem?_set, hi]
    · simp [h, List.getElem?_set, hji, Ne.symm hji]

theorem getNode_eq_some (t : Tree α) {i : Nat} (h : i < t.vec.length) :
    getNode t i = some (t.vec[i]) := by
  unfold getNode
  exact List.getElem?_eq_getElem h

theorem length_modifyNode (t : Tree α) (i : Nat) (f : Node α → Node α) :
    (modifyNode t i f).vec.length = t.vec.length := by
  unfold modifyNode
  cases h : t.vec[i]? <;> simp [h]

@[simp] theorem length_setParent (t : Tree α) (i : Nat) (o : Option Nat) :
    (setParent t i o).vec.length = t.vec.length := length_modifyNode ..

@[simp] theorem length_setPrev (t : Tree α) (i : Nat) (o : Option Nat) :
    (setPrev t i o).vec.length = t.vec.length := length_modifyNode ..

@[simp] theorem length_setNext (t : Tree α) (i : Nat) (o : Option Nat) :
    (setNext t i o).vec.length = t.vec.length := length_modifyNode ..

@[simp] theorem length_setChildren (t : Tree α) (i : Nat) (o : Option (Nat × Nat)) :
    (setChildren t i o).vec.length = t.vec.length := length_modifyNode ..

theorem getNode_setParent_ne (t : Tree α) {i j : Nat} (h : j ≠ i) (o : Option Nat) :
    getNode (setParent t i o) j = getNode t j := by
  rw [setParent, getNode_modifyNode, if_neg h]

theorem getNode_setPrev_ne (t : Tree α) {i j : Nat} (h : j ≠ i) (o : Option Nat) :
    getNode (setPrev t i o) j = getNode t j := by
  rw [setPrev, getNode_modifyNode, if_neg h]

theorem getNode_setNext_ne (t : Tree α) {i j : Nat} (h : j ≠ i) (o : Option Nat) :
    getNode (setNext t i o) j = getNode t j := by
  rw [setNext, getNode_modifyNode, if_neg h]

theorem getNode_setChildren_ne (t : Tree α) {i j : Nat} (h : j ≠ i) (o : Option (Nat × Nat)) :
    getNode (setChildren t i o) j = getNode t j := by
  rw [setChildren, getNode_modifyNode, if_neg h]

@[simp] theorem parentOf_setPrev (t : Tree α) (i : Nat) (o : Option Nat) (j : Nat) :
    parentOf (setPrev t i o) j = parentOf t j := by
  unfold parentOf
  rw [setPrev, getNode_modifyNode]
  by_cases h : j = i <;> simp [h] <;> cases getNode t i <;> simp

@[simp] theorem parentOf_setNext (t : Tree α) (i : Nat) (o : Option Nat) (j : Nat) :
    parentOf (setNext t i o) j = parentOf t j := by
  unfold parentOf
  rw [setNext, getNode_modifyNode]
  by_cases h : j = i <;> simp [h] <;> cases getNode t i <;> simp

@[simp] theorem parentOf_setChildren (t : Tree α) (i : Nat) (o : Option (Nat × Nat)) (j : Nat) :
    parentOf (setChildren t i o) j = parentOf t j := by
  unfold parentOf
  rw [setChildren, getNode_modifyNode]
  by_cases h : j = i <;> simp [h] <;> cases getNode t i <;> simp

@[simp] theorem prevOf_setParent (t : Tree α) (i : Nat) (o : Option Nat) (j : Nat) :
    prevOf (setParent t i o) j = prevOf t j := by
  unfold prevOf
  rw [setParent, getNode_modifyNode]
  by_cases h : j = i <;> simp [h] <;> cases getNode t i <;> simp

@[simp] theorem prevOf_setNext (t : Tree α) (i : Nat) (o : Option Nat) (j : Nat) :
    prevOf (setNext t i o) j = prevOf t j := by
  unfold prevOf
  rw [setNext, getNode_modifyNode]
  by_cases h : j = i <;> simp [h] <;> cases getNode t i <;> simp

@[simp] theorem prevOf_setChildren (t : Tree α) (i : Nat) (o : Option (Nat × Nat)) (j : Nat) :
    prevOf (setChildren t i o) j = prevOf t j := by
  unfold prevOf
  rw [setChildren, getNode_modifyNode]
  by_cases h : j = i <;> simp [h] <;> cases getNode t i <;> simp

@[simp] theorem nextOf_setParent (t : Tree α) (i : Nat) (o : Option Nat) (j : Nat) :
    nextOf (setParent t i o) j = nextOf t j := by
  unfold nextOf
  rw [setParent, getNode_modifyNode]
  by_cases h : j = i <;> simp [h] <;> cases getNode t i <;> simp

@[simp] theorem nextOf_setPrev (t : Tree α) (i : Nat) (o : Option Nat) (j : Nat) :
    nextOf (setPrev t i o) j = nextOf t j := by
  unfold nextOf
  rw [setPrev, getNode_modifyNode]
  by_cases h : j = i <;> simp [h] <;> cases getNode t i <;> simp

@[simp] theorem nextOf_setChildren (t : Tree α) (i : Nat) (o : Option (Nat × Nat)) (j : Nat) :
    nextOf (setChildren t i o) j = nextOf t j := by
  unfold nextOf
  rw [setChildren, getNode_modifyNode]
  by_cases h : j = i <;> simp [h] <;> cases getNode t i <;> simp

@[simp] theorem childrenOf_setParent (t : Tree α) (i : Nat) (o : Option Nat) (j : Nat) :
    childrenOf (setParent t i o) j = childrenOf t j := by
  unfold childrenOf
  rw [setParent, getNode_modifyNode]
  by_cases h : j = i <;> simp [h] <;> cases getNode t i <;> simp

@[simp] theorem childrenOf_setPrev (t : Tree α) (i : Nat) (o : Option Nat) (j : Nat) :
    childrenOf (setPrev t i o) j = childrenOf t j := by
  unfold childrenOf
  rw [setPrev, getNode_modifyNode]
  by_cases h : j = i <;> simp [h] <;> cases getNode t i <;> simp

@[simp] theorem childrenOf_setNext (t : Tree α) (i : Nat) (o : Option Nat) (j : Nat) :
    childrenOf (setNext t i o) j = childrenOf t j := by
  unfold childrenOf
  rw [setNext, getNode_modifyNode]
  by_cases h : j = i <;> simp [h] <;> cases getNode t i <;> simp

@[simp] theorem valueOf_setParent (t : Tree α) (i : Nat) (o : Option Nat) (j : Nat) :
    valueOf (setParent t i o) j = valueOf t j := by
  unfold valueOf
  rw [setParent, getNode_modifyNode]
  by_cases h : j = i <;> simp [h] <;> cases getNode t i <;> simp

@[simp] theorem valueOf_setPrev (t : Tree α) (i : Nat) (o : Option Nat) (j : Nat) :
    valueOf (setPrev t i o) j = valueOf t j := by
  unfold valueOf
  rw [setPrev, getNode_modifyNode]
  by_cases h : j = i <;> simp [h] <;> cases getNode t i <;> simp

@[simp] theorem valueOf_setNext (t : Tree α) (i : Nat) (o : Option Nat) (j : Nat) :
    valueOf (setNext t i o) j = valueOf t j := by
  unfold valueOf
  rw [setNext, getNode_modifyNode]
  by_cases h : j = i <;> simp [h] <;> cases getNode t i <;> simp

@[simp] theorem valueOf_setChildren (t : Tree α) (i : Nat) (o : Option (Nat × Nat)) (j : Nat) :
    valueOf (setChildren t i o) j = valueOf t j := by
  unfold valueOf
  rw [setChildren, getNode_modifyNode]
  by_cases h : j = i <;> simp [h] <;> cases getNode t i <;> simp

theorem parentOf_setParent_self (t : Tree α) {i : Nat} (h : i < t.vec.length)
    (o : Option Nat) : parentOf (setParent t i o) i = o := by
  unfold parentOf
  rw [setParent, getNode_modifyNode, if_pos rfl, getNode_eq_some t h]
  simp

theorem parentOf_setParent_ne (t : Tree α) {i j : Nat} (h : j ≠ i) (o : Option Nat) :
    parentOf (setParent t i o) j = parentOf t j := by
  unfold parentOf
  rw [setParent, getNode_modifyNode, if_neg h]

theorem prevOf_setPrev_self (t : Tree α) {i : Nat} (h : i < t.vec.length)
    (o : Option Nat) : prevOf (setPrev t i o) i = o := by
  unfold prevOf
  rw [setPrev, getNode_modifyNode, if_pos rfl, getNode_eq_some t h]
  simp

theorem prevOf_setPrev_ne (t : Tree α) {i j : Nat} (h : j ≠ i) (o : Option Nat) :
    prevOf (setPrev t i o) j = prevOf t j := by
  unfold prevOf
  rw [setPrev, getNode_modifyNode, if_neg h]

theorem nextOf_setNext_self (t : Tree α) {i : Nat} (h : i < t.vec.length)
    (o : Option Nat) : nextOf (setNext t i o) i = o := by
  unfold nextOf
  rw [setNext, getNode_modifyNode, if_pos rfl, getNode_eq_some t h]
  simp

theorem nextOf_setNext_ne (t : Tree α) {i j : Nat} (h : j ≠ i) (o : Option Nat) :
    nextOf (setNext t i o) j = nextOf t j := by
  unfold nextOf
  rw [setNext, getNode_modifyNode, if_neg h]

theorem childrenOf_setChildren_self (t : Tree α) {i : Nat} (h : i < t.vec.length)
    (o : Option (Nat × Nat)) : childrenOf (setChildren t i o) i = o := by
  unfold childrenOf
  rw [setChildren, getNode_modifyNode, if_pos rfl, getNode_eq_some t h]
  simp

theorem childrenOf_setChildren_ne (t : Tree α) {i j : Nat} (h : j ≠ i)
    (o : Option (Nat × Nat)) : childrenOf (setChildren t i o) j = childrenOf t j := by
  unfold childrenOf
  rw [setChildren, getNode_modifyNode, if_neg h]

/-! ### The freshly pushed orphan -/

@[simp] theorem length_orphan (t : Tree α) (v : α) :
    (orphan t v).1.vec.length = t.vec.length + 1 := by
  simp [orphan]

theorem getNode_orphan_old (t : Tree α) (v : α) {j : Nat} (h : j < t.vec.length) :
    getNode (orphan t v).1 j = getNode t j := by
  simp [orphan, getNode]
  rw [List.getElem?_append_left h]

theorem getNode_orphan_new (t : Tree α) (v : α) :
    getNode (orphan t v).1 t.vec.length = some (Node.new v) := by
  simp [orphan, getNode]

/-! ## Sibling chains

`LinkChain t p cs` says that `cs` is exactly the doubly-linked child list of
`p` as far as the sibling links and the `children` bounds are concerned;
`IsChain` additionally requires every member's `parent` field to be `p`.
These are the well-formedness facts the source maintains for every attached
child list. -/

theorem boundsOf_map_fst (cs : List Nat) : (boundsOf cs).map Prod.fst = cs.head? := by
  cases cs with
  | nil => rfl
  | cons a l =>
    unfold boundsOf
    cases h : (a :: l).getLast? with
    | none => simp at h
    | some x => simp [h]

/-- Following `next_sibling` from the head of a linked chain recovers the
chain, for any sufficient fuel. -/
theorem sibChain_eq (t : Tree α) :
    ∀ (cs : List Nat), List.Chain' (SibLink t) cs →
      (∀ l ∈ cs.getLast?, nextOf t l = none) →
      ∀ fuel, cs.length ≤ fuel → sibChain t fuel cs.head? = cs := by
  intro cs
  induction cs with
  | nil =>
    intro _ _ fuel _
    cases fuel <;> rfl
  | cons a rest ih =>
    intro hchain hlast fuel hfuel
    cases fuel with
    | zero => simp at hfuel
    | succ f =>
      have hstep : nextOf t a = rest.head? := by
        cases rest with
        | nil =>
          have := hlast a (by simp)
          simpa using this
        | cons b r =>
          exact (List.chain'_cons.mp hchain).1.1
      have hrest : sibChain t f rest.head? = rest := by
        apply ih
        · exact hchain.tail
        · intro l hl
          apply hlast
          cases rest with
          | nil => simp at hl
          | cons b r => rw [List.getLast?_cons_cons]; exact hl
        · simpa using Nat.le_of_succ_le_succ hfuel
      show a :: sibChain t f (nextOf t a) = a :: rest
      rw [hstep, hrest]

/-- A duplicate-free list of valid handles is no longer than the arena. -/
theorem chain_length_le (t : Tree α) (cs : List Nat) (hnd : cs.Nodup)
    (hval : ∀ c ∈ cs, c < t.vec.length) : cs.length ≤ t.vec.length := by
  classical
  have hsub : cs.toFinset ⊆ Finset.range t.vec.length := by
    intro x hx
    simp only [List.mem_toFinset] at hx
    simpa using hval x hx
  have := Finset.card_le_card hsub
  rwa [List.toFinset_card_of_nodup hnd, Finset.card_range] at this

/-- The children iterator of a linked chain produces exactly the chain. -/
theorem childIds_of_LinkChain {t : Tree α} {p : Nat} {cs : List Nat}
    (h : LinkChain t p cs) : childIds t p = cs := by
  obtain ⟨hchain, _, hlast, hbounds, hnd, hval⟩ := h
  unfold childIds
  rw [hbounds, boundsOf_map_fst]
  exact sibChain_eq t cs hchain hlast _ (chain_length_le t cs hnd hval)

/-! ## Run lemmas: each operation as its write sequence, once the control
flow is resolved by hypotheses -/

theorem childrenOf_detachWrites (t : Tree α) (id : Nat) (pr nx : Option Nat) (j : Nat) :
    childrenOf (detachWrites t id pr nx) j = childrenOf t j := by
  unfold detachWrites
  cases pr <;> cases nx <;> simp

theorem parentOf_detachWrites (t : Tree α) (id : Nat) (pr nx : Option Nat) {j : Nat}
    (h : j ≠ id) : parentOf (detachWrites t id pr nx) j = parentOf t j := by
  unfold detachWrites
  cases pr <;> cases nx <;> simp [parentOf_setParent_ne _ h]

theorem valueOf_detachWrites (t : Tree α) (id : Nat) (pr nx : Option Nat) (j : Nat) :
    valueOf (detachWrites t id pr nx) j = valueOf t j := by
  unfold detachWrites
  cases pr <;> cases nx <;> simp

@[simp] theorem length_detachWrites (t : Tree α) (id : Nat) (pr nx : Option Nat) :
    (detachWrites t id pr nx).vec.length = t.vec.length := by
  unfold detachWrites
  cases pr <;> cases nx <;> simp

theorem detach_run_orphan {t : Tree α} {id : Nat} {n : Node α}
    (hget : getNode t id = some n) (hp : n.parent = none) :
    detach t id = some t := by
  unfold detach
  simp only [hget, hp]

theorem detach_run_single {t : Tree α} {id p f : Nat} {n : Node α}
    (hget : getNode t id = some n) (hp : n.parent = some p)
    (hc : childrenOf t p = some (f, f)) :
    detach t id =
      some (setChildren (detachWrites t id n.prev_sibling n.next_sibling) p none) := by
  unfold detach
  simp only [hget, hp]
  have hc5 : childrenOf (detachWrites t id n.prev_sibling n.next_sibling) p
      = some (f, f) := by rw [childrenOf_detachWrites, hc]
  simp only [detachWrites] at hc5 ⊢
  cases hpr : n.prev_sibling <;> cases hnx : n.next_sibling <;>
    simp_all

theorem detach_run_first {t : Tree α} {id p f l nx : Nat} {n : Node α}
    (hget : getNode t id = some n) (hp : n.parent = some p)
    (hc : childrenOf t p = some (f, l)) (hfl : f ≠ l) (hf : f = id)
    (hnx : n.next_sibling = some nx) :
    detach t id =
      some (setChildren (detachWrites t id n.prev_sibling n.next_sibling) p
        (some (nx, l))) := by
  unfold detach
  simp only [hget, hp]
  have hc5 : childrenOf (detachWrites t id n.prev_sibling n.next_sibling) p
      = some (f, l) := by rw [childrenOf_detachWrites, hc]
  simp only [detachWrites] at hc5 ⊢
  cases hpr : n.prev_sibling <;>
    simp_all

theorem detach_run_last {t : Tree α} {id p f l pv : Nat} {n : Node α}
    (hget : getNode t id = some n) (hp : n.parent = some p)
    (hc : childrenOf t p = some (f, l)) (hfl : f ≠ l) (hf : f ≠ id) (hl : l = id)
    (hpv : n.prev_sibling = some pv) :
    detach t id =
      some (setChildren (detachWrites t id n.prev_sibling n.next_sibling) p
        (some (f, pv))) := by
  unfold detach
  simp only [hget, hp]
  have hc5 : childrenOf (detachWrites t id n.prev_sibling n.next_sibling) p
      = some (f, l) := by rw [childrenOf_detachWrites, hc]
  simp only [detachWrites] at hc5 ⊢
  cases hnx : n.next_sibling <;>
    simp_all

theorem detach_run_mid {t : Tree α} {id p f l : Nat} {n : Node α}
    (hget : getNode t id = some n) (hp : n.parent = some p)
    (hc : childrenOf t p = some (f, l)) (hfl : f ≠ l) (hf : f ≠ id) (hl : l ≠ id) :
    detach t id = some (detachWrites t id n.prev_sibling n.next_sibling) := by
  unfold detach
  simp only [hget, hp]
  have hc5 : childrenOf (detachWrites t id n.prev_sibling n.next_sibling) p
      = some (f, l) := by rw [childrenOf_detachWrites, hc]
  simp only [detachWrites] at hc5 ⊢
  cases hpr : n.prev_sibling <;> cases hnx : n.next_sibling <;>
    simp_all

theorem childrenOf_insertBeforeWrites (t : Tree α) (selfId newId p : Nat)
    (pr : Option Nat) (j : Nat) :
    childrenOf (insertBeforeWrites t selfId newId p pr) j = childrenOf t j := by
  unfold insertBeforeWrites
  cases pr <;> simp

theorem childrenOf_insertAfterWrites (t : Tree α) (selfId newId p : Nat)
    (nx : Option Nat) (j : Nat) :
    childrenOf (insertAfterWrites t selfId newId p nx) j = childrenOf t j := by
  unfold insertAfterWrites
  cases nx <;> simp

@[simp] theorem length_insertBeforeWrites (t : Tree α) (selfId newId p : Nat)
    (pr : Option Nat) :
    (insertBeforeWrites t selfId newId p pr).vec.length = t.vec.length := by
  unfold insertBeforeWrites
  cases pr <;> simp

@[simp] theorem length_insertAfterWrites (t : Tree α) (selfId newId p : Nat)
    (nx : Option Nat) :
    (insertAfterWrites t selfId newId p nx).vec.length = t.vec.length := by
  unfold insertAfterWrites
  cases nx <;> simp

theorem insert_id_before_run {t : Tree α} {selfId newId p f l : Nat}
    {n m : Node α} (hget : getNode t selfId = some n) (hp : n.parent = some p)
    (hnew : getNode t newId = some m) (hc : childrenOf t p = some (f, l)) :
    insert_id_before t selfId newId = some (
      if f = selfId then
        setChildren (insertBeforeWrites t selfId newId p n.prev_sibling) p
          (some (newId, l))
      else insertBeforeWrites t selfId newId p n.prev_sibling) := by
  unfold insert_id_before
  have hc5 : childrenOf (insertBeforeWrites t selfId newId p n.prev_sibling) p
      = some (f, l) := by rw [childrenOf_insertBeforeWrites, hc]
  simp only [hget, hp, hnew, insertBeforeWrites] at hc5 ⊢
  cases hpr : n.prev_sibling <;> simp_all <;>
    first
      | rfl
      | (split <;> rfl)

theorem insert_id_after_run {t : Tree α} {selfId newId p f l : Nat}
    {n m : Node α} (hget : getNode t selfId = some n) (hp : n.parent = some p)
    (hnew : getNode t newId = some m) (hc : childrenOf t p = some (f, l)) :
    insert_id_after t selfId newId = some (
      if l = selfId then
        setChildren (insertAfterWrites t selfId newId p n.next_sibling) p
          (some (f, newId))
      else insertAfterWrites t selfId newId p n.next_sibling) := by
  unfold insert_id_after
  have hc5 : childrenOf (insertAfterWrites t selfId newId p n.next_sibling) p
      = some (f, l) := by rw [childrenOf_insertAfterWrites, hc]
  simp only [hget, hp, hnew, insertAfterWrites] at hc5 ⊢
  cases hnx : n.next_sibling <;> simp_all <;>
    first
      | rfl
      | (split <;> rfl)

theorem insert_id_before_orphan_fail {t : Tree α} {selfId newId : Nat} {n : Node α}
    (hget : getNode t selfId = some n) (hp : n.parent = none) :
    insert_id_before t selfId newId = none := by
  unfold insert_id_before
  simp only [hget, hp]

theorem insert_id_after_orphan_fail {t : Tree α} {selfId newId : Nat} {n : Node α}
    (hget : getNode t selfId = some n) (hp : n.parent = none) :
    insert_id_after t selfId newId = none := by
  unfold insert_id_after
  simp only [hget, hp]

/-! ### Field views of the insert-writes helpers -/

theorem valueOf_insertBeforeWrites (t : Tree α) (selfId newId p : Nat)
    (pr : Option Nat) (j : Nat) :
    valueOf (insertBeforeWrites t selfId newId p pr) j = valueOf t j := by
  unfold insertBeforeWrites
  cases pr <;> simp

theorem valueOf_insertAfterWrites (t : Tree α) (selfId newId p : Nat)
    (nx : Option Nat) (j : Nat) :
    valueOf (insertAfterWrites t selfId newId p nx) j = valueOf t j := by
  unfold insertAfterWrites
  cases nx <;> simp

theorem parentOf_insertBeforeWrites_new (t : Tree α) {selfId newId p : Nat}
    {pr : Option Nat} (h : newId < t.vec.length) :
    parentOf (insertBeforeWrites t selfId newId p pr) newId = some p := by
  unfold insertBeforeWrites
  cases pr <;> simp [parentOf_setParent_self t h]

theorem parentOf_insertBeforeWrites_ne (t : Tree α) {selfId newId p : Nat}
    {pr : Option Nat} {j : Nat} (h : j ≠ newId) :
    parentOf (insertBeforeWrites t selfId newId p pr) j = parentOf t j := by
  unfold insertBeforeWrites
  cases pr <;> simp [parentOf_setParent_ne t h]

theorem prevOf_insertBeforeWrites_self (t : Tree α) {selfId newId p : Nat}
    {pr : Option Nat} (h : selfId < t.vec.length) :
    prevOf (insertBeforeWrites t selfId newId p pr) selfId = some newId := by
  unfold insertBeforeWrites
  cases pr <;>
    exact prevOf_setPrev_self _ (by simp [h]) _

theorem prevOf_insertBeforeWrites_new (t : Tree α) {selfId newId p : Nat}
    {pr : Option Nat} (h : newId < t.vec.length) (hne : selfId ≠ newId) :
    prevOf (insertBeforeWrites t selfId newId p pr) newId = pr := by
  unfold insertBeforeWrites
  cases pr <;>
    rw [prevOf_setPrev_ne _ (Ne.symm hne)] <;>
    simp [prevOf_setPrev_self _ (by simp [h] : newId < (setParent t newId (some p)).vec.length)]

theorem prevOf_insertBeforeWrites_ne (t : Tree α) {selfId newId p : Nat}
    {pr : Option Nat} {j : Nat} (h1 : j ≠ selfId) (h2 : j ≠ newId) :
    prevOf (insertBeforeWrites t selfId newId p pr) j = prevOf t j := by
  unfold insertBeforeWrites
  cases pr <;> rw [prevOf_setPrev_ne _ h1] <;> simp [prevOf_setPrev_ne _ h2]

theorem nextOf_insertBeforeWrites_new (t : Tree α) {selfId newId p : Nat}
    {pr : Option Nat} (h : newId < t.vec.length) (hpr : ∀ q, pr = some q → q ≠ newId) :
    nextOf (insertBeforeWrites t selfId newId p pr) newId = some selfId := by
  unfold insertBeforeWrites
  cases hc : pr with
  | none =>
    simp only []
    rw [nextOf_setPrev]
    exact nextOf_setNext_self _ (by simp [h]) _
  | some q =>
    simp only []
    rw [nextOf_setPrev, nextOf_setNext_ne _ (Ne.symm (hpr q hc))]
    exact nextOf_setNext_self _ (by simp [h]) _

theorem nextOf_insertBeforeWrites_pr (t : Tree α) {selfId newId p q : Nat}
    {pr : Option Nat} (hpr : pr = some q) (hq : q < t.vec.length) :
    nextOf (insertBeforeWrites t selfId newId p pr) q = some newId := by
  unfold insertBeforeWrites
  subst hpr
  simp only []
  rw [nextOf_setPrev]
  exact nextOf_setNext_self _ (by simp [hq]) _

theorem nextOf_insertBeforeWrites_ne (t : Tree α) {selfId newId p : Nat}
    {pr : Option Nat} {j : Nat} (h1 : j ≠ newId) (h2 : ∀ q, pr = some q → j ≠ q) :
    nextOf (insertBeforeWrites t selfId newId p pr) j = nextOf t j := by
  unfold insertBeforeWrites
  cases hc : pr with
  | none =>
    simp only []
    rw [nextOf_setPrev, nextOf_setNext_ne _ h1]
    simp
  | some q =>
    simp only []
    rw [nextOf_setPrev, nextOf_setNext_ne _ (h2 q hc), nextOf_setNext_ne _ h1]
    simp

theorem parentOf_insertAfterWrites_new (t : Tree α) {selfId newId p : Nat}
    {nx : Option Nat} (h : newId < t.vec.length) :
    parentOf (insertAfterWrites t selfId newId p nx) newId = some p := by
  unfold insertAfterWrites
  cases nx <;> simp [parentOf_setParent_self t h]

theorem parentOf_insertAfterWrites_ne (t : Tree α) {selfId newId p : Nat}
    {nx : Option Nat} {j : Nat} (h : j ≠ newId) :
    parentOf (insertAfterWrites t selfId newId p nx) j = parentOf t j := by
  unfold insertAfterWrites
  cases nx <;> simp [parentOf_setParent_ne t h]

theorem nextOf_insertAfterWrites_self (t : Tree α) {selfId newId p : Nat}
    {nx : Option Nat} (h : selfId < t.vec.length) :
    nextOf (insertAfterWrites t selfId newId p nx) selfId = some newId := by
  unfold insertAfterWrites
  cases nx <;>
    exact nextOf_setNext_self _ (by simp [h]) _

theorem nextOf_insertAfterWrites_new (t : Tree α) {selfId newId p : Nat}
    {nx : Option Nat} (h : newId < t.vec.length) (hne : selfId ≠ newId) :
    nextOf (insertAfterWrites t selfId newId p nx) newId = nx := by
  unfold insertAfterWrites
  cases nx <;>
    rw [nextOf_setNext_ne _ (Ne.symm hne)] <;>
    simp [nextOf_setNext_self _ (by simp [h] : newId < (setPrev (setParent t newId (some p)) newId (some selfId)).vec.length)]

theorem nextOf_insertAfterWrites_ne (t : Tree α) {selfId newId p : Nat}
    {nx : Option Nat} {j : Nat} (h1 : j ≠ selfId) (h2 : j ≠ newId) :
    nextOf (insertAfterWrites t selfId newId p nx) j = nextOf t j := by
  unfold insertAfterWrites
  cases nx <;> rw [nextOf_setNext_ne _ h1] <;> simp [nextOf_setNext_ne _ h2]

theorem prevOf_insertAfterWrites_new (t : Tree α) {selfId newId p : Nat}
    {nx : Option Nat} (h : newId < t.vec.length) (hnx : ∀ q, nx = some q → q ≠ newId) :
    prevOf (insertAfterWrites t selfId newId p nx) newId = some selfId := by
  unfold insertAfterWrites
  cases hc : nx with
  | none =>
    simp only []
    rw [prevOf_setNext, prevOf_setNext]
    exact prevOf_setPrev_self _ (by simp [h]) _
  | some q =>
    simp only []
    rw [prevOf_setNext, prevOf_setPrev_ne _ (Ne.symm (hnx q hc)), prevOf_setNext]
    exact prevOf_setPrev_self _ (by simp [h]) _

theorem prevOf_insertAfterWrites_nx (t : Tree α) {selfId newId p q : Nat}
    {nx : Option Nat} (hnx : nx = some q) (hq : q < t.vec.length) :
    prevOf (insertAfterWrites t selfId newId p nx) q = some newId := by
  unfold insertAfterWrites
  subst hnx
  simp only []
  rw [prevOf_setNext]
  exact prevOf_setPrev_self _ (by simp [hq]) _


theorem prevOf_insertAfterWrites_ne (t : Tree α) {selfId newId p : Nat}
    {nx : Option Nat} {j : Nat} (h1 : j ≠ newId) (h2 : ∀ q, nx = some q → j ≠ q) :
    prevOf (insertAfterWrites t selfId newId p nx) j = prevOf t j := by
  unfold insertAfterWrites
  cases hc : nx with
  | none =>
    simp only []
    rw [prevOf_setNext, prevOf_setNext, prevOf_setPrev_ne _ h1]
    simp
  | some q =>
    simp only []
    rw [prevOf_setNext, prevOf_setPrev_ne _ (h2 q hc), prevOf_setNext, prevOf_setPrev_ne _ h1]
    simp

/-! ### Field views of the pushed-orphan tree -/

theorem parentOf_orphan_old (t : Tree α) (v : α) {j : Nat} (h : j < t.vec.length) :
    parentOf (orphan t v).1 j = parentOf t j := by
  unfold parentOf
  rw [getNode_orphan_old t v h]

theorem prevOf_orphan_old (t : Tree α) (v : α) {j : Nat} (h : j < t.vec.length) :
    prevOf (orphan t v).1 j = prevOf t j := by
  unfold prevOf
  rw [getNode_orphan_old t v h]

theorem nextOf_orphan_old (t : Tree α) (v : α) {j : Nat} (h : j < t.vec.length) :
    nextOf (orphan t v).1 j = nextOf t j := by
  unfold nextOf
  rw [getNode_orphan_old t v h]

theorem childrenOf_orphan_old (t : Tree α) (v : α) {j : Nat} (h : j < t.vec.length) :
    childrenOf (orphan t v).1 j = childrenOf t j := by
  unfold childrenOf
  rw [getNode_orphan_old t v h]

theorem valueOf_orphan_old (t : Tree α) (v : α) {j : Nat} (h : j < t.vec.length) :
    valueOf (orphan t v).1 j = valueOf t j := by
  unfold valueOf
  rw [getNode_orphan_old t v h]

theorem valueOf_orphan_new (t : Tree α) (v : α) :
    valueOf (orphan t v).1 t.vec.length = some v := by
  unfold valueOf
  rw [getNode_orphan_new]
  rfl

theorem getNode_lt_length {t : Tree α} {i : Nat} {n : Node α}
    (h : getNode t i = some n) : i < t.vec.length :=
  (List.getElem?_eq_some_iff.mp h).1

theorem getNode_setParent_self (t : Tree α) (i : Nat) (o : Option Nat) :
    getNode (setParent t i o) i =
      (getNode t i).map (fun n => { n with parent := o }) := by
  rw [setParent, getNode_modifyNode, if_pos rfl]

theorem getNode_setPrev_self (t : Tree α) (i : Nat) (o : Option Nat) :
    getNode (setPrev t i o) i =
      (getNode t i).map (fun n => { n with prev_sibling := o }) := by
  rw [setPrev, getNode_modifyNode, if_pos rfl]

theorem getNode_setNext_self (t : Tree α) (i : Nat) (o : Option Nat) :
    getNode (setNext t i o) i =
      (getNode t i).map (fun n => { n with next_sibling := o }) := by
  rw [setNext, getNode_modifyNode, if_pos rfl]

theorem getNode_setChildren_self (t : Tree α) (i : Nat) (o : Option (Nat × Nat)) :
    getNode (setChildren t i o) i =
      (getNode t i).map (fun n => { n with children := o }) := by
  rw [setChildren, getNode_modifyNode, if_pos rfl]

theorem parentOf_eq {t : Tree α} {i : Nat} {n : Node α} (h : getNode t i = some n) :
    parentOf t i = n.parent := by
  unfold parentOf
  rw [h]
  rfl

theorem prevOf_eq {t : Tree α} {i : Nat} {n : Node α} (h : getNode t i = some n) :
    prevOf t i = n.prev_sibling := by
  unfold prevOf
  rw [h]
  rfl

theorem nextOf_eq {t : Tree α} {i : Nat} {n : Node α} (h : getNode t i = some n) :
    nextOf t i = n.next_sibling := by
  unfold nextOf
  rw [h]
  rfl

theorem childrenOf_eq {t : Tree α} {i : Nat} {n : Node α} (h : getNode t i = some n) :
    childrenOf t i = n.children := by
  unfold childrenOf
  rw [h]
  rfl

theorem childrenOf_lt_length {t : Tree α} {i : Nat} {fl : Nat × Nat}
    (h : childrenOf t i = some fl) : i < t.vec.length := by
  unfold childrenOf at h
  cases hg : getNode t i with
  | none => rw [hg] at h; simp at h
  | some n => exact getNode_lt_length hg

/-! ## Claim theorems -/

/-- C7: detaching a node whose parent is absent (the root, or any orphan)
returns the tree unchanged — the whole topology is untouched. -/
theorem detach_orphan_or_root_noop (t : Tree α) (i : Nat) (n : Node α)
    (hget : getNode t i = some n) (hp : n.parent = none) :
    detach t i = some t :=
  detach_run_orphan hget hp

/-- Witness for C7 at a concrete input: detaching the root of a fresh
two-node tree is a no-op. -/
theorem detach_orphan_or_root_noop_witness :
    detach (Tree.new 5) 0 = some (Tree.new 5) :=
  detach_orphan_or_root_noop (Tree.new 5) 0 (Node.new 5) rfl rfl

/-- C6: on a consistent state, `insert_before` and `insert_after` panic
exactly when the node has no parent; on success the new node (at the fresh
handle) is linked as the immediate previous (resp. next) sibling of the
node, under the same parent, with the old neighbour repointed at it. -/
theorem insert_before_after_spec (t : Tree α) (i : Nat) (n : Node α) (v : α)
    (hget : getNode t i = some n)
    (hpc : ∀ q, n.parent = some q → (childrenOf t q).isSome)
    (hprev : ∀ q, n.prev_sibling = some q → q < t.vec.length)
    (hnext : ∀ q, n.next_sibling = some q → q < t.vec.length) :
    (insert_before t i v = none ↔ n.parent = none) ∧
    (insert_after t i v = none ↔ n.parent = none) ∧
    (∀ t' newId, insert_before t i v = some (t', newId) →
      newId = t.vec.length ∧
      parentOf t' newId = n.parent ∧
      parentOf t' i = n.parent ∧
      nextOf t' newId = some i ∧
      prevOf t' i = some newId ∧
      prevOf t' newId = n.prev_sibling ∧
      (∀ q, n.prev_sibling = some q → nextOf t' q = some newId) ∧
      valueOf t' newId = some v) ∧
    (∀ t' newId, insert_after t i v = some (t', newId) →
      newId = t.vec.length ∧
      parentOf t' newId = n.parent ∧
      parentOf t' i = n.parent ∧
      prevOf t' newId = some i ∧
      nextOf t' i = some newId ∧
      nextOf t' newId = n.next_sibling ∧
      (∀ q, n.next_sibling = some q → prevOf t' q = some newId) ∧
      valueOf t' newId = some v) := by
  have hi : i < t.vec.length := getNode_lt_length hget
  have hget1 : getNode (orphan t v).1 i = some n := by
    rw [getNode_orphan_old t v hi, hget]
  have hnew1 : getNode (orphan t v).1 t.vec.length = some (Node.new v) :=
    getNode_orphan_new t v
  have hii : i ≠ t.vec.length := Nat.ne_of_lt hi
  cases hp : n.parent with
  | none =>
    have hb : insert_id_before (orphan t v).1 i t.vec.length = none :=
      insert_id_before_orphan_fail hget1 hp
    have ha : insert_id_after (orphan t v).1 i t.vec.length = none :=
      insert_id_after_orphan_fail hget1 hp
    refine ⟨?_, ?_, ?_, ?_⟩
    · simp [insert_before, orphan] at hb ⊢
      simp [hb]
    · simp [insert_after, orphan] at ha ⊢
      simp [ha]
    · intro t' newId habs
      simp [insert_before, orphan] at hb habs
      simp [hb] at habs
    · intro t' newId habs
      simp [insert_after, orphan] at ha habs
      simp [ha] at habs
  | some p =>
    obtain ⟨⟨f, l⟩, hcs⟩ := Option.isSome_iff_exists.mp (hpc p hp)
    have hc1 : childrenOf (orphan t v).1 p = some (f, l) := by
      rw [childrenOf_orphan_old t v (childrenOf_lt_length hcs), hcs]
    have hrunb := insert_id_before_run hget1 hp hnew1 hc1
    have hruna := insert_id_after_run hget1 hp hnew1 hc1
    have hlen1 : t.vec.length < (orphan t v).1.vec.length := by simp
    have hprq : ∀ q, n.prev_sibling = some q → q ≠ t.vec.length :=
      fun q hq => Nat.ne_of_lt (hprev q hq)
    have hnxq : ∀ q, n.next_sibling = some q → q ≠ t.vec.length :=
      fun q hq => Nat.ne_of_lt (hnext q hq)
    refine ⟨?_, ?_, ?_, ?_⟩
    · constructor
      · intro habs
        simp [insert_before, orphan] at habs
        rw [show (⟨t.vec ++ [Node.new v]⟩ : Tree α) = (orphan t v).1 from rfl] at habs
        simp [hrunb] at habs
      · intro habs
        exact absurd habs (by simp)
    · constructor
      · intro habs
        simp [insert_after, orphan] at habs
        rw [show (⟨t.vec ++ [Node.new v]⟩ : Tree α) = (orphan t v).1 from rfl] at habs
        simp [hruna] at habs
      · intro habs
        exact absurd habs (by simp)
    · intro t' newId heq
      have heq2 : (insert_id_before (orphan t v).1 i t.vec.length).map
          (fun t2 => (t2, t.vec.length)) = some (t', newId) := heq
      rw [hrunb, Option.map_some'] at heq2
      have hpair := Option.some.inj heq2
      have ht' := congrArg Prod.fst hpair
      have hid := (congrArg Prod.snd hpair).symm
      simp only [] at ht' hid
      subst hid
      have hTpar : ∀ j, parentOf t' j =
          parentOf (insertBeforeWrites (orphan t v).1 i t.vec.length p n.prev_sibling) j := by
        intro j
        rw [← ht']
        split <;> simp
      have hTprev : ∀ j, prevOf t' j =
          prevOf (insertBeforeWrites (orphan t v).1 i t.vec.length p n.prev_sibling) j := by
        intro j
        rw [← ht']
        split <;> simp
      have hTnext : ∀ j, nextOf t' j =
          nextOf (insertBeforeWrites (orphan t v).1 i t.vec.length p n.prev_sibling) j := by
        intro j
        rw [← ht']
        split <;> simp
      have hTval : ∀ j, valueOf t' j =
          valueOf (insertBeforeWrites (orphan t v).1 i t.vec.length p n.prev_sibling) j := by
        intro j
        rw [← ht']
        split <;> simp
      refine ⟨rfl, ?_, ?_, ?_, ?_, ?_, ?_, ?_⟩
      · rw [hTpar, parentOf_insertBeforeWrites_new _ hlen1]
      · rw [hTpar, parentOf_insertBeforeWrites_ne _ hii, parentOf_orphan_old t v hi,
          parentOf_eq hget]
        exact hp
      · rw [hTnext, nextOf_insertBeforeWrites_new _ hlen1 hprq]
      · rw [hTprev,
          prevOf_insertBeforeWrites_self _ (by simpa using Nat.lt_succ_of_lt hi)]
      · rw [hTprev, prevOf_insertBeforeWrites_new _ hlen1 hii]
      · intro q hq
        rw [hTnext, nextOf_insertBeforeWrites_pr _ hq
          (by simpa using Nat.lt_succ_of_lt (hprev q hq))]
      · rw [hTval, valueOf_insertBeforeWrites, valueOf_orphan_new]
    · intro t' newId heq
      have heq2 : (insert_id_after (orphan t v).1 i t.vec.length).map
          (fun t2 => (t2, t.vec.length)) = some (t', newId) := heq
      rw [hruna, Option.map_some'] at heq2
      have hpair := Option.some.inj heq2
      have ht' := congrArg Prod.fst hpair
      have hid := (congrArg Prod.snd hpair).symm
      simp only [] at ht' hid
      subst hid
      have hTpar : ∀ j, parentOf t' j =
          parentOf (insertAfterWrites (orphan t v).1 i t.vec.length p n.next_sibling) j := by
        intro j
        rw [← ht']
        split <;> simp
      have hTprev : ∀ j, prevOf t' j =
          prevOf (insertAfterWrites (orphan t v).1 i t.vec.length p n.next_sibling) j := by
        intro j
        rw [← ht']
        split <;> simp
      have hTnext : ∀ j, nextOf t' j =
          nextOf (insertAfterWrites (orphan t v).1 i t.vec.length p n.next_sibling) j := by
        intro j
        rw [← ht']
        split <;> simp
      have hTval : ∀ j, valueOf t' j =
          valueOf (insertAfterWrites (orphan t v).1 i t.vec.length p n.next_sibling) j := by
        intro j
        rw [← ht']
        split <;> simp
      refine ⟨rfl, ?_, ?_, ?_, ?_, ?_, ?_, ?_⟩
      · rw [hTpar, parentOf_insertAfterWrites_new _ hlen1]
      · rw [hTpar, parentOf_insertAfterWrites_ne _ hii, parentOf_orphan_old t v hi,
          parentOf_eq hget]
        exact hp
      · rw [hTprev, prevOf_insertAfterWrites_new _ hlen1 hnxq]
      · rw [hTnext,
          nextOf_insertAfterWrites_self _ (by simpa using Nat.lt_succ_of_lt hi)]
      · rw [hTnext, nextOf_insertAfterWrites_new _ hlen1 hii]
      · intro q hq
        rw [hTprev, prevOf_insertAfterWrites_nx _ hq
          (by simpa using Nat.lt_succ_of_lt (hnext q hq))]
      · rw [hTval, valueOf_insertAfterWrites, valueOf_orphan_new]

/-- Transfer a `Chain'` along a relation implication that may use membership
of both endpoints. -/
theorem chain'_transfer {β : Type} {R S : β → β → Prop} {l : List β}
    (h : ∀ a ∈ l, ∀ b ∈ l, R a b → S a b) (hc : l.Chain' R) : l.Chain' S := by
  rw [List.chain'_iff_get] at hc ⊢
  intro i hi
  exact h _ (List.get_mem _ _ _) _ (List.get_mem _ _ _) (hc i hi)

/-- C4: `reparent_from_id_append` splices the source's child list onto the
end of this node's child list: afterwards the children of `n` are exactly
the old children followed by the source's old children, the source has no
children, and no value changes; with a childless source it is a no-op. -/
theorem reparent_from_id_append_spec (t : Tree α) (n s : Nat) (cs ds : List Nat)
    (hn : LinkChain t n cs) (hs : LinkChain t s ds) (hns : n ≠ s)
    (hvn : n < t.vec.length) (hvs : s < t.vec.length)
    (hdisj : cs.Disjoint ds) :
    (reparent_from_id_append t n s).isSome ∧
    (ds = [] → reparent_from_id_append t n s = some t) ∧
    (∀ t', reparent_from_id_append t n s = some t' →
      childIds t' n = cs ++ ds ∧ childrenOf t' s = none ∧
      ∀ j, valueOf t' j = valueOf t j) := by
  obtain ⟨hchn, hheadn, hlastn, hbdn, hndn, hvaln⟩ := hn
  obtain ⟨hchs, hheads, hlasts, hbds, hnds, hvals⟩ := hs
  have hgn : getNode t n = some (t.vec[n]) := getNode_eq_some t hvn
  have hgs : getNode t s = some (t.vec[s]) := getNode_eq_some t hvs
  have hscb : (t.vec[s]).children = boundsOf ds := by
    rw [← childrenOf_eq hgs]
    exact hbds
  cases hds : ds with
  | nil =>
    have hrun : reparent_from_id_append t n s = some t := by
      unfold reparent_from_id_append
      simp only [hgn, hgs, hscb, hds]
      rfl
    refine ⟨by rw [hrun]; rfl, fun _ => hrun, ?_⟩
    intro t' ht'
    rw [hrun] at ht'
    cases ht'
    refine ⟨?_, ?_, fun j => rfl⟩
    · rw [childIds_of_LinkChain ⟨hchn, hheadn, hlastn, hbdn, hndn, hvaln⟩]
      simp
    · rw [hbds, hds]
      rfl
  | cons d ds2 =>
    subst hds
    cases hdl : (d :: ds2).getLast? with
    | none => simp at hdl
    | some dl =>
    have hdmem : d ∈ d :: ds2 := by simp
    have hdlmem : dl ∈ d :: ds2 := List.mem_of_mem_getLast? hdl
    have hbds2 : boundsOf (d :: ds2) = some (d, dl) := by
      unfold boundsOf
      rw [hdl]
      rfl
    have hvd : d < t.vec.length := hvals d hdmem
    have hvdl : dl < t.vec.length := hvals dl hdlmem
    -- the take and the two endpoint parent writes
    have hc2 : childrenOf
        (setParent (setParent (setChildren t s none) d (some n)) dl (some n)) n
        = boundsOf cs := by
      rw [childrenOf_setParent, childrenOf_setParent,
        childrenOf_setChildren_ne _ hns, hbdn]
    cases hcs : cs with
    | nil =>
      subst hcs
      have hc2n : childrenOf
          (setParent (setParent (setChildren t s none) d (some n)) dl (some n)) n
          = none := by
        rw [hc2]
        rfl
      have hrun : reparent_from_id_append t n s =
          some (setChildren
            (setParent (setParent (setChildren t s none) d (some n)) dl (some n))
            n (some (d, dl))) := by
        unfold reparent_from_id_append
        simp only [hgn, hgs, hscb, hbds2, hc2n]
      refine ⟨by rw [hrun]; rfl, by simp, ?_⟩
      intro t' ht'
      rw [hrun] at ht'
      cases ht'
      set t2 := setParent (setParent (setChildren t s none) d (some n)) dl (some n)
      have hN : ∀ j, nextOf (setChildren t2 n (some (d, dl))) j = nextOf t j := by
        intro j
        simp [t2]
      have hP : ∀ j, prevOf (setChildren t2 n (some (d, dl))) j = prevOf t j := by
        intro j
        simp [t2]
      refine ⟨?_, ?_, ?_⟩
      · unfold childIds
        have hcn : childrenOf (setChildren t2 n (some (d, dl))) n = some (d, dl) :=
          childrenOf_setChildren_self _ (by simp [t2, hvn]) _
        rw [hcn]
        have hlen : (setChildren t2 n (some (d, dl))).vec.length = t.vec.length := by
          simp [t2]
        have hchain' : (d :: ds2).Chain' (SibLink (setChildren t2 n (some (d, dl)))) := by
          refine chain'_transfer (fun a _ b _ hab => ?_) hchs
          exact ⟨(hN a).trans hab.1, (hP b).trans hab.2⟩
        have hlast' : ∀ l2 ∈ (d :: ds2).getLast?,
            nextOf (setChildren t2 n (some (d, dl))) l2 = none := by
          intro l2 hl2
          rw [hN]
          exact hlasts l2 hl2
        have := sibChain_eq (setChildren t2 n (some (d, dl))) (d :: ds2) hchain' hlast'
          (setChildren t2 n (some (d, dl))).vec.length
          (by rw [hlen]; exact chain_length_le t _ hnds hvals)
        simpa using this
      · rw [childrenOf_setChildren_ne _ (Ne.symm hns)]
        simp [t2]
        exact childrenOf_setChildren_self _ hvs _
      · intro j
        simp [t2]
    | cons c cs2 =>
      subst hcs
      cases hcl : (c :: cs2).getLast? with
      | none => simp at hcl
      | some cl =>
      have hcmem : c ∈ c :: cs2 := by simp
      have hclmem : cl ∈ c :: cs2 := List.mem_of_mem_getLast? hcl
      have hbcs2 : boundsOf (c :: cs2) = some (c, cl) := by
        unfold boundsOf
        rw [hcl]
        rfl
      have hvc : c < t.vec.length := hvaln c hcmem
      have hvcl : cl < t.vec.length := hvaln cl hclmem
      have hclne : cl ≠ d := fun h => hdisj (h ▸ hclmem) hdmem
      have hdlne : dl ≠ cl := fun h => hdisj (h ▸ hclmem) hdlmem
      have hcne : c ≠ d := fun h => hdisj (h ▸ hcmem) hdmem
      set t2 := setParent (setParent (setChildren t s none) d (some n)) dl (some n)
        with ht2
      set t4 := setPrev (setNext t2 cl (some d)) d (some cl) with ht4
      have hc2c : childrenOf
          (setParent (setParent (setChildren t s none) d (some n)) dl (some n)) n
          = some (c, cl) := by
        rw [hc2, hbcs2]
      have hrun : reparent_from_id_append t n s =
          some (setChildren t4 n (some (c, dl))) := by
        unfold reparent_from_id_append
        simp only [hgn, hgs, hscb, hbds2, hc2c, ht4, ht2]
      refine ⟨by rw [hrun]; rfl, by simp, ?_⟩
      intro t' ht'
      rw [hrun] at ht'
      cases ht'
      have hlen : (setChildren t4 n (some (c, dl))).vec.length = t.vec.length := by
        simp [t4, t2]
      have hN : ∀ j, j ≠ cl → nextOf (setChildren t4 n (some (c, dl))) j = nextOf t j := by
        intro j hj
        simp only [nextOf_setChildren, t4, t2, nextOf_setPrev]
        rw [nextOf_setNext_ne _ hj]
        simp
      have hNcl : nextOf (setChildren t4 n (some (c, dl))) cl = some d := by
        simp only [nextOf_setChildren, t4, nextOf_setPrev]
        exact nextOf_setNext_self _ (by simp [t2, hvcl]) _
      have hP : ∀ j, j ≠ d → prevOf (setChildren t4 n (some (c, dl))) j = prevOf t j := by
        intro j hj
        simp only [prevOf_setChildren, t4, t2]
        rw [prevOf_setPrev_ne _ hj]
        simp
      have hPd : prevOf (setChildren t4 n (some (c, dl))) d = some cl := by
        simp only [prevOf_setChildren, t4]
        exact prevOf_setPrev_self _ (by simp [t2, hvd]) _
      refine ⟨?_, ?_, ?_⟩
      · unfold childIds
        have hcn : childrenOf (setChildren t4 n (some (c, dl))) n = some (c, dl) :=
          childrenOf_setChildren_self _ (by simp [t4, t2, hvn]) _
        rw [hcn]
        have hchain' : ((c :: cs2) ++ (d :: ds2)).Chain'
            (SibLink (setChildren t4 n (some (c, dl)))) := by
          rw [List.chain'_append]
          refine ⟨?_, ?_, ?_⟩
          · refine chain'_transfer (fun a ha b hb hab => ?_) hchn
            have hacl : a ≠ cl := by
              intro h
              have hx := h ▸ hab.1
              rw [hlastn cl hcl] at hx
              exact absurd hx (by simp)
            have hbd : b ≠ d := fun h => hdisj (h ▸ hb) hdmem
            exact ⟨(hN a hacl).trans hab.1, (hP b hbd).trans hab.2⟩
          · refine chain'_transfer (fun a ha b hb hab => ?_) hchs
            have hacl : a ≠ cl := fun h => hdisj (h ▸ hclmem) (h ▸ ha)
            have hbd : b ≠ d := by
              intro h
              have hx := h ▸ hab.2
              rw [hheads d rfl] at hx
              exact absurd hx (by simp)
            exact ⟨(hN a hacl).trans hab.1, (hP b hbd).trans hab.2⟩
          · intro x hx y hy
            rw [hcl] at hx
            cases hx
            cases hy
            exact ⟨hNcl, hPd⟩
        have hlast' : ∀ l2 ∈ ((c :: cs2) ++ (d :: ds2)).getLast?,
            nextOf (setChildren t4 n (some (c, dl))) l2 = none := by
          intro l2 hl2
          rw [List.getLast?_append_of_ne_nil _ (by simp), hdl] at hl2
          cases hl2
          rw [hN dl hdlne]
          exact hlasts dl hdl
        have hnd' : ((c :: cs2) ++ (d :: ds2)).Nodup :=
          List.Nodup.append hndn hnds hdisj
        have hval' : ∀ x ∈ (c :: cs2) ++ (d :: ds2), x < t.vec.length := by
          intro x hx
          rcases List.mem_append.mp hx with h | h
          · exact hvaln x h
          · exact hvals x h
        have := sibChain_eq (setChildren t4 n (some (c, dl)))
          ((c :: cs2) ++ (d :: ds2))
          hchain' hlast'
          (setChildren t4 n (some (c, dl))).vec.length
          (by rw [hlen]; exact chain_length_le t _ hnd' hval')
        simpa using this
      · rw [childrenOf_setChildren_ne _ (Ne.symm hns)]
        simp only [t4, t2, childrenOf_setPrev, childrenOf_setNext, childrenOf_setParent]
        exact childrenOf_setChildren_self _ hvs _
      · intro j
        simp [t4, t2]

/-- `append_id` of an orphan node onto a linked child list: the chain gains
the node at the end, its parent is set, and everything else is untouched. -/
theorem append_id_orphan_chain (t : Tree α) (p newId : Nat) (cs : List Nat)
    (m : Node α) (hc : LinkChain t p cs) (hvp : p < t.vec.length)
    (hnew : getNode t newId = some m) (hmp : m.parent = none)
    (hmn : m.next_sibling = none) (hfresh : newId ∉ cs) (hnp : newId ≠ p) :
    ∃ t', append_id t p newId = some t' ∧
      LinkChain t' p (cs ++ [newId]) ∧
      parentOf t' newId = some p ∧
      (∀ j, j ≠ newId → parentOf t' j = parentOf t j) ∧
      (∀ j, j ≠ p → childrenOf t' j = childrenOf t j) ∧
      (∀ j, valueOf t' j = valueOf t j) ∧
      t'.vec.length = t.vec.length := by
  obtain ⟨hch, hhead, hlast, hbd, hnd, hval⟩ := hc
  have hgp : getNode t p = some (t.vec[p]) := getNode_eq_some t hvp
  have hpc : (t.vec[p]).children = boundsOf cs := by
    rw [← childrenOf_eq hgp]
    exact hbd
  have hdet : detach t newId = some t := detach_run_orphan hnew hmp
  have hvnew := getNode_lt_length hnew
  cases hcs : cs with
  | nil =>
    subst hcs
    have hlastC : (t.vec[p]).children.map Prod.snd = none := by
      rw [hpc]
      rfl
    have hc3 : childrenOf (setPrev (setParent t newId (some p)) newId none) p
        = none := by
      simp only [childrenOf_setPrev, childrenOf_setParent]
      rw [hbd]
      rfl
    refine ⟨setChildren (setPrev (setParent t newId (some p)) newId none) p
      (some (newId, newId)), ?_, ?_, ?_, ?_, ?_, ?_, ?_⟩
    · unfold append_id
      simp only [hgp, hnew, hdet, hlastC, hc3]
    · refine ⟨by simp, ?_, ?_, ?_, by simp, ?_⟩
      · intro h hh
        cases hh
        simp only [prevOf_setChildren]
        exact prevOf_setPrev_self _ (by simp [hvnew]) _
      · intro l hl
        have hlid : newId = l := by simpa using hl
        subst hlid
        simp only [nextOf_setChildren, nextOf_setPrev, nextOf_setParent]
        rw [nextOf_eq hnew, hmn]
      · rw [childrenOf_setChildren_self _ (by simp [hvp]) _]
        rfl
      · intro x hx
        simp at hx
        simpa [hx] using hvnew
    · simp only [parentOf_setChildren, parentOf_setPrev]
      exact parentOf_setParent_self _ (by simp [hvnew]) _
    · intro j hj
      simp [parentOf_setParent_ne _ hj]
    · intro j hj
      simp [childrenOf_setChildren_ne _ hj]
    · intro j
      simp
    · simp
  | cons c cs2 =>
    subst hcs
    cases hL : (c :: cs2).getLast? with
    | none => simp at hL
    | some L =>
    have hbnds : boundsOf (c :: cs2) = some (c, L) := by
      unfold boundsOf
      rw [hL]
      rfl
    have hLmem : L ∈ c :: cs2 := List.mem_of_mem_getLast? hL
    have hcmem : c ∈ c :: cs2 := by simp
    have hvL : L < t.vec.length := hval L hLmem
    have hLnew : L ≠ newId := fun h => hfresh (h ▸ hLmem)
    have hcnew : c ≠ newId := fun h => hfresh (h ▸ hcmem)
    have hlastC : (t.vec[p]).children.map Prod.snd = some L := by
      rw [hpc, hbnds]
      rfl
    have hc3 : childrenOf
        (setNext (setPrev (setParent t newId (some p)) newId (some L)) L (some newId)) p
        = some (c, L) := by
      simp only [childrenOf_setNext, childrenOf_setPrev, childrenOf_setParent]
      rw [hbd, hbnds]
    refine ⟨setChildren
      (setNext (setPrev (setParent t newId (some p)) newId (some L)) L (some newId)) p
      (some (c, newId)), ?_, ?_, ?_, ?_, ?_, ?_, ?_⟩
    · unfold append_id
      simp only [hgp, hnew, hdet, hlastC, hc3]
    · have hN : ∀ j, j ≠ L → nextOf (setChildren
          (setNext (setPrev (setParent t newId (some p)) newId (some L)) L (some newId)) p
          (some (c, newId))) j = nextOf t j := by
        intro j hj
        simp only [nextOf_setChildren]
        rw [nextOf_setNext_ne _ hj]
        simp
      have hNL : nextOf (setChildren
          (setNext (setPrev (setParent t newId (some p)) newId (some L)) L (some newId)) p
          (some (c, newId))) L = some newId := by
        simp only [nextOf_setChildren]
        exact nextOf_setNext_self _ (by simp [hvL]) _
      have hP : ∀ j, j ≠ newId → prevOf (setChildren
          (setNext (setPrev (setParent t newId (some p)) newId (some L)) L (some newId)) p
          (some (c, newId))) j = prevOf t j := by
        intro j hj
        simp only [prevOf_setChildren, prevOf_setNext]
        rw [prevOf_setPrev_ne _ hj]
        simp
      have hPnew : prevOf (setChildren
          (setNext (setPrev (setParent t newId (some p)) newId (some L)) L (some newId)) p
          (some (c, newId))) newId = some L := by
        simp only [prevOf_setChildren, prevOf_setNext]
        exact prevOf_setPrev_self _ (by simp [hvnew]) _
      refine ⟨?_, ?_, ?_, ?_, ?_, ?_⟩
      · rw [List.chain'_append]
        refine ⟨?_, by simp, ?_⟩
        · refine chain'_transfer (fun a ha b hb hab => ?_) hch
          have haL : a ≠ L := by
            intro h
            have hx := h ▸ hab.1
            rw [hlast L hL] at hx
            exact absurd hx (by simp)
          have hbnew : b ≠ newId := fun h => hfresh (h ▸ hb)
          exact ⟨(hN a haL).trans hab.1, (hP b hbnew).trans hab.2⟩
        · intro x hx y hy
          rw [hL] at hx
          cases hx
          cases hy
          exact ⟨hNL, hPnew⟩
      · intro h hh
        rw [List.head?_append_of_ne_nil _ (by simp)] at hh
        cases hh
        rw [hP c hcnew]
        exact hhead c rfl
      · intro l hl
        rw [List.getLast?_append_of_ne_nil _ (by simp)] at hl
        have hlid : newId = l := by simpa using hl
        subst hlid
        rw [hN newId (Ne.symm hLnew), nextOf_eq hnew, hmn]
      · rw [childrenOf_setChildren_self _ (by simp [hvp]) _]
        unfold boundsOf
        rw [List.getLast?_append_of_ne_nil _ (by simp)]
        rfl
      · rw [List.nodup_append]
        refine ⟨hnd, by simp, ?_⟩
        intro x hx hmem
        rw [List.mem_singleton] at hmem
        exact hfresh (hmem ▸ hx)
      · intro x hx
        simp only [List.mem_append, List.mem_singleton] at hx
        rcases hx with h | h
        · simpa using hval x h
        · simpa [h] using hvnew
    · simp only [parentOf_setChildren, parentOf_setNext, parentOf_setPrev]
      exact parentOf_setParent_self _ (by simp [hvnew]) _
    · intro j hj
      simp [parentOf_setParent_ne _ hj]
    · intro j hj
      simp [childrenOf_setChildren_ne _ hj]
    · intro j
      simp
    · simp

/-- `prepend_id` of an orphan node onto a linked child list: the chain gains
the node at the front. -/
theorem prepend_id_orphan_chain (t : Tree α) (p newId : Nat) (cs : List Nat)
    (m : Node α) (hc : LinkChain t p cs) (hvp : p < t.vec.length)
    (hnew : getNode t newId = some m) (hmp : m.parent = none)
    (hmq : m.prev_sibling = none) (hfresh : newId ∉ cs) (hnp : newId ≠ p) :
    ∃ t', prepend_id t p newId = some t' ∧
      LinkChain t' p (newId :: cs) ∧
      parentOf t' newId = some p ∧
      (∀ j, j ≠ newId → parentOf t' j = parentOf t j) ∧
      (∀ j, j ≠ p → childrenOf t' j = childrenOf t j) ∧
      (∀ j, valueOf t' j = valueOf t j) ∧
      t'.vec.length = t.vec.length := by
  obtain ⟨hch, hhead, hlast, hbd, hnd, hval⟩ := hc
  have hgp : getNode t p = some (t.vec[p]) := getNode_eq_some t hvp
  have hpc : (t.vec[p]).children = boundsOf cs := by
    rw [← childrenOf_eq hgp]
    exact hbd
  have hdet : detach t newId = some t := detach_run_orphan hnew hmp
  have hvnew := getNode_lt_length hnew
  cases hcs : cs with
  | nil =>
    subst hcs
    have hfirstC : (t.vec[p]).children.map Prod.fst = none := by
      rw [hpc]
      rfl
    have hc3 : childrenOf (setNext (setParent t newId (some p)) newId none) p
        = none := by
      simp only [childrenOf_setNext, childrenOf_setParent]
      rw [hbd]
      rfl
    refine ⟨setChildren (setNext (setParent t newId (some p)) newId none) p
      (some (newId, newId)), ?_, ?_, ?_, ?_, ?_, ?_, ?_⟩
    · unfold prepend_id
      simp only [hgp, hnew, hdet, hfirstC, hc3]
    · refine ⟨by simp, ?_, ?_, ?_, by simp, ?_⟩
      · intro h hh
        cases hh
        simp only [prevOf_setChildren, prevOf_setNext, prevOf_setParent]
        rw [prevOf_eq hnew, hmq]
      · intro l hl
        have hlid : newId = l := by simpa using hl
        subst hlid
        simp only [nextOf_setChildren]
        exact nextOf_setNext_self _ (by simp [hvnew]) _
      · rw [childrenOf_setChildren_self _ (by simp [hvp]) _]
        rfl
      · intro x hx
        simp at hx
        simpa [hx] using hvnew
    · simp only [parentOf_setChildren, parentOf_setNext]
      exact parentOf_setParent_self _ (by simp [hvnew]) _
    · intro j hj
      simp [parentOf_setParent_ne _ hj]
    · intro j hj
      simp [childrenOf_setChildren_ne _ hj]
    · intro j
      simp
    · simp
  | cons c cs2 =>
    subst hcs
    cases hL : (c :: cs2).getLast? with
    | none => simp at hL
    | some L =>
    have hbnds : boundsOf (c :: cs2) = some (c, L) := by
      unfold boundsOf
      rw [hL]
      rfl
    have hLmem : L ∈ c :: cs2 := List.mem_of_mem_getLast? hL
    have hcmem : c ∈ c :: cs2 := by simp
    have hvc : c < t.vec.length := hval c hcmem
    have hLnew : L ≠ newId := fun h => hfresh (h ▸ hLmem)
    have hcnew : c ≠ newId := fun h => hfresh (h ▸ hcmem)
    have hfirstC : (t.vec[p]).children.map Prod.fst = some c := by
      rw [hpc, hbnds]
      rfl
    have hc3 : childrenOf
        (setPrev (setNext (setParent t newId (some p)) newId (some c)) c (some newId)) p
        = some (c, L) := by
      simp only [childrenOf_setPrev, childrenOf_setNext, childrenOf_setParent]
      rw [hbd, hbnds]
    refine ⟨setChildren
      (setPrev (setNext (setParent t newId (some p)) newId (some c)) c (some newId)) p
      (some (newId, L)), ?_, ?_, ?_, ?_, ?_, ?_, ?_⟩
    · unfold prepend_id
      simp only [hgp, hnew, hdet, hfirstC, hc3]
    · have hP : ∀ j, j ≠ c → prevOf (setChildren
          (setPrev (setNext (setParent t newId (some p)) newId (some c)) c (some newId)) p
          (some (newId, L))) j = prevOf t j := by
        intro j hj
        simp only [prevOf_setChildren]
        rw [prevOf_setPrev_ne _ hj]
        simp
      have hPc : prevOf (setChildren
          (setPrev (setNext (setParent t newId (some p)) newId (some c)) c (some newId)) p
          (some (newId, L))) c = some newId := by
        simp only [prevOf_setChildren]
        exact prevOf_setPrev_self _ (by simp [hvc]) _
      have hN : ∀ j, j ≠ newId → nextOf (setChildren
          (setPrev (setNext (setParent t newId (some p)) newId (some c)) c (some newId)) p
          (some (newId, L))) j = nextOf t j := by
        intro j hj
        simp only [nextOf_setChildren, nextOf_setPrev]
        rw [nextOf_setNext_ne _ hj]
        simp
      have hNnew : nextOf (setChildren
          (setPrev (setNext (setParent t newId (some p)) newId (some c)) c (some newId)) p
          (some (newId, L))) newId = some c := by
        simp only [nextOf_setChildren, nextOf_setPrev]
        exact nextOf_setNext_self _ (by simp [hvnew]) _
      refine ⟨?_, ?_, ?_, ?_, ?_, ?_⟩
      · rw [show (newId :: c :: cs2) = [newId] ++ (c :: cs2) from rfl,
          List.chain'_append]
        refine ⟨by simp, ?_, ?_⟩
        · refine chain'_transfer (fun a ha b hb hab => ?_) hch
          have hanew : a ≠ newId := fun h => hfresh (h ▸ ha)
          have hbc : b ≠ c := by
            intro h
            have hx := h ▸ hab.2
            rw [hhead c rfl] at hx
            exact absurd hx (by simp)
          exact ⟨(hN a hanew).trans hab.1, (hP b hbc).trans hab.2⟩
        · intro x hx y hy
          cases hx
          cases hy
          exact ⟨hNnew, hPc⟩
      · intro h hh
        cases hh
        rw [hP newId (Ne.symm hcnew), prevOf_eq hnew, hmq]
      · intro l hl
        rw [show (newId :: c :: cs2).getLast? = (c :: cs2).getLast? from rfl, hL] at hl
        cases hl
        rw [hN L hLnew]
        exact hlast L hL
      · rw [childrenOf_setChildren_self _ (by simp [hvp]) _]
        unfold boundsOf
        rw [show (newId :: c :: cs2).getLast? = (c :: cs2).getLast? from rfl, hL]
        rfl
      · rw [List.nodup_cons]
        exact ⟨hfresh, hnd⟩
      · intro x hx
        rcases List.mem_cons.mp hx with h | h
        · simpa [h] using hvnew
        · simpa using hval x h
    · simp only [parentOf_setChildren, parentOf_setPrev, parentOf_setNext]
      exact parentOf_setParent_self _ (by simp [hvnew]) _
    · intro j hj
      simp [parentOf_setParent_ne _ hj]
    · intro j hj
      simp [childrenOf_setChildren_ne _ hj]
    · intro j
      simp
    · simp

/-- Pushing a fresh orphan preserves any linked child list. -/
theorem LinkChain_orphan (t : Tree α) (p : Nat) (cs : List Nat) (v : α)
    (hc : LinkChain t p cs) (hvp : p < t.vec.length) :
    LinkChain (orphan t v).1 p cs := by
  obtain ⟨hch, hhead, hlast, hbd, hnd, hval⟩ := hc
  refine ⟨?_, ?_, ?_, ?_, hnd, ?_⟩
  · refine chain'_transfer (fun a ha b hb hab => ?_) hch
    obtain ⟨h1, h2⟩ := hab
    constructor
    · rw [nextOf_orphan_old t v (hval a ha)]
      exact h1
    · rw [prevOf_orphan_old t v (hval b hb)]
      exact h2
  · intro h hh
    rw [prevOf_orphan_old t v (hval h (List.mem_of_mem_head? hh))]
    exact hhead h hh
  · intro l hl
    rw [nextOf_orphan_old t v (hval l (List.mem_of_mem_getLast? hl))]
    exact hlast l hl
  · rw [childrenOf_orphan_old t v hvp]
    exact hbd
  · intro c hcm
    simp only [length_orphan]
    exact Nat.lt_succ_of_lt (hval c hcm)

/-- One `append` call: the value-taking wrapper around the orphan-append
chain lemma. -/
theorem append_chain_step (t : Tree α) (p : Nat) (cs : List Nat) (v : α)
    (hc : LinkChain t p cs) (hvp : p < t.vec.length) :
    ∃ t', append t p v = some (t', t.vec.length) ∧
      LinkChain t' p (cs ++ [t.vec.length]) ∧
      (∀ j, j < t.vec.length → valueOf t' j = valueOf t j) ∧
      valueOf t' t.vec.length = some v ∧
      t'.vec.length = t.vec.length + 1 := by
  have hc1 : LinkChain (orphan t v).1 p cs := LinkChain_orphan t p cs v hc hvp
  have hvp1 : p < (orphan t v).1.vec.length := by
    simp only [length_orphan]
    exact Nat.lt_succ_of_lt hvp
  have hnew1 : getNode (orphan t v).1 t.vec.length = some (Node.new v) :=
    getNode_orphan_new t v
  have hfresh : t.vec.length ∉ cs := fun h =>
    absurd (hc.2.2.2.2.2 _ h) (by simp)
  have hnp : t.vec.length ≠ p := (Nat.ne_of_lt hvp).symm
  obtain ⟨t', hrun, hchain, hpar, hparf, hchf, hvalf, hlen⟩ :=
    append_id_orphan_chain (orphan t v).1 p t.vec.length cs (Node.new v)
      hc1 hvp1 hnew1 rfl rfl hfresh hnp
  refine ⟨t', ?_, hchain, ?_, ?_, ?_⟩
  · show (append_id (orphan t v).1 p t.vec.length).map
      (fun t2 => (t2, t.vec.length)) = some (t', t.vec.length)
    rw [hrun]
    rfl
  · intro j hj
    rw [hvalf j, valueOf_orphan_old t v hj]
  · rw [hvalf, valueOf_orphan_new]
  · rw [hlen]
    simp

/-- One `prepend` call. -/
theorem prepend_chain_step (t : Tree α) (p : Nat) (cs : List Nat) (v : α)
    (hc : LinkChain t p cs) (hvp : p < t.vec.length) :
    ∃ t', prepend t p v = some (t', t.vec.length) ∧
      LinkChain t' p (t.vec.length :: cs) ∧
      (∀ j, j < t.vec.length → valueOf t' j = valueOf t j) ∧
      valueOf t' t.vec.length = some v ∧
      t'.vec.length = t.vec.length + 1 := by
  have hc1 : LinkChain (orphan t v).1 p cs := LinkChain_orphan t p cs v hc hvp
  have hvp1 : p < (orphan t v).1.vec.length := by
    simp only [length_orphan]
    exact Nat.lt_succ_of_lt hvp
  have hnew1 : getNode (orphan t v).1 t.vec.length = some (Node.new v) :=
    getNode_orphan_new t v
  have hfresh : t.vec.length ∉ cs := fun h =>
    absurd (hc.2.2.2.2.2 _ h) (by simp)
  have hnp : t.vec.length ≠ p := (Nat.ne_of_lt hvp).symm
  obtain ⟨t', hrun, hchain, hpar, hparf, hchf, hvalf, hlen⟩ :=
    prepend_id_orphan_chain (orphan t v).1 p t.vec.length cs (Node.new v)
      hc1 hvp1 hnew1 rfl rfl hfresh hnp
  refine ⟨t', ?_, hchain, ?_, ?_, ?_⟩
  · show (prepend_id (orphan t v).1 p t.vec.length).map
      (fun t2 => (t2, t.vec.length)) = some (t', t.vec.length)
    rw [hrun]
    rfl
  · intro j hj
    rw [hvalf j, valueOf_orphan_old t v hj]
  · rw [hvalf, valueOf_orphan_new]
  · rw [hlen]
    simp

/-- Iterated `append` calls on a linked child list succeed, put the new
nodes at the end of the chain in call order, and preserve old values. -/
theorem appendAll_chain (vs : List α) : ∀ (t : Tree α) (p : Nat) (cs : List Nat),
    LinkChain t p cs → p < t.vec.length →
    ∃ t' ids, appendAll t p vs = some (t', ids) ∧
      LinkChain t' p (cs ++ ids) ∧
      ids.map (valueOf t') = vs.map some ∧
      (∀ j, j < t.vec.length → valueOf t' j = valueOf t j) ∧
      t.vec.length ≤ t'.vec.length := by
  induction vs with
  | nil =>
    intro t p cs hc hvp
    exact ⟨t, [], rfl, by simpa using hc, rfl, fun j _ => rfl, Nat.le_refl _⟩
  | cons v vs ih =>
    intro t p cs hc hvp
    obtain ⟨t1, hrun1, hchain1, hvold1, hvnew1, hlen1⟩ :=
      append_chain_step t p cs v hc hvp
    obtain ⟨t', ids, hrun2, hchain2, hvals2, hvold2, hlen2⟩ :=
      ih t1 p (cs ++ [t.vec.length]) hchain1 (by rw [hlen1]; exact Nat.lt_succ_of_lt hvp)
    refine ⟨t', t.vec.length :: ids, ?_, ?_, ?_, ?_, ?_⟩
    · simp only [appendAll, hrun1, hrun2, Option.map_some']
    · rw [List.append_assoc] at hchain2
      simpa using hchain2
    · simp only [List.map_cons]
      rw [hvals2, hvold2 t.vec.length (by rw [hlen1]; simp), hvnew1]
    · intro j hj
      rw [hvold2 j (by rw [hlen1]; exact Nat.lt_succ_of_lt hj), hvold1 j hj]
    · calc t.vec.length ≤ t1.vec.length := by rw [hlen1]; simp
        _ ≤ t'.vec.length := hlen2

/-- Iterated `prepend` calls: the new nodes sit at the front of the chain in
reverse call order. -/
theorem prependAll_chain (vs : List α) : ∀ (t : Tree α) (p : Nat) (cs : List Nat),
    LinkChain t p cs → p < t.vec.length →
    ∃ t' ids, prependAll t p vs = some (t', ids) ∧
      LinkChain t' p (ids.reverse ++ cs) ∧
      ids.map (valueOf t') = vs.map some ∧
      (∀ j, j < t.vec.length → valueOf t' j = valueOf t j) ∧
      t.vec.length ≤ t'.vec.length := by
  induction vs with
  | nil =>
    intro t p cs hc hvp
    exact ⟨t, [], rfl, by simpa using hc, rfl, fun j _ => rfl, Nat.le_refl _⟩
  | cons v vs ih =>
    intro t p cs hc hvp
    obtain ⟨t1, hrun1, hchain1, hvold1, hvnew1, hlen1⟩ :=
      prepend_chain_step t p cs v hc hvp
    obtain ⟨t', ids, hrun2, hchain2, hvals2, hvold2, hlen2⟩ :=
      ih t1 p (t.vec.length :: cs) hchain1 (by rw [hlen1]; exact Nat.lt_succ_of_lt hvp)
    refine ⟨t', t.vec.length :: ids, ?_, ?_, ?_, ?_, ?_⟩
    · simp only [prependAll, hrun1, hrun2, Option.map_some']
    · rw [List.reverse_cons, List.append_assoc]
      simpa using hchain2
    · simp only [List.map_cons]
      rw [hvals2, hvold2 t.vec.length (by rw [hlen1]; simp), hvnew1]
    · intro j hj
      rw [hvold2 j (by rw [hlen1]; exact Nat.lt_succ_of_lt hj), hvold1 j hj]
    · calc t.vec.length ≤ t1.vec.length := by rw [hlen1]; simp
        _ ≤ t'.vec.length := hlen2

/-- C8: for every node with a consistent child list, a sequence of `append`
calls yields children in call order (after the existing children), and a
sequence of `prepend` calls yields them in reverse call order (before the
existing children); the new nodes carry the given values in call order. -/
theorem append_prepend_order (t : Tree α) (p : Nat) (cs : List Nat) (vs : List α)
    (hc : LinkChain t p cs) (hvp : p < t.vec.length) :
    (∃ t' ids, appendAll t p vs = some (t', ids) ∧
      childIds t' p = cs ++ ids ∧ ids.map (valueOf t') = vs.map some) ∧
    (∃ t' ids, prependAll t p vs = some (t', ids) ∧
      childIds t' p = ids.reverse ++ cs ∧ ids.map (valueOf t') = vs.map some) := by
  constructor
  · obtain ⟨t', ids, hrun, hchain, hvals, _, _⟩ := appendAll_chain vs t p cs hc hvp
    exact ⟨t', ids, hrun, childIds_of_LinkChain hchain, hvals⟩
  · obtain ⟨t', ids, hrun, hchain, hvals, _, _⟩ := prependAll_chain vs t p cs hc hvp
    exact ⟨t', ids, hrun, childIds_of_LinkChain hchain, hvals⟩

/-! ### Field views of the detach writes -/

theorem parentOf_detachWrites_self (t : Tree α) {id : Nat} (pr nx : Option Nat)
    (h : id < t.vec.length) :
    parentOf (detachWrites t id pr nx) id = none := by
  unfold detachWrites
  cases pr <;> cases nx <;>
    simp [parentOf_setParent_self t h]

theorem prevOf_detachWrites_self (t : Tree α) {id : Nat} {pr nx : Option Nat}
    (h : id < t.vec.length) (hnx : ∀ x, nx = some x → x ≠ id) :
    prevOf (detachWrites t id pr nx) id = none := by
  have hbase : prevOf (setNext (setPrev (setParent t id none) id none) id none) id
      = none := by
    rw [prevOf_setNext]
    exact prevOf_setPrev_self _ (by simp [h]) _
  unfold detachWrites
  cases hp : pr with
  | none =>
    cases hn : nx with
    | none => exact hbase
    | some N =>
      simp only []
      rw [prevOf_setPrev_ne _ (Ne.symm (hnx N hn))]
      exact hbase
  | some P =>
    cases hn : nx with
    | none =>
      simp only []
      rw [prevOf_setNext]
      exact hbase
    | some N =>
      simp only []
      rw [prevOf_setPrev_ne _ (Ne.symm (hnx N hn)), prevOf_setNext]
      exact hbase

theorem nextOf_detachWrites_self (t : Tree α) {id : Nat} {pr nx : Option Nat}
    (h : id < t.vec.length) (hpr : ∀ x, pr = some x → x ≠ id) :
    nextOf (detachWrites t id pr nx) id = none := by
  have hbase : nextOf (setNext (setPrev (setParent t id none) id none) id none) id
      = none :=
    nextOf_setNext_self _ (by simp [h]) _
  unfold detachWrites
  cases hp : pr with
  | none =>
    cases hn : nx with
    | none => exact hbase
    | some N =>
      simp only []
      rw [nextOf_setPrev]
      exact hbase
  | some P =>
    cases hn : nx with
    | none =>
      simp only []
      rw [nextOf_setNext_ne _ (Ne.symm (hpr P hp))]
      exact hbase
    | some N =>
      simp only []
      rw [nextOf_setPrev, nextOf_setNext_ne _ (Ne.symm (hpr P hp))]
      exact hbase

theorem nextOf_detachWrites_pr (t : Tree α) {id P : Nat} {pr nx : Option Nat}
    (hpr : pr = some P) (hP : P < t.vec.length) :
    nextOf (detachWrites t id pr nx) P = nx := by
  unfold detachWrites
  subst hpr
  cases hn : nx with
  | none =>
    simp only []
    exact nextOf_setNext_self _ (by simp [hP]) _
  | some N =>
    simp only []
    rw [nextOf_setPrev]
    exact nextOf_setNext_self _ (by simp [hP]) _

theorem prevOf_detachWrites_nx (t : Tree α) {id N : Nat} {pr nx : Option Nat}
    (hnx : nx = some N) (hN : N < t.vec.length) :
    prevOf (detachWrites t id pr nx) N = pr := by
  unfold detachWrites
  subst hnx
  cases hp : pr with
  | none =>
    simp only []
    exact prevOf_setPrev_self _ (by simp [hN]) _
  | some P =>
    simp only []
    exact prevOf_setPrev_self _ (by simp [hN]) _

theorem nextOf_detachWrites_ne (t : Tree α) {id : Nat} {pr nx : Option Nat}
    {j : Nat} (hji : j ≠ id) (hjp : ∀ x, pr = some x → j ≠ x) :
    nextOf (detachWrites t id pr nx) j = nextOf t j := by
  have hbase : nextOf (setNext (setPrev (setParent t id none) id none) id none) j
      = nextOf t j := by
    rw [nextOf_setNext_ne _ hji]
    simp
  unfold detachWrites
  cases hp : pr with
  | none =>
    cases hn : nx with
    | none => exact hbase
    | some N =>
      simp only []
      rw [nextOf_setPrev]
      exact hbase
  | some P =>
    cases hn : nx with
    | none =>
      simp only []
      rw [nextOf_setNext_ne _ (hjp P hp)]
      exact hbase
    | some N =>
      simp only []
      rw [nextOf_setPrev, nextOf_setNext_ne _ (hjp P hp)]
      exact hbase

theorem prevOf_detachWrites_ne (t : Tree α) {id : Nat} {pr nx : Option Nat}
    {j : Nat} (hji : j ≠ id) (hjn : ∀ x, nx = some x → j ≠ x) :
    prevOf (detachWrites t id pr nx) j = prevOf t j := by
  have hbase : prevOf (setNext (setPrev (setParent t id none) id none) id none) j
      = prevOf t j := by
    rw [prevOf_setNext, prevOf_setPrev_ne _ hji]
    simp
  unfold detachWrites
  cases hp : pr with
  | none =>
    cases hn : nx with
    | none => exact hbase
    | some N =>
      simp only []
      rw [prevOf_setPrev_ne _ (hjn N hn)]
      exact hbase
  | some P =>
    cases hn : nx with
    | none =>
      simp only []
      rw [prevOf_setNext]
      exact hbase
    | some N =>
      simp only []
      rw [prevOf_setPrev_ne _ (hjn N hn), prevOf_setNext]
      exact hbase

theorem childrenOf_detachWrites_self (t : Tree α) {id : Nat} (pr nx : Option Nat) :
    childrenOf (detachWrites t id pr nx) id = childrenOf t id := by
  rw [childrenOf_detachWrites]

/-- Sibling links between nodes untouched by a detach survive it. -/
theorem chain'_detachWrites_outside {t : Tree α} {id : Nat} {pr nx : Option Nat}
    {l : List Nat} (hch : l.Chain' (SibLink t)) (hid : id ∉ l)
    (hprl : ∀ x, pr = some x → x ∉ l) (hnxl : ∀ x, nx = some x → x ∉ l) :
    l.Chain' (SibLink (detachWrites t id pr nx)) := by
  refine chain'_transfer (fun a ha b hb hab => ?_) hch
  constructor
  · rw [nextOf_detachWrites_ne t (by rintro rfl; exact hid ha)
      (by intro x hx h; subst h; exact (hprl _ hx) ha)]
    exact hab.1
  · rw [prevOf_detachWrites_ne t (by rintro rfl; exact hid hb)
      (by intro x hx h; subst h; exact (hnxl _ hx) hb)]
    exact hab.2

/-- A nonempty list has definite bounds. -/
theorem boundsOf_ne_nil {cs : List Nat} (h : cs ≠ []) :
    ∃ f L, boundsOf cs = some (f, L) ∧ cs.head? = some f ∧ cs.getLast? = some L := by
  cases cs with
  | nil => exact absurd rfl h
  | cons c cs2 =>
    cases hL : (c :: cs2).getLast? with
    | none => simp at hL
    | some L =>
      have hb : boundsOf (c :: cs2) = some (c, L) := by
        unfold boundsOf
        rw [hL]
        rfl
      exact ⟨c, L, hb, rfl, rfl⟩

/-- Detaching a member of a consistent child list: the chain loses exactly
that node, the node's own links are cleared, its former neighbours are
patched around it, and nothing else changes. -/
theorem detach_chain (t : Tree α) (q id : Nat) (cs : List Nat)
    (hc : LinkChain t q cs) (hpar : ∀ c ∈ cs, parentOf t c = some q)
    (hmem : id ∈ cs) :
    ∃ t', detach t id = some t' ∧
      LinkChain t' q (cs.erase id) ∧
      (∀ c ∈ cs.erase id, parentOf t' c = some q) ∧
      parentOf t' id = none ∧ prevOf t' id = none ∧ nextOf t' id = none ∧
      (∀ j, j ≠ id → parentOf t' j = parentOf t j) ∧
      (∀ j, j ≠ q → childrenOf t' j = childrenOf t j) ∧
      (∀ j, valueOf t' j = valueOf t j) ∧
      (∀ j, j ∉ cs → nextOf t' j = nextOf t j ∧ prevOf t' j = prevOf t j) ∧
      t'.vec.length = t.vec.length := by
  obtain ⟨hch, hhead, hlast, hbd, hnd, hval⟩ := hc
  obtain ⟨l1, l2, rfl⟩ := List.append_of_mem hmem
  have hndparts := List.nodup_append.mp hnd
  have hid1 : id ∉ l1 := fun h => hndparts.2.2 h (by simp)
  have hid2 : id ∉ l2 := (List.nodup_cons.mp hndparts.2.1).1
  have hnd1 : l1.Nodup := hndparts.1
  have hnd2 : l2.Nodup := (List.nodup_cons.mp hndparts.2.1).2
  have hdisj12 : l1.Disjoint l2 := by
    intro a h1 h2
    exact hndparts.2.2 h1 (by simp [h2])
  have herase : (l1 ++ id :: l2).erase id = l1 ++ l2 := by
    rw [List.erase_append_right _ hid1, List.erase_cons_head]
  have hvid : id < t.vec.length := hval id (by simp)
  have hget : getNode t id = some (t.vec[id]) := getNode_eq_some t hvid
  have hnpq : (t.vec[id]).parent = some q := by
    rw [← parentOf_eq hget]
    exact hpar id (by simp)
  have hchsplit := List.chain'_append.mp hch
  have hprev_id : (t.vec[id]).prev_sibling = l1.getLast? := by
    cases hL1 : l1.getLast? with
    | none =>
      have hl1nil : l1 = [] := by
        cases l1 with
        | nil => rfl
        | cons a as => simp at hL1
      subst hl1nil
      rw [← prevOf_eq hget]
      exact hhead id rfl
    | some P =>
      rw [← prevOf_eq hget]
      exact (hchsplit.2.2 P hL1 id rfl).2
  have hnext_id : (t.vec[id]).next_sibling = l2.head? := by
    cases hl2c : l2 with
    | nil =>
      rw [← nextOf_eq hget]
      apply hlast
      rw [hl2c, List.getLast?_append_of_ne_nil _ (by simp)]
      rfl
    | cons N l2' =>
      rw [← nextOf_eq hget]
      have := hchsplit.2.1
      rw [hl2c, List.chain'_cons] at this
      exact this.1.1
  -- the parent's stored bounds
  obtain ⟨f0, L0, hb0, hh0, hl0⟩ := boundsOf_ne_nil
    (show l1 ++ id :: l2 ≠ [] by simp)
  have hbq : childrenOf t q = some (f0, L0) := by rw [hbd, hb0]
  have hq : q < t.vec.length := childrenOf_lt_length hbq
  cases hl1c : l1 with
  | nil =>
    cases hl2c : l2 with
    | nil =>
      -- singleton child list
      subst hl1c; subst hl2c
      have hf0 : id = f0 := by simpa using hh0
      have hL0 : id = L0 := by simpa using hl0
      subst hf0; subst hL0
      have hrun := detach_run_single hget hnpq hbq
      rw [hprev_id, hnext_id] at hrun
      refine ⟨_, hrun, ?_, ?_, ?_, ?_, ?_, ?_, ?_, ?_, ?_, ?_⟩
      · refine ⟨by simp, by simp, by simp, ?_, by simp, by simp⟩
        rw [herase, childrenOf_setChildren_self _ (by simp [hq]) _]
        rfl
      · simp
      · simp only [parentOf_setChildren]
        exact parentOf_detachWrites_self _ _ _ hvid
      · simp only [prevOf_setChildren]
        exact prevOf_detachWrites_self _ hvid (by simp)
      · simp only [nextOf_setChildren]
        exact nextOf_detachWrites_self _ hvid (by simp)
      · intro j hj
        simp only [parentOf_setChildren]
        exact parentOf_detachWrites _ _ _ _ hj
      · intro j hj
        rw [childrenOf_setChildren_ne _ hj, childrenOf_detachWrites]
      · intro j
        simp only [valueOf_setChildren]
        exact valueOf_detachWrites _ _ _ _ _
      · intro j hj
        have hji : j ≠ id := by simp at hj; exact hj
        constructor
        · simp only [nextOf_setChildren]
          exact nextOf_detachWrites_ne _ hji (by simp)
        · simp only [prevOf_setChildren]
          exact prevOf_detachWrites_ne _ hji (by simp)
      · simp
    | cons N l2' =>
      -- id is the first of several children
      subst hl1c; subst hl2c
      have hf0 : id = f0 := by simpa using hh0
      subst hf0
      have hL0mem : L0 ∈ N :: l2' := by
        rw [List.getLast?_append_of_ne_nil _ (by simp)] at hl0
        exact List.mem_of_mem_getLast? hl0
      have hL0l2 : (N :: l2').getLast? = some L0 := by
        rw [List.getLast?_append_of_ne_nil _ (by simp)] at hl0
        exact hl0
      have hidL0 : id ≠ L0 := fun h => hid2 (h ▸ hL0mem)
      have hNid : N ≠ id := fun h => hid2 (h ▸ List.mem_cons_self N l2')
      have hrun := detach_run_first hget hnpq hbq hidL0 rfl
        (show (t.vec[id]).next_sibling = some N by rw [hnext_id]; rfl)
      rw [hprev_id, hnext_id] at hrun
      simp only [List.getLast?_nil, List.head?_cons] at hrun
      refine ⟨_, hrun, ?_, ?_, ?_, ?_, ?_, ?_, ?_, ?_, ?_, ?_⟩
      · rw [show (([] : List Nat) ++ id :: N :: l2').erase id = N :: l2' from by simp]
        refine ⟨?_, ?_, ?_, ?_, hnd2, ?_⟩
        · -- links of the remaining chain
          have hchl2 : (N :: l2').Chain' (SibLink t) := (hchsplit.2.1).tail
          cases hl2'c : l2' with
          | nil => simp
          | cons b l2'' =>
            subst hl2'c
            rw [List.chain'_cons] at hchl2 ⊢
            have hNb := hchl2.1
            have hNnotbl : N ∉ b :: l2'' := (List.nodup_cons.mp hnd2).1
            refine ⟨?_, ?_⟩
            · constructor
              · simp only [nextOf_setChildren]
                rw [nextOf_detachWrites_ne _ hNid (by simp)]
                exact hNb.1
              · simp only [prevOf_setChildren]
                rw [prevOf_detachWrites_ne _
                  (by rintro rfl; exact hid2 (by simp))
                  (by intro x hx; cases hx; rintro rfl; exact hNnotbl (by simp))]
                exact hNb.2
            · refine chain'_transfer (fun a ha b2 hb2 hab => ?_) hchl2.2
              constructor
              · simp only [nextOf_setChildren]
                rw [nextOf_detachWrites_ne _
                  (by rintro rfl; exact hid2 (List.mem_cons_of_mem N ha)) (by simp)]
                exact hab.1
              · simp only [prevOf_setChildren]
                rw [prevOf_detachWrites_ne _
                  (by rintro rfl; exact hid2 (List.mem_cons_of_mem N hb2))
                  (by intro x hx; cases hx; rintro rfl; exact hNnotbl hb2)]
                exact hab.2
        · intro h hh
          cases hh
          simp only [prevOf_setChildren]
          rw [prevOf_detachWrites_nx _ rfl (hval N (by simp))]
        · intro l hl
          rw [hL0l2] at hl
          cases hl
          simp only [nextOf_setChildren]
          rw [nextOf_detachWrites_ne _ (Ne.symm hidL0) (by simp)]
          apply hlast
          simpa using hl0
        · rw [childrenOf_setChildren_self _ (by simp [hq]) _]
          unfold boundsOf
          rw [hL0l2]
          rfl
        · intro x hx
          simpa using hval x (by simp [hx] : x ∈ ([] : List Nat) ++ id :: N :: l2')
      · intro c hcm
        rw [show (([] : List Nat) ++ id :: N :: l2').erase id = N :: l2' from by simp]
          at hcm
        have hcid : c ≠ id := fun h => hid2 (h ▸ hcm)
        simp only [parentOf_setChildren]
        rw [parentOf_detachWrites _ _ _ _ hcid]
        exact hpar c (by simp [hcm])
      · simp only [parentOf_setChildren]
        exact parentOf_detachWrites_self _ _ _ hvid
      · simp only [prevOf_setChildren]
        exact prevOf_detachWrites_self _ hvid
          (fun x hx => by cases hx; exact hNid)
      · simp only [nextOf_setChildren]
        exact nextOf_detachWrites_self _ hvid (by simp)
      · intro j hj
        simp only [parentOf_setChildren]
        exact parentOf_detachWrites _ _ _ _ hj
      · intro j hj
        rw [childrenOf_setChildren_ne _ hj, childrenOf_detachWrites]
      · intro j
        simp only [valueOf_setChildren]
        exact valueOf_detachWrites _ _ _ _ _
      · intro j hj
        have hj' : j ≠ id ∧ j ≠ N ∧ j ∉ l2' := by
          simpa [not_or] using hj
        constructor
        · simp only [nextOf_setChildren]
          exact nextOf_detachWrites_ne _ hj'.1 (by simp)
        · simp only [prevOf_setChildren]
          refine prevOf_detachWrites_ne _ hj'.1 ?_
          intro x hx
          cases hx
          exact hj'.2.1
      · simp
  | cons c1 l1' =>
    subst hl1c
    cases hP : (c1 :: l1').getLast? with
    | none => simp at hP
    | some P =>
    have hPmem : P ∈ c1 :: l1' := List.mem_of_mem_getLast? hP
    have hPid : P ≠ id := fun h => hid1 (h ▸ hPmem)
    have hvP : P < t.vec.length := hval P (List.mem_append_left _ hPmem)
    have hf0 : c1 = f0 := by simpa using hh0
    subst hf0
    obtain ⟨l1'', hl1''⟩ := List.getLast?_eq_some_iff.mp hP
    have hndl1 : (l1'' ++ [P]).Nodup := hl1'' ▸ hnd1
    have hPl1'' : P ∉ l1'' := by
      rw [List.nodup_append] at hndl1
      exact fun h => hndl1.2.2 h (by simp)
    have hchl1 : (c1 :: l1').Chain' (SibLink t) := hchsplit.1
    have hjuncP : SibLink t P id := hchsplit.2.2 P hP id rfl
    have hprevP : (t.vec[id]).prev_sibling = some P := by rw [hprev_id, hP]
    have hc1mem : c1 ∈ c1 :: l1' := by simp
    have hc1id : c1 ≠ id := fun h => hid1 (h ▸ hc1mem)
    cases hl2c : l2 with
    | nil =>
      subst hl2c
      have hL0id : id = L0 := by
        rw [List.getLast?_append_of_ne_nil _ (by simp)] at hl0
        simpa using hl0
      subst hL0id
      have hrun := detach_run_last hget hnpq hbq hc1id hc1id rfl hprevP
      rw [hprevP, hnext_id] at hrun
      simp only [List.head?_nil] at hrun
      refine ⟨_, hrun, ?_, ?_, ?_, ?_, ?_, ?_, ?_, ?_, ?_, ?_⟩
      · rw [herase, List.append_nil]
        refine ⟨?_, ?_, ?_, ?_, hnd1, ?_⟩
        · rw [hl1'', List.chain'_append]
          have hchsnoc := List.chain'_append.mp (hl1'' ▸ hchl1)
          refine ⟨?_, by simp, ?_⟩
          · refine chain'_transfer (fun a ha b hb hab => ?_) hchsnoc.1
            constructor
            · simp only [nextOf_setChildren]
              rw [nextOf_detachWrites_ne _
                (by rintro rfl; exact hid1 (hl1'' ▸ List.mem_append_left _ ha))
                (by intro x hx; cases hx; rintro rfl; exact hPl1'' ha)]
              exact hab.1
            · simp only [prevOf_setChildren]
              rw [prevOf_detachWrites_ne _
                (by rintro rfl; exact hid1 (hl1'' ▸ List.mem_append_left _ hb))
                (by simp)]
              exact hab.2
          · intro x hx y hy
            cases hy
            have hxP := hchsnoc.2.2 x hx P (by simp)
            constructor
            · simp only [nextOf_setChildren]
              rw [nextOf_detachWrites_ne _
                (by rintro rfl; exact hid1 (hl1'' ▸ List.mem_append_left _
                  (List.mem_of_mem_getLast? hx)))
                (by intro z hz; cases hz; rintro rfl; exact hPl1'' (List.mem_of_mem_getLast? hx))]
              exact hxP.1
            · simp only [prevOf_setChildren]
              rw [prevOf_detachWrites_ne _ hPid (by simp)]
              exact hxP.2
        · intro h hh
          cases hh
          simp only [prevOf_setChildren]
          rw [prevOf_detachWrites_ne _ hc1id (by simp)]
          exact hhead c1 rfl
        · intro l hl
          rw [hP] at hl
          cases hl
          simp only [nextOf_setChildren]
          rw [nextOf_detachWrites_pr _ rfl hvP]
        · rw [childrenOf_setChildren_self _ (by simp [hq]) _]
          unfold boundsOf
          rw [hP]
          rfl
        · intro x hx
          simpa using hval x (List.mem_append_left _ hx)
      · intro c hcm
        rw [herase, List.append_nil] at hcm
        have hcid : c ≠ id := fun h => hid1 (h ▸ hcm)
        simp only [parentOf_setChildren]
        rw [parentOf_detachWrites _ _ _ _ hcid]
        exact hpar c (List.mem_append_left _ hcm)
      · simp only [parentOf_setChildren]
        exact parentOf_detachWrites_self _ _ _ hvid
      · simp only [prevOf_setChildren]
        exact prevOf_detachWrites_self _ hvid (by simp)
      · simp only [nextOf_setChildren]
        exact nextOf_detachWrites_self _ hvid
          (fun x hx => by cases hx; exact hPid)
      · intro j hj
        simp only [parentOf_setChildren]
        exact parentOf_detachWrites _ _ _ _ hj
      · intro j hj
        rw [childrenOf_setChildren_ne _ hj, childrenOf_detachWrites]
      · intro j
        simp only [valueOf_setChildren]
        exact valueOf_detachWrites _ _ _ _ _
      · intro j hj
        have hj' : j ∉ c1 :: l1' ∧ j ≠ id := by
          constructor
          · exact fun h => hj (List.mem_append_left _ h)
          · rintro rfl
            exact hj (List.mem_append_right _ (by simp))
        constructor
        · simp only [nextOf_setChildren]
          exact nextOf_detachWrites_ne _ hj'.2
            (fun x hx => by cases hx; exact fun h => hj'.1 (h ▸ hPmem))
        · simp only [prevOf_setChildren]
          exact prevOf_detachWrites_ne _ hj'.2 (by simp)
      · simp
    | cons N l2' =>
      subst hl2c
      have hNmem : N ∈ N :: l2' := by simp
      have hNid : N ≠ id := fun h => hid2 (h ▸ hNmem)
      have hvN : N < t.vec.length := hval N (by simp)
      have hNP : P ≠ N := fun h => hdisj12 hPmem (h ▸ hNmem)
      have hL0l2 : (N :: l2').getLast? = some L0 := by
        rw [List.getLast?_append_of_ne_nil _ (by simp)] at hl0
        exact hl0
      have hL0mem : L0 ∈ N :: l2' := List.mem_of_mem_getLast? hL0l2
      have hidL0 : id ≠ L0 := fun h => hid2 (h ▸ hL0mem)
      have hc1L0 : c1 ≠ L0 := fun h => hdisj12 hc1mem (h ▸ hL0mem)
      have hrun := detach_run_mid hget hnpq hbq hc1L0 hc1id (Ne.symm hidL0)
      rw [hprevP, hnext_id] at hrun
      simp only [List.head?_cons] at hrun
      have hnextN : (t.vec[id]).next_sibling = some N := by
        rw [hnext_id]
        rfl
      refine ⟨_, hrun, ?_, ?_, ?_, ?_, ?_, ?_, ?_, ?_, ?_, ?_⟩
      · rw [herase]
        refine ⟨?_, ?_, ?_, ?_, ?_, ?_⟩
        · rw [List.chain'_append]
          refine ⟨?_, ?_, ?_⟩
          · -- the old chain prefix
            rw [hl1'', List.chain'_append]
            have hchsnoc := List.chain'_append.mp (hl1'' ▸ hchl1)
            refine ⟨?_, by simp, ?_⟩
            · refine chain'_transfer (fun a ha b hb hab => ?_) hchsnoc.1
              constructor
              · rw [nextOf_detachWrites_ne _
                  (by rintro rfl; exact hid1 (hl1'' ▸ List.mem_append_left _ ha))
                  (by intro x hx; cases hx; rintro rfl; exact hPl1'' ha)]
                exact hab.1
              · rw [prevOf_detachWrites_ne _
                  (by rintro rfl; exact hid1 (hl1'' ▸ List.mem_append_left _ hb))
                  (by intro x hx; cases hx; rintro rfl; exact hdisj12 (hl1'' ▸ List.mem_append_left _ hb) hNmem)]
                exact hab.2
            · intro x hx y hy
              cases hy
              have hxP := hchsnoc.2.2 x hx P (by simp)
              have hxmem : x ∈ l1'' := List.mem_of_mem_getLast? hx
              constructor
              · rw [nextOf_detachWrites_ne _
                  (by rintro rfl; exact hid1 (hl1'' ▸ List.mem_append_left _ hxmem))
                  (by intro z hz; cases hz; rintro rfl; exact hPl1'' hxmem)]
                exact hxP.1
              · rw [prevOf_detachWrites_ne _ hPid
                  (by intro z hz; cases hz; exact hNP)]
                exact hxP.2
          · -- the old chain suffix
            have hchl2 : (N :: l2').Chain' (SibLink t) := (hchsplit.2.1).tail
            cases hl2'c : l2' with
            | nil => simp
            | cons b l2'' =>
              subst hl2'c
              rw [List.chain'_cons] at hchl2 ⊢
              have hNnotbl : N ∉ b :: l2'' := (List.nodup_cons.mp hnd2).1
              refine ⟨?_, ?_⟩
              · constructor
                · rw [nextOf_detachWrites_ne _ hNid
                    (by intro x hx; cases hx; exact Ne.symm hNP)]
                  exact hchl2.1.1
                · rw [prevOf_detachWrites_ne _
                    (by rintro rfl; exact hid2 (by simp))
                    (by intro x hx; cases hx; rintro rfl; exact hNnotbl (by simp))]
                  exact hchl2.1.2
              · refine chain'_transfer (fun a ha b2 hb2 hab => ?_) hchl2.2
                constructor
                · rw [nextOf_detachWrites_ne _
                    (by rintro rfl; exact hid2 (List.mem_cons_of_mem N ha))
                    (by intro x hx; cases hx; rintro rfl; exact hdisj12 hPmem (List.mem_cons_of_mem N ha))]
                  exact hab.1
                · rw [prevOf_detachWrites_ne _
                    (by rintro rfl; exact hid2 (List.mem_cons_of_mem N hb2))
                    (by intro x hx; cases hx; rintro rfl; exact hNnotbl hb2)]
                  exact hab.2
          · -- the new junction
            intro x hx y hy
            rw [hP] at hx
            cases hx
            cases hy
            constructor
            · rw [nextOf_detachWrites_pr _ rfl hvP]
            · rw [prevOf_detachWrites_nx _ rfl hvN]
        · intro h hh
          rw [List.head?_append_of_ne_nil _ (by simp)] at hh
          cases hh
          rw [prevOf_detachWrites_ne _ hc1id
            (by intro x hx; cases hx; exact fun h2 => hdisj12 hc1mem (h2 ▸ hNmem))]
          exact hhead c1 rfl
        · intro l hl
          rw [List.getLast?_append_of_ne_nil _ (by simp), hL0l2] at hl
          cases hl
          rw [nextOf_detachWrites_ne _ (Ne.symm hidL0)
            (by intro x hx; cases hx; exact fun h2 => hdisj12 hPmem (h2 ▸ hL0mem))]
          apply hlast
          rw [List.getLast?_append_of_ne_nil _ (by simp)]
          exact hL0l2
        · rw [childrenOf_detachWrites]
          rw [hbq]
          unfold boundsOf
          rw [List.head?_append_of_ne_nil _ (by simp),
            List.getLast?_append_of_ne_nil _ (by simp), hL0l2]
          rfl
        · exact List.Nodup.append hnd1 hnd2 hdisj12
        · intro x hx
          rcases List.mem_append.mp hx with h | h
          · simpa using hval x (List.mem_append_left _ h)
          · simpa using hval x (List.mem_append_right _ (List.mem_cons_of_mem id h))
      · intro c hcm
        rw [herase] at hcm
        have hcid : c ≠ id := by
          rintro rfl
          rcases List.mem_append.mp hcm with h | h
          · exact hid1 h
          · exact hid2 h
        rw [parentOf_detachWrites _ _ _ _ hcid]
        apply hpar
        rcases List.mem_append.mp hcm with h | h
        · exact List.mem_append_left _ h
        · exact List.mem_append_right _ (List.mem_cons_of_mem id h)
      · exact parentOf_detachWrites_self _ _ _ hvid
      · exact prevOf_detachWrites_self _ hvid
          (fun x hx => by cases hx; exact hNid)
      · exact nextOf_detachWrites_self _ hvid
          (fun x hx => by cases hx; exact hPid)
      · intro j hj
        exact parentOf_detachWrites _ _ _ _ hj
      · intro j hj
        rw [childrenOf_detachWrites]
      · intro j
        exact valueOf_detachWrites _ _ _ _ _
      · intro j hj
        have hjid : j ≠ id := by
          rintro rfl
          exact hj (List.mem_append_right _ (by simp))
        constructor
        · refine nextOf_detachWrites_ne _ hjid ?_
          intro x hx
          cases hx
          rintro rfl
          exact hj (List.mem_append_left _ hPmem)
        · refine prevOf_detachWrites_ne _ hjid ?_
          intro x hx
          cases hx
          rintro rfl
          exact hj (List.mem_append_right _ (by simp))
      · simp

/-- A linked child list transfers to any tree that reads the same on it. -/
theorem LinkChain_congr {t t' : Tree α} {q : Nat} {l : List Nat}
    (h : LinkChain t q l)
    (hn : ∀ j ∈ l, nextOf t' j = nextOf t j)
    (hp : ∀ j ∈ l, prevOf t' j = prevOf t j)
    (hb : childrenOf t' q = childrenOf t q)
    (hlen : t'.vec.length = t.vec.length) :
    LinkChain t' q l := by
  obtain ⟨hch, hhead, hlast, hbd, hnd, hval⟩ := h
  refine ⟨?_, ?_, ?_, ?_, hnd, ?_⟩
  · refine chain'_transfer (fun a ha b hb2 hab => ?_) hch
    exact ⟨(hn a ha).trans hab.1, (hp b hb2).trans hab.2⟩
  · intro x hx
    rw [hp x (List.mem_of_mem_head? hx)]
    exact hhead x hx
  · intro x hx
    rw [hn x (List.mem_of_mem_getLast? hx)]
    exact hlast x hx
  · rw [hb]
    exact hbd
  · intro c hcm
    rw [hlen]
    exact hval c hcm

/-- Inside a linked list, no link points at a non-member. -/
theorem LinkChain_no_link_to_outsider {t : Tree α} {q : Nat} {l : List Nat}
    {j x : Nat} (h : LinkChain t q l) (hj : j ∈ l) (hx : x ∉ l) :
    nextOf t j ≠ some x ∧ prevOf t j ≠ some x := by
  obtain ⟨hch, hhead, hlast, hbd, hnd, hval⟩ := h
  obtain ⟨a, b, rfl⟩ := List.append_of_mem hj
  have hsplit := List.chain'_append.mp hch
  constructor
  · cases hbc : b with
    | nil =>
      have : nextOf t j = none := by
        apply hlast
        rw [hbc, List.getLast?_append_of_ne_nil _ (by simp)]
        rfl
      simp [this]
    | cons y b' =>
      have hy : SibLink t j y := by
        have := hsplit.2.1
        rw [hbc, List.chain'_cons] at this
        exact this.1
      rw [hy.1]
      intro hcon
      cases hcon
      exact hx (by simp [hbc])
  · cases hac : a with
    | nil =>
      have : prevOf t j = none := by
        apply hhead
        rw [hac]
        rfl
      simp [this]
    | cons z a' =>
      cases hza : a.getLast? with
      | none => rw [hac] at hza; simp at hza
      | some w =>
        have hw : SibLink t w j := hsplit.2.2 w hza j rfl
        rw [hw.2]
        intro hcon
        cases hcon
        exact hx (List.mem_append_left _ (List.mem_of_mem_getLast? hza))

/-- C1 (as stated) is false: `insert_id_after` does not detach its target
first.  After `x.insert_id_after(z)` the node `z` (3) is linked under the
root, yet its old parent `y` (2) still has `children = (3, 3)` and the
children iterator of `y` still yields `z` (the stale chain even runs on
into `y`'s own new sibling). -/
theorem insert_id_after_no_detach_counterexample :
    (insert_id_after c1Tree 1 3).map
        (fun t2 => (parentOf t2 3, childIds t2 0, childrenOf t2 2, childIds t2 2))
      = some (some 0, [1, 3, 2], some (3, 3), [3, 2]) := by
  decide

/-- C1 (amended): of the handle-taking insertion operations, `append_id` and
`prepend_id` (and hence `insert_id` with index 0) do implicitly detach the
target from its current position first: if `n` is attached under `q` and is
moved under a different node `p`, the old parent's child chain no longer
contains `n`, its bounds no longer name `n`, and no former sibling's link
references `n`.  (`insert_id_before` / `insert_id_after` do not detach, per
the counterexample.) -/
theorem append_prepend_id_detach_first (t : Tree α) (q p n : Nat)
    (cs ds : List Nat) (hcq : IsChain t q cs) (hcp : IsChain t p ds)
    (hqp : q ≠ p) (hmem : n ∈ cs) (hvp : p < t.vec.length) :
    (append_id t p n).isSome ∧
    (prepend_id t p n).isSome ∧
    (∀ t', append_id t p n = some t' ∨ prepend_id t p n = some t' →
      childIds t' q = cs.erase n ∧
      n ∉ childIds t' q ∧
      childrenOf t' q = boundsOf (cs.erase n) ∧
      (∀ j ∈ cs.erase n, nextOf t' j ≠ some n ∧ prevOf t' j ≠ some n)) := by
  obtain ⟨hlq, hpq⟩ := hcq
  obtain ⟨hlp, hpp⟩ := hcp
  have hdisj : ∀ x ∈ cs, x ∉ ds := by
    intro x hx hxd
    have h1 := hpq x hx
    have h2 := hpp x hxd
    rw [h1] at h2
    exact hqp (Option.some.inj h2)
  have hvn : n < t.vec.length := hlq.2.2.2.2.2 n hmem
  have hgn : getNode t n = some (t.vec[n]) := getNode_eq_some t hvn
  have hgp : getNode t p = some (t.vec[p]) := getNode_eq_some t hvp
  obtain ⟨td, hdet, hchain_td, hpar_td, hpid, hprid, hnxid, hparf, hchf, hvalf,
    hsibf, hlenf⟩ := detach_chain t q n cs hlq hpq hmem
  have hndq : cs.Nodup := hlq.2.2.2.2.1
  have hnotmem : n ∉ cs.erase n := hndq.not_mem_erase
  have herss : ∀ x ∈ cs.erase n, x ∈ cs := fun x hx => List.mem_of_mem_erase hx
  have hpchildren : (t.vec[p]).children = boundsOf ds := by
    rw [← childrenOf_eq hgp]
    exact hlp.2.2.2.1
  have hcdp : childrenOf td p = boundsOf ds := by
    rw [hchf p (Ne.symm hqp)]
    exact hlp.2.2.2.1
  -- the link-phase writes do not disturb the old parent's remaining chain
  have key : ∀ (W : Tree α),
      (∀ j ∈ cs.erase n, nextOf W j = nextOf td j) →
      (∀ j ∈ cs.erase n, prevOf W j = prevOf td j) →
      childrenOf W q = childrenOf td q →
      W.vec.length = td.vec.length →
      childIds W q = cs.erase n ∧
      n ∉ childIds W q ∧
      childrenOf W q = boundsOf (cs.erase n) ∧
      (∀ j ∈ cs.erase n, nextOf W j ≠ some n ∧ prevOf W j ≠ some n) := by
    intro W hWn hWp hWb hWl
    have hWchain : LinkChain W q (cs.erase n) :=
      LinkChain_congr hchain_td hWn hWp hWb hWl
    have hids := childIds_of_LinkChain hWchain
    refine ⟨hids, by rw [hids]; exact hnotmem, ?_, ?_⟩
    · exact hWchain.2.2.2.1
    · intro j hj
      exact LinkChain_no_link_to_outsider hWchain hj hnotmem
  cases hds : ds with
  | nil =>
    have hlastC : (t.vec[p]).children.map Prod.snd = none := by
      rw [hpchildren, hds]
      rfl
    have hfirstC : (t.vec[p]).children.map Prod.fst = none := by
      rw [hpchildren, hds]
      rfl
    have hcdp2 : childrenOf (setPrev (setParent td n (some p)) n none) p = none := by
      simp only [childrenOf_setPrev, childrenOf_setParent]
      rw [hcdp, hds]
      rfl
    have hcdp3 : childrenOf (setNext (setParent td n (some p)) n none) p = none := by
      simp only [childrenOf_setNext, childrenOf_setParent]
      rw [hcdp, hds]
      rfl
    have happ : append_id t p n =
        some (setChildren (setPrev (setParent td n (some p)) n none) p
          (some (n, n))) := by
      unfold append_id
      simp only [hgp, hgn, hdet, hlastC, hcdp2]
    have hpre : prepend_id t p n =
        some (setChildren (setNext (setParent td n (some p)) n none) p
          (some (n, n))) := by
      unfold prepend_id
      simp only [hgp, hgn, hdet, hfirstC, hcdp3]
    refine ⟨by rw [happ]; rfl, by rw [hpre]; rfl, ?_⟩
    intro t' ht'
    rcases ht' with h | h
    · rw [happ] at h
      cases h
      apply key
      · intro j hj
        have hjn : j ≠ n := fun hh => hnotmem (hh ▸ hj)
        simp only [nextOf_setChildren, nextOf_setPrev]
        rw [nextOf_setParent]
      · intro j hj
        have hjn : j ≠ n := fun hh => hnotmem (hh ▸ hj)
        simp only [prevOf_setChildren]
        rw [prevOf_setPrev_ne _ hjn]
        simp
      · rw [childrenOf_setChildren_ne _ hqp]
        simp
      · simp [hlenf]
    · rw [hpre] at h
      cases h
      apply key
      · intro j hj
        have hjn : j ≠ n := fun hh => hnotmem (hh ▸ hj)
        simp only [nextOf_setChildren]
        rw [nextOf_setNext_ne _ hjn]
        simp
      · intro j hj
        simp only [prevOf_setChildren, prevOf_setNext]
        rw [prevOf_setParent]
      · rw [childrenOf_setChildren_ne _ hqp]
        simp
      · simp [hlenf]
  | cons d ds2 =>
    subst hds
    obtain ⟨dF, dL, hbds, hdh, hdl⟩ := boundsOf_ne_nil
      (show d :: ds2 ≠ [] by simp)
    have hdFmem : dF ∈ d :: ds2 := by
      have : d = dF := by simpa using hdh
      simp [← this]
    have hdLmem : dL ∈ d :: ds2 := List.mem_of_mem_getLast? hdl
    have hvdL : dL < t.vec.length := hlp.2.2.2.2.2 dL hdLmem
    have hlastC : (t.vec[p]).children.map Prod.snd = some dL := by
      rw [hpchildren, hbds]
      rfl
    have hfirstC : (t.vec[p]).children.map Prod.fst = some dF := by
      rw [hpchildren, hbds]
      rfl
    have hvdF : dF < t.vec.length := hlp.2.2.2.2.2 dF hdFmem
    have hcdp2 : childrenOf
        (setNext (setPrev (setParent td n (some p)) n (some dL)) dL (some n)) p
        = some (dF, dL) := by
      simp only [childrenOf_setNext, childrenOf_setPrev, childrenOf_setParent]
      rw [hcdp, hbds]
    have hcdp3 : childrenOf
        (setPrev (setNext (setParent td n (some p)) n (some dF)) dF (some n)) p
        = some (dF, dL) := by
      simp only [childrenOf_setPrev, childrenOf_setNext, childrenOf_setParent]
      rw [hcdp, hbds]
    have happ : append_id t p n =
        some (setChildren
          (setNext (setPrev (setParent td n (some p)) n (some dL)) dL (some n)) p
          (some (dF, n))) := by
      unfold append_id
      simp only [hgp, hgn, hdet, hlastC, hcdp2]
    have hpre : prepend_id t p n =
        some (setChildren
          (setPrev (setNext (setParent td n (some p)) n (some dF)) dF (some n)) p
          (some (n, dL))) := by
      unfold prepend_id
      simp only [hgp, hgn, hdet, hfirstC, hcdp3]
    refine ⟨by rw [happ]; rfl, by rw [hpre]; rfl, ?_⟩
    intro t' ht'
    rcases ht' with h | h
    · rw [happ] at h
      cases h
      apply key
      · intro j hj
        have hjn : j ≠ n := fun hh => hnotmem (hh ▸ hj)
        have hjdL : j ≠ dL := fun hh => hdisj j (herss j hj) (hh ▸ hdLmem)
        simp only [nextOf_setChildren]
        rw [nextOf_setNext_ne _ hjdL]
        simp
      · intro j hj
        have hjn : j ≠ n := fun hh => hnotmem (hh ▸ hj)
        simp only [prevOf_setChildren, prevOf_setNext]
        rw [prevOf_setPrev_ne _ hjn]
        simp
      · rw [childrenOf_setChildren_ne _ hqp]
        simp
      · simp [hlenf]
    · rw [hpre] at h
      cases h
      apply key
      · intro j hj
        have hjn : j ≠ n := fun hh => hnotmem (hh ▸ hj)
        simp only [nextOf_setChildren, nextOf_setPrev]
        rw [nextOf_setNext_ne _ hjn]
        simp
      · intro j hj
        have hjdF : j ≠ dF := fun hh => hdisj j (herss j hj) (hh ▸ hdFmem)
        simp only [prevOf_setChildren]
        rw [prevOf_setPrev_ne _ hjdF]
        simp
      · rw [childrenOf_setChildren_ne _ hqp]
        simp
      · simp [hlenf]

/-- C2 is violated by the code: after `n.reparent_from_id_append(s)` with a
three-child source, the children iterator of `n` yields `[3, 4, 5]` but the
middle child `4` still has `parent = some 2` (the old source), not
`some 1`: only the two endpoint children get their parent rewritten, so
child-bounds consistency fails after this public mutating operation. -/
theorem reparent_append_stale_middle_parent :
    (reparent_from_id_append c2Tree 1 2).isSome = true ∧
    childIds ((reparent_from_id_append c2Tree 1 2).getD c2Tree) 1 = [3, 4, 5] ∧
    parentOf ((reparent_from_id_append c2Tree 1 2).getD c2Tree) 3 = some 1 ∧
    parentOf ((reparent_from_id_append c2Tree 1 2).getD c2Tree) 4 = some 2 ∧
    parentOf ((reparent_from_id_append c2Tree 1 2).getD c2Tree) 5 = some 1 ∧
    childrenOf ((reparent_from_id_append c2Tree 1 2).getD c2Tree) 2 = none := by
  decide

/-- C9: `append v` followed by detaching the returned child restores every
pre-existing node, the parent's child bounds included, to its exact
pre-append pointer structure; the new node remains allocated as a fresh
orphan. -/
theorem append_detach_round_trip (t : Tree α) (p : Nat) (v : α) (pn : Node α)
    (hget : getNode t p = some pn)
    (hbounds : ∀ f l, pn.children = some (f, l) →
      f < t.vec.length ∧ l < t.vec.length ∧ nextOf t l = none) :
    ∃ t1 t2, append t p v = some (t1, t.vec.length) ∧
      detach t1 t.vec.length = some t2 ∧
      (∀ j, j < t.vec.length →
        parentOf t2 j = parentOf t j ∧ prevOf t2 j = prevOf t j ∧
        nextOf t2 j = nextOf t j ∧ childrenOf t2 j = childrenOf t j ∧
        valueOf t2 j = valueOf t j) ∧
      parentOf t2 t.vec.length = none ∧ prevOf t2 t.vec.length = none ∧
      nextOf t2 t.vec.length = none ∧ childrenOf t2 t.vec.length = none ∧
      valueOf t2 t.vec.length = some v := by
  have hvp : p < t.vec.length := getNode_lt_length hget
  have hpid : p ≠ t.vec.length := Nat.ne_of_lt hvp
  have hget0 : getNode (orphan t v).1 p = some pn := by
    rw [getNode_orphan_old t v hvp, hget]
  have hnew0 : getNode (orphan t v).1 t.vec.length = some (Node.new v) :=
    getNode_orphan_new t v
  have hdet0 : detach (orphan t v).1 t.vec.length = some (orphan t v).1 :=
    detach_run_orphan hnew0 rfl
  have hcp0 : childrenOf (orphan t v).1 p = pn.children := by
    rw [childrenOf_orphan_old t v hvp, childrenOf_eq hget]
  cases hc : pn.children with
  | none =>
    have hlastC : pn.children.map Prod.snd = none := by rw [hc]; rfl
    have hc3 : childrenOf
        (setPrev (setParent (orphan t v).1 t.vec.length (some p)) t.vec.length none) p
        = none := by
      simp only [childrenOf_setPrev, childrenOf_setParent]
      rw [hcp0, hc]
    have happid : append_id (orphan t v).1 p t.vec.length =
        some (setChildren
          (setPrev (setParent (orphan t v).1 t.vec.length (some p)) t.vec.length none)
          p (some (t.vec.length, t.vec.length))) := by
      unfold append_id
      simp only [hget0, hnew0, hdet0, hlastC, hc3]
    have happ : append t p v =
        some (setChildren
          (setPrev (setParent (orphan t v).1 t.vec.length (some p)) t.vec.length none)
          p (some (t.vec.length, t.vec.length)), t.vec.length) := by
      show (append_id (orphan t v).1 p t.vec.length).map
        (fun t2 => (t2, t.vec.length)) = _
      rw [happid]
      rfl
    have hgetTa : getNode (setChildren
        (setPrev (setParent (orphan t v).1 t.vec.length (some p)) t.vec.length none)
        p (some (t.vec.length, t.vec.length))) t.vec.length =
        some ⟨some p, none, none, none, v⟩ := by
      rw [getNode_setChildren_ne _ (Ne.symm hpid), getNode_setPrev_self,
        getNode_setParent_self, hnew0]
      rfl
    have hcTa : childrenOf (setChildren
        (setPrev (setParent (orphan t v).1 t.vec.length (some p)) t.vec.length none)
        p (some (t.vec.length, t.vec.length))) p
        = some (t.vec.length, t.vec.length) :=
      childrenOf_setChildren_self _ (by simpa using Nat.lt_succ_of_lt hvp) _
    have hdet2 := detach_run_single hgetTa rfl hcTa
    refine ⟨_, _, happ, hdet2, ?_, ?_, ?_, ?_, ?_, ?_⟩
    · intro j hj
      have hjid : j ≠ t.vec.length := Nat.ne_of_lt hj
      refine ⟨?_, ?_, ?_, ?_, ?_⟩
      · simp only [parentOf_setChildren]
        rw [parentOf_detachWrites _ _ _ _ hjid]
        simp only [parentOf_setChildren, parentOf_setPrev]
        rw [parentOf_setParent_ne _ hjid, parentOf_orphan_old t v hj]
      · simp only [prevOf_setChildren]
        rw [prevOf_detachWrites_ne _ hjid (by simp)]
        simp only [prevOf_setChildren]
        rw [prevOf_setPrev_ne _ hjid]
        simp only [prevOf_setParent]
        rw [prevOf_orphan_old t v hj]
      · simp only [nextOf_setChildren]
        rw [nextOf_detachWrites_ne _ hjid (by simp)]
        simp only [nextOf_setChildren, nextOf_setPrev, nextOf_setParent]
        rw [nextOf_orphan_old t v hj]
      · by_cases hjp : j = p
        · subst hjp
          rw [childrenOf_setChildren_self _ (by simp; omega) _,
            childrenOf_eq hget, hc]
        · rw [childrenOf_setChildren_ne _ hjp, childrenOf_detachWrites,
            childrenOf_setChildren_ne _ hjp]
          simp only [childrenOf_setPrev, childrenOf_setParent]
          rw [childrenOf_orphan_old t v hj]
      · simp only [valueOf_setChildren]
        rw [valueOf_detachWrites]
        simp only [valueOf_setChildren, valueOf_setPrev, valueOf_setParent]
        rw [valueOf_orphan_old t v hj]
    · simp only [parentOf_setChildren]
      exact parentOf_detachWrites_self _ _ _ (by simpa using Nat.lt_succ_of_self _)
    · simp only [prevOf_setChildren]
      exact prevOf_detachWrites_self _ (by simpa using Nat.lt_succ_of_self _) (by simp)
    · simp only [nextOf_setChildren]
      exact nextOf_detachWrites_self _ (by simpa using Nat.lt_succ_of_self _) (by simp)
    · rw [childrenOf_setChildren_ne _ (Ne.symm hpid), childrenOf_detachWrites,
        childrenOf_setChildren_ne _ (Ne.symm hpid)]
      simp only [childrenOf_setPrev, childrenOf_setParent]
      rw [childrenOf_eq hnew0]
      rfl
    · simp only [valueOf_setChildren]
      rw [valueOf_detachWrites]
      simp only [valueOf_setChildren, valueOf_setPrev, valueOf_setParent]
      rw [valueOf_orphan_new]
  | some fl =>
    obtain ⟨f, L⟩ := fl
    obtain ⟨hfv, hLv, hLnext⟩ := hbounds f L hc
    have hfid : f ≠ t.vec.length := Nat.ne_of_lt hfv
    have hLid : L ≠ t.vec.length := Nat.ne_of_lt hLv
    have hlastC : pn.children.map Prod.snd = some L := by rw [hc]; rfl
    have hc3 : childrenOf
        (setNext (setPrev (setParent (orphan t v).1 t.vec.length (some p))
          t.vec.length (some L)) L (some t.vec.length)) p
        = some (f, L) := by
      simp only [childrenOf_setNext, childrenOf_setPrev, childrenOf_setParent]
      rw [hcp0, hc]
    have happid : append_id (orphan t v).1 p t.vec.length =
        some (setChildren
          (setNext (setPrev (setParent (orphan t v).1 t.vec.length (some p))
            t.vec.length (some L)) L (some t.vec.length))
          p (some (f, t.vec.length))) := by
      unfold append_id
      simp only [hget0, hnew0, hdet0, hlastC, hc3]
    have happ : append t p v =
        some (setChildren
          (setNext (setPrev (setParent (orphan t v).1 t.vec.length (some p))
            t.vec.length (some L)) L (some t.vec.length))
          p (some (f, t.vec.length)), t.vec.length) := by
      show (append_id (orphan t v).1 p t.vec.length).map
        (fun t2 => (t2, t.vec.length)) = _
      rw [happid]
      rfl
    have hgetTa : getNode (setChildren
        (setNext (setPrev (setParent (orphan t v).1 t.vec.length (some p))
          t.vec.length (some L)) L (some t.vec.length))
        p (some (f, t.vec.length))) t.vec.length =
        some ⟨some p, some L, none, none, v⟩ := by
      rw [getNode_setChildren_ne _ (Ne.symm hpid), getNode_setNext_ne _ (Ne.symm hLid),
        getNode_setPrev_self, getNode_setParent_self, hnew0]
      rfl
    have hcTa : childrenOf (setChildren
        (setNext (setPrev (setParent (orphan t v).1 t.vec.length (some p))
          t.vec.length (some L)) L (some t.vec.length))
        p (some (f, t.vec.length))) p = some (f, t.vec.length) :=
      childrenOf_setChildren_self _ (by simpa using Nat.lt_succ_of_lt hvp) _
    have hdet2 := detach_run_last hgetTa rfl hcTa hfid hfid rfl rfl
    refine ⟨_, _, happ, hdet2, ?_, ?_, ?_, ?_, ?_, ?_⟩
    · intro j hj
      have hjid : j ≠ t.vec.length := Nat.ne_of_lt hj
      refine ⟨?_, ?_, ?_, ?_, ?_⟩
      · simp only [parentOf_setChildren]
        rw [parentOf_detachWrites _ _ _ _ hjid]
        simp only [parentOf_setChildren, parentOf_setNext, parentOf_setPrev]
        rw [parentOf_setParent_ne _ hjid, parentOf_orphan_old t v hj]
      · simp only [prevOf_setChildren]
        rw [prevOf_detachWrites_ne _ hjid (by simp)]
        simp only [prevOf_setChildren, prevOf_setNext]
        rw [prevOf_setPrev_ne _ hjid]
        simp only [prevOf_setParent]
        rw [prevOf_orphan_old t v hj]
      · by_cases hjL : j = L
        · subst hjL
          simp only [nextOf_setChildren]
          rw [nextOf_detachWrites_pr _ rfl (by simpa using Nat.lt_succ_of_lt hLv),
            hLnext]
        · simp only [nextOf_setChildren]
          rw [nextOf_detachWrites_ne _ hjid
            (by intro x hx; cases hx; exact hjL)]
          simp only [nextOf_setChildren]
          rw [nextOf_setNext_ne _ hjL]
          simp only [nextOf_setPrev, nextOf_setParent]
          rw [nextOf_orphan_old t v hj]
      · by_cases hjp : j = p
        · subst hjp
          rw [childrenOf_setChildren_self _ (by simp; omega) _,
            childrenOf_eq hget, hc]
        · rw [childrenOf_setChildren_ne _ hjp, childrenOf_detachWrites,
            childrenOf_setChildren_ne _ hjp]
          simp only [childrenOf_setNext, childrenOf_setPrev, childrenOf_setParent]
          rw [childrenOf_orphan_old t v hj]
      · simp only [valueOf_setChildren]
        rw [valueOf_detachWrites]
        simp only [valueOf_setChildren, valueOf_setNext, valueOf_setPrev,
          valueOf_setParent]
        rw [valueOf_orphan_old t v hj]
    · simp only [parentOf_setChildren]
      exact parentOf_detachWrites_self _ _ _ (by simpa using Nat.lt_succ_of_self _)
    · simp only [prevOf_setChildren]
      exact prevOf_detachWrites_self _ (by simpa using Nat.lt_succ_of_self _) (by simp)
    · simp only [nextOf_setChildren]
      refine nextOf_detachWrites_self _ (by simpa using Nat.lt_succ_of_self _) ?_
      intro x hx
      cases hx
      exact hLid
    · rw [childrenOf_setChildren_ne _ (Ne.symm hpid), childrenOf_detachWrites,
        childrenOf_setChildren_ne _ (Ne.symm hpid)]
      simp only [childrenOf_setNext, childrenOf_setPrev, childrenOf_setParent]
      rw [childrenOf_eq hnew0]
      rfl
    · simp only [valueOf_setChildren]
      rw [valueOf_detachWrites]
      simp only [valueOf_setChildren, valueOf_setNext, valueOf_setPrev,
        valueOf_setParent]
      rw [valueOf_orphan_new]

theorem head?_append_cons {β : Type} (l1 : List β) (c : β) (X Y : List β) :
    (l1 ++ c :: X).head? = (l1 ++ c :: Y).head? := by
  cases l1 <;> rfl

/-- `insert_id_after` of a fresh node on a consistent chain: the node is
spliced in right after `self`. -/
theorem insert_id_after_chain (t : Tree α) (p c newId : Nat) (l1 l2 : List Nat)
    (hc : IsChain t p (l1 ++ c :: l2)) (m : Node α)
    (hnew : getNode t newId = some m)
    (hfresh : newId ∉ l1 ++ c :: l2) (hnp : newId ≠ p) :
    ∃ t', insert_id_after t c newId = some t' ∧
      LinkChain t' p (l1 ++ c :: newId :: l2) ∧
      (∀ j, valueOf t' j = valueOf t j) ∧
      t'.vec.length = t.vec.length := by
  obtain ⟨⟨hch, hhead, hlast, hbd, hnd, hval⟩, hpar⟩ := hc
  have hmemc : c ∈ l1 ++ c :: l2 := by simp
  have hvc : c < t.vec.length := hval c hmemc
  have hvnew : newId < t.vec.length := getNode_lt_length hnew
  have hgc : getNode t c = some (t.vec[c]) := getNode_eq_some t hvc
  have hparc : (t.vec[c]).parent = some p := by
    rw [← parentOf_eq hgc]
    exact hpar c hmemc
  have hndparts := List.nodup_append.mp hnd
  have hcl1 : c ∉ l1 := fun h => hndparts.2.2 h (by simp)
  have hcl2 : c ∉ l2 := (List.nodup_cons.mp hndparts.2.1).1
  have hndl1 : l1.Nodup := hndparts.1
  have hndl2 : l2.Nodup := (List.nodup_cons.mp hndparts.2.1).2
  have hdisj12 : l1.Disjoint l2 := by
    intro a h1 h2
    exact hndparts.2.2 h1 (by simp [h2])
  have hnewc : newId ≠ c := fun h => hfresh (h ▸ hmemc)
  have hnl1 : newId ∉ l1 := fun h => hfresh (List.mem_append_left _ h)
  have hnl2 : newId ∉ l2 := fun h =>
    hfresh (List.mem_append_right _ (List.mem_cons_of_mem c h))
  have hchsplit := List.chain'_append.mp hch
  have hnextc : (t.vec[c]).next_sibling = l2.head? := by
    cases hl2c : l2 with
    | nil =>
      rw [← nextOf_eq hgc]
      apply hlast
      rw [hl2c, List.getLast?_append_of_ne_nil _ (by simp)]
      rfl
    | cons N l2' =>
      rw [← nextOf_eq hgc]
      have := hchsplit.2.1
      rw [hl2c, List.chain'_cons] at this
      exact this.1.1
  obtain ⟨f0, L0, hb0, hh0, hl0⟩ := boundsOf_ne_nil
    (show l1 ++ c :: l2 ≠ [] by simp)
  have hbq : childrenOf t p = some (f0, L0) := by rw [hbd, hb0]
  have hvp : p < t.vec.length := childrenOf_lt_length hbq
  have hrun := insert_id_after_run hgc hparc hnew hbq
  cases hl2c : l2 with
  | nil =>
    subst hl2c
    have hL0c : c = L0 := by
      rw [List.getLast?_append_of_ne_nil _ (by simp)] at hl0
      simpa using hl0
    subst hL0c
    rw [if_pos rfl] at hrun
    rw [hnextc] at hrun
    simp only [List.head?_nil] at hrun
    refine ⟨_, hrun, ?_, ?_, ?_⟩
    · refine ⟨?_, ?_, ?_, ?_, ?_, ?_⟩
      · rw [List.chain'_append]
        refine ⟨?_, ?_, ?_⟩
        · refine chain'_transfer (fun a ha b hb hab => ?_) hchsplit.1
          constructor
          · simp only [nextOf_setChildren]
            rw [nextOf_insertAfterWrites_ne _ (by rintro rfl; exact hcl1 ha)
              (by rintro rfl; exact hnl1 ha)]
            exact hab.1
          · simp only [prevOf_setChildren]
            rw [prevOf_insertAfterWrites_ne _ (by rintro rfl; exact hnl1 hb) (by simp)]
            exact hab.2
        · rw [List.chain'_cons]
          constructor
          · constructor
            · simp only [nextOf_setChildren]
              exact nextOf_insertAfterWrites_self _ hvc
            · simp only [prevOf_setChildren]
              exact prevOf_insertAfterWrites_new _ hvnew (by simp)
          · simp
        · intro x hx y hy
          cases hy
          have hxc := hchsplit.2.2 x hx c rfl
          constructor
          · simp only [nextOf_setChildren]
            rw [nextOf_insertAfterWrites_ne _
              (by rintro rfl; exact hcl1 (List.mem_of_mem_getLast? hx))
              (by rintro rfl; exact hnl1 (List.mem_of_mem_getLast? hx))]
            exact hxc.1
          · simp only [prevOf_setChildren]
            rw [prevOf_insertAfterWrites_ne _ (Ne.symm hnewc) (by simp)]
            exact hxc.2
      · intro h hh
        rw [head?_append_cons l1 c [newId] []] at hh
        have hmh : h ∈ l1 ++ c :: ([] : List Nat) := List.mem_of_mem_head? hh
        have hhne : h ≠ newId := by
          rintro rfl
          rcases List.mem_append.mp hmh with h2 | h2
          · exact hnl1 h2
          · simp at h2
            exact hnewc h2
        simp only [prevOf_setChildren]
        rw [prevOf_insertAfterWrites_ne _ hhne (by simp)]
        exact hhead h hh
      · intro l hl
        rw [List.getLast?_append_of_ne_nil _ (by simp)] at hl
        have hlid : newId = l := by simpa using hl
        subst hlid
        simp only [nextOf_setChildren]
        exact nextOf_insertAfterWrites_new _ hvnew (Ne.symm hnewc)
      · obtain ⟨f2, L2, hb2, hh2, hl2⟩ := boundsOf_ne_nil
          (show l1 ++ c :: [newId] ≠ [] by simp)
        have hf2 : f2 = f0 := by
          rw [head?_append_cons l1 c [newId] [], hh0] at hh2
          exact (Option.some.inj hh2).symm
        have hL2 : L2 = newId := by
          rw [List.getLast?_append_of_ne_nil _ (by simp)] at hl2
          exact (by simpa using hl2 : newId = L2).symm
        rw [childrenOf_setChildren_self _ (by simpa using hvp) _, hb2, hf2, hL2]
      · rw [List.nodup_append]
        refine ⟨hndl1, by simp [Ne.symm hnewc], ?_⟩
        intro a ha hmem
        simp at hmem
        rcases hmem with h | h
        · exact hcl1 (h ▸ ha)
        · exact hnl1 (h ▸ ha)
      · intro x hx
        simp only [length_setChildren, length_insertAfterWrites]
        rcases List.mem_append.mp hx with h | h
        · exact hval x (List.mem_append_left _ h)
        · simp at h
          rcases h with h | h
          · subst h
            exact hvc
          · subst h
            exact hvnew
    · intro j
      simp only [valueOf_setChildren]
      exact valueOf_insertAfterWrites _ _ _ _ _ _
    · simp
  | cons N l2' =>
    subst hl2c
    have hNmem : N ∈ N :: l2' := by simp
    have hvN : N < t.vec.length :=
      hval N (List.mem_append_right _ (List.mem_cons_of_mem c hNmem))
    have hNc : N ≠ c := fun h => hcl2 (h ▸ hNmem)
    have hNnew : N ≠ newId := fun h => hnl2 (h ▸ hNmem)
    have hL0l2 : (N :: l2').getLast? = some L0 := by
      rw [List.getLast?_append_of_ne_nil _ (by simp)] at hl0
      simp only [List.getLast?_cons_cons] at hl0
      exact hl0
    have hL0mem : L0 ∈ N :: l2' := List.mem_of_mem_getLast? hL0l2
    have hL0c : L0 ≠ c := fun h => hcl2 (h ▸ hL0mem)
    rw [if_neg hL0c] at hrun
    rw [hnextc] at hrun
    simp only [List.head?_cons] at hrun
    have hchl2 : (N :: l2').Chain' (SibLink t) := (hchsplit.2.1).tail
    refine ⟨_, hrun, ?_, ?_, ?_⟩
    · refine ⟨?_, ?_, ?_, ?_, ?_, ?_⟩
      · rw [List.chain'_append]
        refine ⟨?_, ?_, ?_⟩
        · refine chain'_transfer (fun a ha b hb hab => ?_) hchsplit.1
          constructor
          · rw [nextOf_insertAfterWrites_ne _ (by rintro rfl; exact hcl1 ha)
              (by rintro rfl; exact hnl1 ha)]
            exact hab.1
          · rw [prevOf_insertAfterWrites_ne _ (by rintro rfl; exact hnl1 hb)
              (by intro q hq; cases hq; rintro rfl; exact hdisj12 hb hNmem)]
            exact hab.2
        · rw [List.chain'_cons]
          constructor
          · constructor
            · exact nextOf_insertAfterWrites_self _ hvc
            · exact prevOf_insertAfterWrites_new _ hvnew
                (by intro q hq; cases hq; exact hNnew)
          · rw [List.chain'_cons]
            constructor
            · constructor
              · exact nextOf_insertAfterWrites_new _ hvnew (Ne.symm hnewc)
              · exact prevOf_insertAfterWrites_nx _ rfl hvN
            · cases hl2'c : l2' with
              | nil => simp
              | cons b l2'' =>
                subst hl2'c
                have hNnotbl : N ∉ b :: l2'' := (List.nodup_cons.mp hndl2).1
                rw [List.chain'_cons] at hchl2 ⊢
                constructor
                · constructor
                  · rw [nextOf_insertAfterWrites_ne _ hNc hNnew]
                    exact hchl2.1.1
                  · rw [prevOf_insertAfterWrites_ne _
                      (by rintro rfl; exact hnl2 (by simp))
                      (by intro q hq; cases hq; rintro rfl; exact hNnotbl (by simp))]
                    exact hchl2.1.2
                · refine chain'_transfer (fun a ha b2 hb2 hab => ?_) hchl2.2
                  constructor
                  · rw [nextOf_insertAfterWrites_ne _
                      (by rintro rfl; exact hcl2 (List.mem_cons_of_mem N ha))
                      (by rintro rfl; exact hnl2 (List.mem_cons_of_mem N ha))]
                    exact hab.1
                  · rw [prevOf_insertAfterWrites_ne _
                      (by rintro rfl; exact hnl2 (List.mem_cons_of_mem N hb2))
                      (by intro q hq; cases hq; rintro rfl; exact hNnotbl hb2)]
                    exact hab.2
        · intro x hx y hy
          cases hy
          have hxc := hchsplit.2.2 x hx c rfl
          have hxmem : x ∈ l1 := List.mem_of_mem_getLast? hx
          constructor
          · rw [nextOf_insertAfterWrites_ne _ (by rintro rfl; exact hcl1 hxmem)
              (by rintro rfl; exact hnl1 hxmem)]
            exact hxc.1
          · rw [prevOf_insertAfterWrites_ne _ (Ne.symm hnewc)
              (by intro q hq; cases hq; exact Ne.symm hNc)]
            exact hxc.2
      · intro h hh
        rw [head?_append_cons l1 c (newId :: N :: l2') (N :: l2')] at hh
        have hph : prevOf t h = none := hhead h hh
        have hmh : h ∈ l1 ++ c :: N :: l2' := List.mem_of_mem_head? hh
        have hhnew : h ≠ newId := by
          rintro rfl
          rcases List.mem_append.mp hmh with h2 | h2
          · exact hnl1 h2
          · rcases List.mem_cons.mp h2 with h3 | h3
            · exact hnewc h3
            · exact hnl2 h3
        have hhN : h ≠ N := by
          rintro rfl
          have hlink := hchsplit.2.1
          rw [List.chain'_cons] at hlink
          rw [hlink.1.2] at hph
          exact absurd hph (by simp)
        rw [prevOf_insertAfterWrites_ne _ hhnew
          (by intro q hq; cases hq; exact hhN)]
        exact hph
      · intro l hl
        rw [List.getLast?_append_of_ne_nil _ (by simp)] at hl
        simp only [List.getLast?_cons_cons] at hl
        rw [hL0l2] at hl
        cases hl
        rw [nextOf_insertAfterWrites_ne _ hL0c
          (by rintro rfl; exact hnl2 hL0mem)]
        apply hlast
        rw [List.getLast?_append_of_ne_nil _ (by simp)]
        simp only [List.getLast?_cons_cons]
        exact hL0l2
      · rw [childrenOf_insertAfterWrites, hbq]
        obtain ⟨f2, L2, hb2, hh2, hl2x⟩ := boundsOf_ne_nil
          (show l1 ++ c :: newId :: N :: l2' ≠ [] by simp)
        have hf2 : f2 = f0 := by
          rw [head?_append_cons l1 c (newId :: N :: l2') (N :: l2'), hh0] at hh2
          exact (Option.some.inj hh2).symm
        have hL2 : L2 = L0 := by
          rw [List.getLast?_append_of_ne_nil _ (by simp)] at hl2x
          simp only [List.getLast?_cons_cons] at hl2x
          rw [hL0l2] at hl2x
          exact (Option.some.inj hl2x).symm
        rw [hb2, hf2, hL2]
      · rw [List.nodup_append]
        refine ⟨hndl1, ?_, ?_⟩
        · rw [List.nodup_cons]
          constructor
          · intro hcm
            rcases List.mem_cons.mp hcm with h | h
            · exact hnewc h.symm
            · exact hcl2 h
          · rw [List.nodup_cons]
            exact ⟨hnl2, hndl2⟩
        · intro a ha hmem
          rcases List.mem_cons.mp hmem with h | h
          · exact hcl1 (h ▸ ha)
          · rcases List.mem_cons.mp h with h2 | h2
            · exact hnl1 (h2 ▸ ha)
            · exact hdisj12 ha h2
      · intro x hx
        simp only [length_insertAfterWrites]
        rcases List.mem_append.mp hx with h | h
        · exact hval x (List.mem_append_left _ h)
        · rcases List.mem_cons.mp h with h3 | h3
          · subst h3
            exact hvc
          · rcases List.mem_cons.mp h3 with h4 | h4
            · subst h4
              exact hvnew
            · exact hval x (List.mem_append_right _ (List.mem_cons_of_mem c h4))
    · intro j
      exact valueOf_insertAfterWrites _ _ _ _ _ _
    · simp

/-- C5: on a node whose child list is `cs`, `insert v index` panics exactly
when `index` exceeds the child count; when `index ≤ cs.length` it succeeds,
the new node (handle = old arena length) appears at zero-based position
`index` among the children with the pre-existing children in their old
relative order, it carries value `v`, and old values are unchanged. -/
theorem insert_spec (t : Tree α) (p : Nat) (v : α) (index : Nat) (cs : List Nat)
    (hc : IsChain t p cs) (hvp : p < t.vec.length) :
    (insert t p v index = none ↔ cs.length < index) ∧
    (∀ t2 newId, insert t p v index = some (t2, newId) →
      newId = t.vec.length ∧
      childIds t2 p = cs.take index ++ newId :: cs.drop index ∧
      valueOf t2 newId = some v ∧
      (∀ j, j < t.vec.length → valueOf t2 j = valueOf t j)) := by
  obtain ⟨hlc, hparc⟩ := hc
  have hval := hlc.2.2.2.2.2
  have hlc1 : LinkChain (orphan t v).1 p cs := LinkChain_orphan t p cs v hlc hvp
  have hvp1 : p < (orphan t v).1.vec.length := by
    simp only [length_orphan]
    exact Nat.lt_succ_of_lt hvp
  have hids1 : childIds (orphan t v).1 p = cs := childIds_of_LinkChain hlc1
  have hg1 : getNode (orphan t v).1 p = some ((orphan t v).1.vec[p]) :=
    getNode_eq_some _ hvp1
  have hnew1 : getNode (orphan t v).1 t.vec.length = some (Node.new v) :=
    getNode_orphan_new t v
  have hfresh : t.vec.length ∉ cs := fun h => absurd (hval _ h) (by simp)
  have hnp : t.vec.length ≠ p := (Nat.ne_of_lt hvp).symm
  have hmapdef : insert t p v index =
      (insert_id (orphan t v).1 p t.vec.length index).map
        (fun t2 => (t2, t.vec.length)) := rfl
  cases index with
  | zero =>
    have hred : insert_id (orphan t v).1 p t.vec.length 0 =
        prepend_id (orphan t v).1 p t.vec.length := by
      unfold insert_id
      simp only [hg1]
      rfl
    obtain ⟨t', hrun, hchain, _, _, _, hvalf, hlen⟩ :=
      prepend_id_orphan_chain (orphan t v).1 p t.vec.length cs (Node.new v)
        hlc1 hvp1 hnew1 rfl rfl hfresh hnp
    have hins : insert t p v 0 = some (t', t.vec.length) := by
      rw [hmapdef, hred, hrun]
      rfl
    constructor
    · rw [hins]
      simp
    · intro t2 newId2 heq
      rw [hins] at heq
      have hpair := Option.some.inj heq
      have ht2 : t2 = t' := (congrArg Prod.fst hpair).symm
      have hid2 : newId2 = t.vec.length := (congrArg Prod.snd hpair).symm
      subst ht2
      subst hid2
      refine ⟨rfl, ?_, ?_, ?_⟩
      · rw [childIds_of_LinkChain hchain]
        simp
      · rw [hvalf, valueOf_orphan_new]
      · intro j hj
        rw [hvalf, valueOf_orphan_old t v hj]
  | succ k =>
    by_cases hk : k < cs.length
    · have hck : cs[k]? = some cs[k] := List.getElem?_eq_getElem hk
      have hsplit : cs = cs.take k ++ cs[k] :: cs.drop (k + 1) := by
        conv_lhs => rw [← List.take_append_drop k cs]
        rw [List.drop_eq_getElem_cons hk]
      have hc1 : IsChain (orphan t v).1 p (cs.take k ++ cs[k] :: cs.drop (k + 1)) := by
        constructor
        · rw [← hsplit]
          exact hlc1
        · intro c hcm
          rw [← hsplit] at hcm
          rw [parentOf_orphan_old t v (hval c hcm)]
          exact hparc c hcm
      obtain ⟨t', hrun, hchain, hvalf, hlen⟩ :=
        insert_id_after_chain (orphan t v).1 p cs[k] t.vec.length
          (cs.take k) (cs.drop (k + 1)) hc1 (Node.new v) hnew1
          (by rw [← hsplit]; exact hfresh) hnp
      have hred : insert_id (orphan t v).1 p t.vec.length (k + 1) =
          insert_id_after (orphan t v).1 cs[k] t.vec.length := by
        unfold insert_id
        simp only [hg1]
        rw [if_neg (show ¬(k + 1 = 0) by simp)]
        simp only [hids1, Nat.add_sub_cancel]
        rw [hck]
      have hins : insert t p v (k + 1) = some (t', t.vec.length) := by
        rw [hmapdef, hred, hrun]
        rfl
      constructor
      · rw [hins]
        constructor
        · intro h
          exact absurd h (by simp)
        · intro h
          exact absurd hk (by omega)
      · intro t2 newId2 heq
        rw [hins] at heq
        have hpair := Option.some.inj heq
        have ht2 : t2 = t' := (congrArg Prod.fst hpair).symm
        have hid2 : newId2 = t.vec.length := (congrArg Prod.snd hpair).symm
        subst ht2
        subst hid2
        refine ⟨rfl, ?_, ?_, ?_⟩
        · rw [childIds_of_LinkChain hchain]
          rw [List.take_succ, hck, List.append_assoc]
          rfl
        · rw [hvalf, valueOf_orphan_new]
        · intro j hj
          rw [hvalf, valueOf_orphan_old t v hj]
    · have hck : cs[k]? = none := List.getElem?_eq_none (by omega)
      have hred : insert_id (orphan t v).1 p t.vec.length (k + 1) = none := by
        unfold insert_id
        simp only [hg1]
        rw [if_neg (show ¬(k + 1 = 0) by simp)]
        simp only [hids1, Nat.add_sub_cancel]
        rw [hck]
      have hins : insert t p v (k + 1) = none := by
        rw [hmapdef, hred]
        rfl
      constructor
      · rw [hins]
        constructor
        · intro h2
          omega
        · intro h2
          rfl
      · intro t2 newId2 heq
        rw [hins] at heq
        exact absurd heq (by simp)


/-! ## Root-freeness preservation and arena growth -/

theorem prevOf_none_of_ge {t : Tree α} {i : Nat} (h : t.vec.length ≤ i) :
    prevOf t i = none := by
  unfold prevOf getNode
  rw [List.getElem?_eq_none h]
  rfl

theorem nextOf_none_of_ge {t : Tree α} {i : Nat} (h : t.vec.length ≤ i) :
    nextOf t i = none := by
  unfold nextOf getNode
  rw [List.getElem?_eq_none h]
  rfl

theorem childrenOf_none_of_ge {t : Tree α} {i : Nat} (h : t.vec.length ≤ i) :
    childrenOf t i = none := by
  unfold childrenOf getNode
  rw [List.getElem?_eq_none h]
  rfl

theorem RootFree.prev_ne {t : Tree α} (h : RootFree t) {i q : Nat}
    (hq : prevOf t i = some q) : q ≠ 0 := by
  rintro rfl
  by_cases hi : i < t.vec.length
  · exact (h.2.2.2.2 i hi).1 hq
  · rw [prevOf_none_of_ge (Nat.le_of_not_lt hi)] at hq
    exact Option.noConfusion hq

theorem RootFree.next_ne {t : Tree α} (h : RootFree t) {i q : Nat}
    (hq : nextOf t i = some q) : q ≠ 0 := by
  rintro rfl
  by_cases hi : i < t.vec.length
  · exact (h.2.2.2.2 i hi).2.1 hq
  · rw [nextOf_none_of_ge (Nat.le_of_not_lt hi)] at hq
    exact Option.noConfusion hq

theorem RootFree.children_ne {t : Tree α} (h : RootFree t) {i f l : Nat}
    (hc : childrenOf t i = some (f, l)) : f ≠ 0 ∧ l ≠ 0 := by
  by_cases hi : i < t.vec.length
  · obtain ⟨_, _, h3, h4⟩ := h.2.2.2.2 i hi
    rw [hc] at h3 h4
    constructor
    · rintro rfl
      exact h3 rfl
    · rintro rfl
      exact h4 rfl
  · rw [childrenOf_none_of_ge (Nat.le_of_not_lt hi)] at hc
    exact Option.noConfusion hc

theorem RootFree.setParent {t : Tree α} (h : RootFree t) {i : Nat}
    (hi : i ≠ 0) (o : Option Nat) : RootFree (EgoTree.setParent t i o) := by
  obtain ⟨h1, h2, h3, h4, h5⟩ := h
  refine ⟨by simpa using h1, ?_, by simpa using h3, by simpa using h4, ?_⟩
  · rw [parentOf_setParent_ne t (Ne.symm hi)]
    exact h2
  · intro j hj
    have := h5 j (by simpa using hj)
    simpa using this

theorem RootFree.setPrev {t : Tree α} (h : RootFree t) {i : Nat} {o : Option Nat}
    (hi : i ≠ 0) (ho : o ≠ some 0) : RootFree (EgoTree.setPrev t i o) := by
  obtain ⟨h1, h2, h3, h4, h5⟩ := h
  refine ⟨by simpa using h1, by simpa using h2, ?_, by simpa using h4, ?_⟩
  · rw [prevOf_setPrev_ne t (Ne.symm hi)]
    exact h3
  · intro j hj
    have hj' : j < t.vec.length := by simpa using hj
    obtain ⟨g1, g2, g3, g4⟩ := h5 j hj'
    refine ⟨?_, by simpa using g2, by simpa using g3, by simpa using g4⟩
    by_cases hji : j = i
    · subst hji
      rw [prevOf_setPrev_self t hj']
      exact ho
    · rw [prevOf_setPrev_ne t hji]
      exact g1

theorem RootFree.setNext {t : Tree α} (h : RootFree t) {i : Nat} {o : Option Nat}
    (hi : i ≠ 0) (ho : o ≠ some 0) : RootFree (EgoTree.setNext t i o) := by
  obtain ⟨h1, h2, h3, h4, h5⟩ := h
  refine ⟨by simpa using h1, by simpa using h2, by simpa using h3, ?_, ?_⟩
  · rw [nextOf_setNext_ne t (Ne.symm hi)]
    exact h4
  · intro j hj
    have hj' : j < t.vec.length := by simpa using hj
    obtain ⟨g1, g2, g3, g4⟩ := h5 j hj'
    refine ⟨by simpa using g1, ?_, by simpa using g3, by simpa using g4⟩
    by_cases hji : j = i
    · subst hji
      rw [nextOf_setNext_self t hj']
      exact ho
    · rw [nextOf_setNext_ne t hji]
      exact g2

theorem RootFree.setChildren {t : Tree α} (h : RootFree t) {i : Nat}
    {o : Option (Nat × Nat)}
    (ho1 : o.map Prod.fst ≠ some 0) (ho2 : o.map Prod.snd ≠ some 0) :
    RootFree (EgoTree.setChildren t i o) := by
  obtain ⟨h1, h2, h3, h4, h5⟩ := h
  refine ⟨by simpa using h1, by simpa using h2, by simpa using h3, by simpa using h4, ?_⟩
  intro j hj
  have hj' : j < t.vec.length := by simpa using hj
  obtain ⟨g1, g2, g3, g4⟩ := h5 j hj'
  refine ⟨by simpa using g1, by simpa using g2, ?_, ?_⟩
  · by_cases hji : j = i
    · subst hji
      rw [childrenOf_setChildren_self t hj']
      exact ho1
    · rw [childrenOf_setChildren_ne t hji]
      exact g3
  · by_cases hji : j = i
    · subst hji
      rw [childrenOf_setChildren_self t hj']
      exact ho2
    · rw [childrenOf_setChildren_ne t hji]
      exact g4

theorem RootFree.orphanPush {t : Tree α} (h : RootFree t) (v : α) :
    RootFree (orphan t v).1 := by
  obtain ⟨h1, h2, h3, h4, h5⟩ := h
  have hnew : getNode (orphan t v).1 t.vec.length = some (Node.new v) :=
    getNode_orphan_new t v
  refine ⟨by simp, ?_, ?_, ?_, ?_⟩
  · rw [parentOf_orphan_old t v h1]
    exact h2
  · rw [prevOf_orphan_old t v h1]
    exact h3
  · rw [nextOf_orphan_old t v h1]
    exact h4
  · intro j hj
    have hj2 : j < t.vec.length + 1 := by simpa using hj
    by_cases hjl : j < t.vec.length
    · obtain ⟨g1, g2, g3, g4⟩ := h5 j hjl
      exact ⟨by rwa [prevOf_orphan_old t v hjl], by rwa [nextOf_orphan_old t v hjl],
        by rwa [childrenOf_orphan_old t v hjl], by rwa [childrenOf_orphan_old t v hjl]⟩
    · have hjeq : j = t.vec.length := by omega
      subst hjeq
      unfold prevOf nextOf childrenOf
      rw [hnew]
      simp [Node.new]

theorem detach_rootfree {t t' : Tree α} {id : Nat} (hrf : RootFree t)
    (h : detach t id = some t') : RootFree t' := by
  unfold detach at h
  cases hg : getNode t id with
  | none =>
    simp only [hg] at h
    exact Option.noConfusion h
  | some n =>
    simp only [hg] at h
    cases hp : n.parent with
    | none =>
      simp only [hp] at h
      cases h
      exact hrf
    | some parentId =>
      simp only [hp] at h
      have hid0 : id ≠ 0 := by
        rintro rfl
        have hpr0 : parentOf t 0 = some parentId := by
          rw [parentOf_eq hg]
          exact hp
        rw [hrf.2.1] at hpr0
        exact Option.noConfusion hpr0
      have hrf3 : RootFree
          (setNext (setPrev (setParent t id none) id none) id none) :=
        ((hrf.setParent hid0 none).setPrev hid0 (by simp)).setNext hid0 (by simp)
      cases hpr : n.prev_sibling with
      | none =>
        cases hnx : n.next_sibling with
        | none =>
          simp only [hpr, hnx] at h
          split at h
          · exact Option.noConfusion h
          · rename_i firstId lastId heq
            have hbounds := hrf3.children_ne heq
            split at h
            · cases h
              exact hrf3.setChildren (by simp) (by simp)
            · split at h
              · exact Option.noConfusion h
              · split at h
                · exact Option.noConfusion h
                · cases h
                  exact hrf3
        | some nx =>
          have hnx0 : nx ≠ 0 := hrf.next_ne (by rw [nextOf_eq hg]; exact hnx)
          simp only [hpr, hnx] at h
          have hrf5 : RootFree
              (setPrev (setNext (setPrev (setParent t id none) id none) id none)
                nx none) :=
            hrf3.setPrev hnx0 (by simp)
          split at h
          · exact Option.noConfusion h
          · rename_i firstId lastId heq
            have hbounds := hrf5.children_ne heq
            split at h
            · cases h
              exact hrf5.setChildren (by simp) (by simp)
            · split at h
              · cases h
                exact hrf5.setChildren (by simpa using hnx0)
                  (by simpa using hbounds.2)
              · split at h
                · exact Option.noConfusion h
                · cases h
                  exact hrf5
      | some pv =>
        have hpv0 : pv ≠ 0 := hrf.prev_ne (by rw [prevOf_eq hg]; exact hpr)
        cases hnx : n.next_sibling with
        | none =>
          simp only [hpr, hnx] at h
          have hrf4 : RootFree
              (setNext (setNext (setPrev (setParent t id none) id none) id none)
                pv none) :=
            hrf3.setNext hpv0 (by simp)
          split at h
          · exact Option.noConfusion h
          · rename_i firstId lastId heq
            have hbounds := hrf4.children_ne heq
            split at h
            · cases h
              exact hrf4.setChildren (by simp) (by simp)
            · split at h
              · exact Option.noConfusion h
              · split at h
                · cases h
                  exact hrf4.setChildren (by simpa using hbounds.1)
                    (by simpa using hpv0)
                · cases h
                  exact hrf4
        | some nx =>
          have hnx0 : nx ≠ 0 := hrf.next_ne (by rw [nextOf_eq hg]; exact hnx)
          simp only [hpr, hnx] at h
          have hrf5 : RootFree
              (setPrev (setNext (setNext (setPrev (setParent t id none) id none)
                id none) pv (some nx)) nx (some pv)) :=
            (hrf3.setNext hpv0 (by simpa using hnx0)).setPrev hnx0
              (by simpa using hpv0)
          split at h
          · exact Option.noConfusion h
          · rename_i firstId lastId heq
            have hbounds := hrf5.children_ne heq
            split at h
            · cases h
              exact hrf5.setChildren (by simp) (by simp)
            · split at h
              · cases h
                exact hrf5.setChildren (by simpa using hnx0)
                  (by simpa using hbounds.2)
              · split at h
                · cases h
                  exact hrf5.setChildren (by simpa using hbounds.1)
                    (by simpa using hpv0)
                · cases h
                  exact hrf5

theorem append_id_rootfree {t t' : Tree α} {s c : Nat} (hrf : RootFree t)
    (hc0 : c ≠ 0) (h : append_id t s c = some t') : RootFree t' := by
  unfold append_id at h
  cases hg : getNode t s with
  | none =>
    simp only [hg] at h
    exact Option.noConfusion h
  | some n =>
    simp only [hg] at h
    cases hgc : getNode t c with
    | none =>
      simp only [hgc] at h
      exact Option.noConfusion h
    | some m =>
      simp only [hgc] at h
      cases hd : detach t c with
      | none =>
        simp only [hd] at h
        exact Option.noConfusion h
      | some td =>
        simp only [hd] at h
        have hrfd : RootFree td := detach_rootfree hrf hd
        cases hch : n.children with
        | none =>
          simp only [hch, Option.map_none'] at h
          have hrf2 : RootFree (setPrev (setParent td c (some s)) c none) :=
            (hrfd.setParent hc0 (some s)).setPrev hc0 (by simp)
          split at h
          · rename_i fc lc heq
            cases h
            exact hrf2.setChildren (by simpa using (hrf2.children_ne heq).1)
              (by simpa using hc0)
          · cases h
            exact hrf2.setChildren (by simpa using hc0) (by simpa using hc0)
        | some fl =>
          obtain ⟨f0, l0⟩ := fl
          simp only [hch, Option.map_some'] at h
          have hl0 : l0 ≠ 0 :=
            (hrf.children_ne (show childrenOf t s = some (f0, l0) by
              rw [childrenOf_eq hg]; exact hch)).2
          have hrf3 : RootFree (setNext (setPrev (setParent td c (some s)) c
              (some l0)) l0 (some c)) :=
            ((hrfd.setParent hc0 (some s)).setPrev hc0
              (by simpa using hl0)).setNext hl0 (by simpa using hc0)
          split at h
          · rename_i fc lc heq
            cases h
            exact hrf3.setChildren (by simpa using (hrf3.children_ne heq).1)
              (by simpa using hc0)
          · cases h
            exact hrf3.setChildren (by simpa using hc0) (by simpa using hc0)

theorem prepend_id_rootfree {t t' : Tree α} {s c : Nat} (hrf : RootFree t)
    (hc0 : c ≠ 0) (h : prepend_id t s c = some t') : RootFree t' := by
  unfold prepend_id at h
  cases hg : getNode t s with
  | none =>
    simp only [hg] at h
    exact Option.noConfusion h
  | some n =>
    simp only [hg] at h
    cases hgc : getNode t c with
    | none =>
      simp only [hgc] at h
      exact Option.noConfusion h
    | some m =>
      simp only [hgc] at h
      cases hd : detach t c with
      | none =>
        simp only [hd] at h
        exact Option.noConfusion h
      | some td =>
        simp only [hd] at h
        have hrfd : RootFree td := detach_rootfree hrf hd
        cases hch : n.children with
        | none =>
          simp only [hch, Option.map_none'] at h
          have hrf2 : RootFree (setNext (setParent td c (some s)) c none) :=
            (hrfd.setParent hc0 (some s)).setNext hc0 (by simp)
          split at h
          · rename_i fc lc heq
            cases h
            exact hrf2.setChildren (by simpa using hc0)
              (by simpa using (hrf2.children_ne heq).2)
          · cases h
            exact hrf2.setChildren (by simpa using hc0) (by simpa using hc0)
        | some fl =>
          obtain ⟨f0, l0⟩ := fl
          simp only [hch, Option.map_some'] at h
          have hf0 : f0 ≠ 0 :=
            (hrf.children_ne (show childrenOf t s = some (f0, l0) by
              rw [childrenOf_eq hg]; exact hch)).1
          have hrf3 : RootFree (setPrev (setNext (setParent td c (some s)) c
              (some f0)) f0 (some c)) :=
            ((hrfd.setParent hc0 (some s)).setNext hc0
              (by simpa using hf0)).setPrev hf0 (by simpa using hc0)
          split at h
          · rename_i fc lc heq
            cases h
            exact hrf3.setChildren (by simpa using hc0)
              (by simpa using (hrf3.children_ne heq).2)
          · cases h
            exact hrf3.setChildren (by simpa using hc0) (by simpa using hc0)

theorem insert_id_before_rootfree {t t' : Tree α} {s c : Nat} (hrf : RootFree t)
    (hc0 : c ≠ 0) (h : insert_id_before t s c = some t') : RootFree t' := by
  unfold insert_id_before at h
  cases hg : getNode t s with
  | none =>
    simp only [hg] at h
    exact Option.noConfusion h
  | some n =>
    simp only [hg] at h
    cases hp : n.parent with
    | none =>
      simp only [hp] at h
      exact Option.noConfusion h
    | some parentId =>
      simp only [hp] at h
      have hs0 : s ≠ 0 := by
        rintro rfl
        have hx : parentOf t 0 = some parentId := by
          rw [parentOf_eq hg]
          exact hp
        rw [hrf.2.1] at hx
        exact Option.noConfusion hx
      cases hgc : getNode t c with
      | none =>
        simp only [hgc] at h
        exact Option.noConfusion h
      | some m =>
        simp only [hgc] at h
        cases hpr : n.prev_sibling with
        | none =>
          simp only [hpr] at h
          have hrf5 : RootFree (setPrev (setNext (setPrev (setParent t c
              (some parentId)) c none) c (some s)) s (some c)) :=
            (((hrf.setParent hc0 (some parentId)).setPrev hc0
              (by simp)).setNext hc0 (by simpa using hs0)).setPrev hs0
              (by simpa using hc0)
          split at h
          · exact Option.noConfusion h
          · rename_i fc lc heq
            split at h
            · cases h
              exact hrf5.setChildren (by simpa using hc0)
                (by simpa using (hrf5.children_ne heq).2)
            · cases h
              exact hrf5
        | some pv =>
          have hpv0 : pv ≠ 0 := hrf.prev_ne (by rw [prevOf_eq hg]; exact hpr)
          simp only [hpr] at h
          have hrf5 : RootFree (setPrev (setNext (setNext (setPrev (setParent t c
              (some parentId)) c (some pv)) c (some s)) pv (some c)) s (some c)) :=
            ((((hrf.setParent hc0 (some parentId)).setPrev hc0
              (by simpa using hpv0)).setNext hc0 (by simpa using hs0)).setNext
              hpv0 (by simpa using hc0)).setPrev hs0 (by simpa using hc0)
          split at h
          · exact Option.noConfusion h
          · rename_i fc lc heq
            split at h
            · cases h
              exact hrf5.setChildren (by simpa using hc0)
                (by simpa using (hrf5.children_ne heq).2)
            · cases h
              exact hrf5

theorem insert_id_after_rootfree {t t' : Tree α} {s c : Nat} (hrf : RootFree t)
    (hc0 : c ≠ 0) (h : insert_id_after t s c = some t') : RootFree t' := by
  unfold insert_id_after at h
  cases hg : getNode t s with
  | none =>
    simp only [hg] at h
    exact Option.noConfusion h
  | some n =>
    simp only [hg] at h
    cases hp : n.parent with
    | none =>
      simp only [hp] at h
      exact Option.noConfusion h
    | some parentId =>
      simp only [hp] at h
      have hs0 : s ≠ 0 := by
        rintro rfl
        have hx : parentOf t 0 = some parentId := by
          rw [parentOf_eq hg]
          exact hp
        rw [hrf.2.1] at hx
        exact Option.noConfusion hx
      cases hgc : getNode t c with
      | none =>
        simp only [hgc] at h
        exact Option.noConfusion h
      | some m =>
        simp only [hgc] at h
        cases hnx : n.next_sibling with
        | none =>
          simp only [hnx] at h
          have hrf5 : RootFree (setNext (setNext (setPrev (setParent t c
              (some parentId)) c (some s)) c none) s (some c)) :=
            (((hrf.setParent hc0 (some parentId)).setPrev hc0
              (by simpa using hs0)).setNext hc0 (by simp)).setNext hs0
              (by simpa using hc0)
          split at h
          · exact Option.noConfusion h
          · rename_i fc lc heq
            split at h
            · cases h
              exact hrf5.setChildren (by simpa using (hrf5.children_ne heq).1)
                (by simpa using hc0)
            · cases h
              exact hrf5
        | some nx =>
          have hnx0 : nx ≠ 0 := hrf.next_ne (by rw [nextOf_eq hg]; exact hnx)
          simp only [hnx] at h
          have hrf5 : RootFree (setNext (setPrev (setNext (setPrev (setParent t c
              (some parentId)) c (some s)) c (some nx)) nx (some c)) s (some c)) :=
            ((((hrf.setParent hc0 (some parentId)).setPrev hc0
              (by simpa using hs0)).setNext hc0 (by simpa using hnx0)).setPrev
              hnx0 (by simpa using hc0)).setNext hs0 (by simpa using hc0)
          split at h
          · exact Option.noConfusion h
          · rename_i fc lc heq
            split at h
            · cases h
              exact hrf5.setChildren (by simpa using (hrf5.children_ne heq).1)
                (by simpa using hc0)
            · cases h
              exact hrf5

theorem insert_id_rootfree {t t' : Tree α} {s c k : Nat} (hrf : RootFree t)
    (hc0 : c ≠ 0) (h : insert_id t s c k = some t') : RootFree t' := by
  unfold insert_id at h
  cases hg : getNode t s with
  | none =>
    simp only [hg] at h
    exact Option.noConfusion h
  | some n =>
    simp only [hg] at h
    by_cases hk : k = 0
    · rw [if_pos hk] at h
      exact prepend_id_rootfree hrf hc0 h
    · rw [if_neg hk] at h
      cases hcix : (childIds t s)[k - 1]? with
      | none =>
        simp only [hcix] at h
        exact Option.noConfusion h
      | some pre =>
        simp only [hcix] at h
        exact insert_id_after_rootfree hrf hc0 h

theorem reparent_from_id_append_rootfree {t t' : Tree α} {s f : Nat}
    (hrf : RootFree t) (h : reparent_from_id_append t s f = some t') :
    RootFree t' := by
  unfold reparent_from_id_append at h
  cases hg : getNode t s with
  | none =>
    simp only [hg] at h
    exact Option.noConfusion h
  | some n =>
    simp only [hg] at h
    cases hgf : getNode t f with
    | none =>
      simp only [hgf] at h
      exact Option.noConfusion h
    | some fromNode =>
      simp only [hgf] at h
      cases hch : fromNode.children with
      | none =>
        simp only [hch] at h
        cases h
        exact hrf
      | some fl =>
        obtain ⟨nf, nl⟩ := fl
        simp only [hch] at h
        obtain ⟨hnf0, hnl0⟩ := hrf.children_ne
          (show childrenOf t f = some (nf, nl) by rw [childrenOf_eq hgf]; exact hch)
        have hrf2 : RootFree (setParent (setParent (setChildren t f none) nf
            (some s)) nl (some s)) :=
          ((hrf.setChildren (by simp) (by simp)).setParent hnf0
            (some s)).setParent hnl0 (some s)
        split at h
        · cases h
          exact hrf2.setChildren (by simpa using hnf0) (by simpa using hnl0)
        · rename_i of ol heq
          obtain ⟨hof0, hol0⟩ := hrf2.children_ne heq
          cases h
          exact ((hrf2.setNext hol0 (by simpa using hnf0)).setPrev hnf0
            (by simpa using hol0)).setChildren (by simpa using hof0)
            (by simpa using hnl0)

theorem reparent_from_id_prepend_rootfree {t t' : Tree α} {s f : Nat}
    (hrf : RootFree t) (h : reparent_from_id_prepend t s f = some t') :
    RootFree t' := by
  unfold reparent_from_id_prepend at h
  cases hg : getNode t s with
  | none =>
    simp only [hg] at h
    exact Option.noConfusion h
  | some n =>
    simp only [hg] at h
    cases hgf : getNode t f with
    | none =>
      simp only [hgf] at h
      exact Option.noConfusion h
    | some fromNode =>
      simp only [hgf] at h
      cases hch : fromNode.children with
      | none =>
        simp only [hch] at h
        cases h
        exact hrf
      | some fl =>
        obtain ⟨nf, nl⟩ := fl
        simp only [hch] at h
        obtain ⟨hnf0, hnl0⟩ := hrf.children_ne
          (show childrenOf t f = some (nf, nl) by rw [childrenOf_eq hgf]; exact hch)
        have hrf2 : RootFree (setParent (setParent (setChildren t f none) nf
            (some s)) nl (some s)) :=
          ((hrf.setChildren (by simp) (by simp)).setParent hnf0
            (some s)).setParent hnl0 (some s)
        split at h
        · cases h
          exact hrf2.setChildren (by simpa using hnf0) (by simpa using hnl0)
        · rename_i of ol heq
          obtain ⟨hof0, hol0⟩ := hrf2.children_ne heq
          cases h
          exact ((hrf2.setPrev hof0 (by simpa using hnl0)).setNext hnl0
            (by simpa using hof0)).setChildren (by simpa using hnf0)
            (by simpa using hol0)

/-- `detach` preserves the arena length and every node's value. -/
theorem detach_frame {t t' : Tree α} {id : Nat} (h : detach t id = some t') :
    t'.vec.length = t.vec.length ∧ ∀ j, valueOf t' j = valueOf t j := by
  unfold detach at h
  cases hg : getNode t id with
  | none =>
    simp only [hg] at h
    exact Option.noConfusion h
  | some n =>
    simp only [hg] at h
    cases hp : n.parent with
    | none =>
      simp only [hp] at h
      cases h
      exact ⟨rfl, fun j => rfl⟩
    | some parentId =>
      simp only [hp] at h
      repeat' split at h
      all_goals try exact Option.noConfusion h
      all_goals
        replace h := Option.some.inj h
        subst h
        refine ⟨by simp, fun j => ?_⟩
        simp [valueOf_setChildren, valueOf_setNext, valueOf_setPrev, valueOf_setParent]

theorem append_id_frame {t t' : Tree α} {s c : Nat} (h : append_id t s c = some t') :
    t'.vec.length = t.vec.length ∧ ∀ j, valueOf t' j = valueOf t j := by
  unfold append_id at h
  cases hg : getNode t s with
  | none =>
    simp only [hg] at h
    exact Option.noConfusion h
  | some n =>
    simp only [hg] at h
    cases hgc : getNode t c with
    | none =>
      simp only [hgc] at h
      exact Option.noConfusion h
    | some m =>
      simp only [hgc] at h
      cases hd : detach t c with
      | none =>
        simp only [hd] at h
        exact Option.noConfusion h
      | some td =>
        obtain ⟨hdl, hdv⟩ := detach_frame hd
        simp only [hd] at h
        repeat' split at h
        all_goals try exact Option.noConfusion h
        all_goals
          replace h := Option.some.inj h
          subst h
          refine ⟨by simp [hdl], fun j => ?_⟩
          simp [valueOf_setChildren, valueOf_setNext, valueOf_setPrev,
            valueOf_setParent, hdv]

theorem prepend_id_frame {t t' : Tree α} {s c : Nat} (h : prepend_id t s c = some t') :
    t'.vec.length = t.vec.length ∧ ∀ j, valueOf t' j = valueOf t j := by
  unfold prepend_id at h
  cases hg : getNode t s with
  | none =>
    simp only [hg] at h
    exact Option.noConfusion h
  | some n =>
    simp only [hg] at h
    cases hgc : getNode t c with
    | none =>
      simp only [hgc] at h
      exact Option.noConfusion h
    | some m =>
      simp only [hgc] at h
      cases hd : detach t c with
      | none =>
        simp only [hd] at h
        exact Option.noConfusion h
      | some td =>
        obtain ⟨hdl, hdv⟩ := detach_frame hd
        simp only [hd] at h
        repeat' split at h
        all_goals try exact Option.noConfusion h
        all_goals
          replace h := Option.some.inj h
          subst h
          refine ⟨by simp [hdl], fun j => ?_⟩
          simp [valueOf_setChildren, valueOf_setNext, valueOf_setPrev,
            valueOf_setParent, hdv]

theorem insert_id_before_frame {t t' : Tree α} {s c : Nat}
    (h : insert_id_before t s c = some t') :
    t'.vec.length = t.vec.length ∧ ∀ j, valueOf t' j = valueOf t j := by
  unfold insert_id_before at h
  cases hg : getNode t s with
  | none =>
    simp only [hg] at h
    exact Option.noConfusion h
  | some n =>
    simp only [hg] at h
    cases hp : n.parent with
    | none =>
      simp only [hp] at h
      exact Option.noConfusion h
    | some parentId =>
      simp only [hp] at h
      cases hgc : getNode t c with
      | none =>
        simp only [hgc] at h
        exact Option.noConfusion h
      | some m =>
        simp only [hgc] at h
        repeat' split at h
        all_goals try exact Option.noConfusion h
        all_goals
          replace h := Option.some.inj h
          subst h
          refine ⟨by simp, fun j => ?_⟩
          simp [valueOf_setChildren, valueOf_setNext, valueOf_setPrev,
            valueOf_setParent]

theorem insert_id_after_frame {t t' : Tree α} {s c : Nat}
    (h : insert_id_after t s c = some t') :
    t'.vec.length = t.vec.length ∧ ∀ j, valueOf t' j = valueOf t j := by
  unfold insert_id_after at h
  cases hg : getNode t s with
  | none =>
    simp only [hg] at h
    exact Option.noConfusion h
  | some n =>
    simp only [hg] at h
    cases hp : n.parent with
    | none =>
      simp only [hp] at h
      exact Option.noConfusion h
    | some parentId =>
      simp only [hp] at h
      cases hgc : getNode t c with
      | none =>
        simp only [hgc] at h
        exact Option.noConfusion h
      | some m =>
        simp only [hgc] at h
        repeat' split at h
        all_goals try exact Option.noConfusion h
        all_goals
          replace h := Option.some.inj h
          subst h
          refine ⟨by simp, fun j => ?_⟩
          simp [valueOf_setChildren, valueOf_setNext, valueOf_setPrev,
            valueOf_setParent]

theorem insert_id_frame {t t' : Tree α} {s c k : Nat}
    (h : insert_id t s c k = some t') :
    t'.vec.length = t.vec.length ∧ ∀ j, valueOf t' j = valueOf t j := by
  unfold insert_id at h
  cases hg : getNode t s with
  | none =>
    simp only [hg] at h
    exact Option.noConfusion h
  | some n =>
    simp only [hg] at h
    by_cases hk : k = 0
    · rw [if_pos hk] at h
      exact prepend_id_frame h
    · rw [if_neg hk] at h
      cases hc : (childIds t s)[k - 1]? with
      | none =>
        simp only [hc] at h
        exact Option.noConfusion h
      | some pre =>
        simp only [hc] at h
        exact insert_id_after_frame h

theorem reparent_from_id_append_frame {t t' : Tree α} {s f : Nat}
    (h : reparent_from_id_append t s f = some t') :
    t'.vec.length = t.vec.length ∧ ∀ j, valueOf t' j = valueOf t j := by
  unfold reparent_from_id_append at h
  cases hg : getNode t s with
  | none =>
    simp only [hg] at h
    exact Option.noConfusion h
  | some n =>
    simp only [hg] at h
    cases hgf : getNode t f with
    | none =>
      simp only [hgf] at h
      exact Option.noConfusion h
    | some fromNode =>
      simp only [hgf] at h
      cases hch : fromNode.children with
      | none =>
        simp only [hch] at h
        cases h
        exact ⟨rfl, fun j => rfl⟩
      | some pair =>
        obtain ⟨nf, nl⟩ := pair
        simp only [hch] at h
        repeat' split at h
        all_goals try exact Option.noConfusion h
        all_goals
          replace h := Option.some.inj h
          subst h
          refine ⟨by simp, fun j => ?_⟩
          simp [valueOf_setChildren, valueOf_setNext, valueOf_setPrev,
            valueOf_setParent]

theorem reparent_from_id_prepend_frame {t t' : Tree α} {s f : Nat}
    (h : reparent_from_id_prepend t s f = some t') :
    t'.vec.length = t.vec.length ∧ ∀ j, valueOf t' j = valueOf t j := by
  unfold reparent_from_id_prepend at h
  cases hg : getNode t s with
  | none =>
    simp only [hg] at h
    exact Option.noConfusion h
  | some n =>
    simp only [hg] at h
    cases hgf : getNode t f with
    | none =>
      simp only [hgf] at h
      exact Option.noConfusion h
    | some fromNode =>
      simp only [hgf] at h
      cases hch : fromNode.children with
      | none =>
        simp only [hch] at h
        cases h
        exact ⟨rfl, fun j => rfl⟩
      | some pair =>
        obtain ⟨nf, nl⟩ := pair
        simp only [hch] at h
        repeat' split at h
        all_goals try exact Option.noConfusion h
        all_goals
          replace h := Option.some.inj h
          subst h
          refine ⟨by simp, fun j => ?_⟩
          simp [valueOf_setChildren, valueOf_setNext, valueOf_setPrev,
            valueOf_setParent]

theorem append_rootfree {t t2 : Tree α} {s i : Nat} {v : α} (hrf : RootFree t)
    (h : append t s v = some (t2, i)) : RootFree t2 := by
  have hmap : append t s v = (append_id (orphan t v).1 s t.vec.length).map
      (fun x => (x, t.vec.length)) := rfl
  rw [hmap] at h
  cases ha : append_id (orphan t v).1 s t.vec.length with
  | none =>
    rw [ha] at h
    exact Option.noConfusion h
  | some t3 =>
    rw [ha] at h
    simp only [Option.map_some'] at h
    have ht2 : t2 = t3 := (congrArg Prod.fst (Option.some.inj h)).symm
    subst ht2
    exact append_id_rootfree (hrf.orphanPush v) (Nat.pos_iff_ne_zero.mp hrf.1) ha

theorem prepend_rootfree {t t2 : Tree α} {s i : Nat} {v : α} (hrf : RootFree t)
    (h : prepend t s v = some (t2, i)) : RootFree t2 := by
  have hmap : prepend t s v = (prepend_id (orphan t v).1 s t.vec.length).map
      (fun x => (x, t.vec.length)) := rfl
  rw [hmap] at h
  cases ha : prepend_id (orphan t v).1 s t.vec.length with
  | none =>
    rw [ha] at h
    exact Option.noConfusion h
  | some t3 =>
    rw [ha] at h
    simp only [Option.map_some'] at h
    have ht2 : t2 = t3 := (congrArg Prod.fst (Option.some.inj h)).symm
    subst ht2
    exact prepend_id_rootfree (hrf.orphanPush v) (Nat.pos_iff_ne_zero.mp hrf.1) ha

theorem insert_rootfree {t t2 : Tree α} {s k i : Nat} {v : α} (hrf : RootFree t)
    (h : insert t s v k = some (t2, i)) : RootFree t2 := by
  have hmap : insert t s v k = (insert_id (orphan t v).1 s t.vec.length k).map
      (fun x => (x, t.vec.length)) := rfl
  rw [hmap] at h
  cases ha : insert_id (orphan t v).1 s t.vec.length k with
  | none =>
    rw [ha] at h
    exact Option.noConfusion h
  | some t3 =>
    rw [ha] at h
    simp only [Option.map_some'] at h
    have ht2 : t2 = t3 := (congrArg Prod.fst (Option.some.inj h)).symm
    subst ht2
    exact insert_id_rootfree (hrf.orphanPush v) (Nat.pos_iff_ne_zero.mp hrf.1) ha

theorem insert_before_rootfree {t t2 : Tree α} {s i : Nat} {v : α} (hrf : RootFree t)
    (h : insert_before t s v = some (t2, i)) : RootFree t2 := by
  have hmap : insert_before t s v = (insert_id_before (orphan t v).1 s t.vec.length).map
      (fun x => (x, t.vec.length)) := rfl
  rw [hmap] at h
  cases ha : insert_id_before (orphan t v).1 s t.vec.length with
  | none =>
    rw [ha] at h
    exact Option.noConfusion h
  | some t3 =>
    rw [ha] at h
    simp only [Option.map_some'] at h
    have ht2 : t2 = t3 := (congrArg Prod.fst (Option.some.inj h)).symm
    subst ht2
    exact insert_id_before_rootfree (hrf.orphanPush v)
      (Nat.pos_iff_ne_zero.mp hrf.1) ha

theorem insert_after_rootfree {t t2 : Tree α} {s i : Nat} {v : α} (hrf : RootFree t)
    (h : insert_after t s v = some (t2, i)) : RootFree t2 := by
  have hmap : insert_after t s v = (insert_id_after (orphan t v).1 s t.vec.length).map
      (fun x => (x, t.vec.length)) := rfl
  rw [hmap] at h
  cases ha : insert_id_after (orphan t v).1 s t.vec.length with
  | none =>
    rw [ha] at h
    exact Option.noConfusion h
  | some t3 =>
    rw [ha] at h
    simp only [Option.map_some'] at h
    have ht2 : t2 = t3 := (congrArg Prod.fst (Option.some.inj h)).symm
    subst ht2
    exact insert_id_after_rootfree (hrf.orphanPush v)
      (Nat.pos_iff_ne_zero.mp hrf.1) ha

/-- Run lemma for `append`: the new record sits at the old arena length and
values are otherwise unchanged. -/
theorem append_run_frame {t t2 : Tree α} {s newId : Nat} {v : α}
    (h : append t s v = some (t2, newId)) :
    newId = t.vec.length ∧ t2.vec.length = t.vec.length + 1 ∧
    valueOf t2 t.vec.length = some v ∧
    ∀ j, j < t.vec.length → valueOf t2 j = valueOf t j := by
  have hmap : append t s v = (append_id (orphan t v).1 s t.vec.length).map
      (fun x => (x, t.vec.length)) := rfl
  rw [hmap] at h
  cases ha : append_id (orphan t v).1 s t.vec.length with
  | none =>
    rw [ha] at h
    exact Option.noConfusion h
  | some t3 =>
    rw [ha] at h
    simp only [Option.map_some'] at h
    have ht2 : t2 = t3 := (congrArg Prod.fst (Option.some.inj h)).symm
    have hid : newId = t.vec.length := (congrArg Prod.snd (Option.some.inj h)).symm
    subst ht2
    subst hid
    obtain ⟨hl, hv⟩ := append_id_frame ha
    refine ⟨rfl, by rw [hl]; simp, ?_, ?_⟩
    · rw [hv, valueOf_orphan_new]
    · intro j hj
      rw [hv, valueOf_orphan_old t v hj]

theorem prepend_run_frame {t t2 : Tree α} {s newId : Nat} {v : α}
    (h : prepend t s v = some (t2, newId)) :
    newId = t.vec.length ∧ t2.vec.length = t.vec.length + 1 ∧
    valueOf t2 t.vec.length = some v ∧
    ∀ j, j < t.vec.length → valueOf t2 j = valueOf t j := by
  have hmap : prepend t s v = (prepend_id (orphan t v).1 s t.vec.length).map
      (fun x => (x, t.vec.length)) := rfl
  rw [hmap] at h
  cases ha : prepend_id (orphan t v).1 s t.vec.length with
  | none =>
    rw [ha] at h
    exact Option.noConfusion h
  | some t3 =>
    rw [ha] at h
    simp only [Option.map_some'] at h
    have ht2 : t2 = t3 := (congrArg Prod.fst (Option.some.inj h)).symm
    have hid : newId = t.vec.length := (congrArg Prod.snd (Option.some.inj h)).symm
    subst ht2
    subst hid
    obtain ⟨hl, hv⟩ := prepend_id_frame ha
    refine ⟨rfl, by rw [hl]; simp, ?_, ?_⟩
    · rw [hv, valueOf_orphan_new]
    · intro j hj
      rw [hv, valueOf_orphan_old t v hj]

theorem insert_run_frame {t t2 : Tree α} {s k newId : Nat} {v : α}
    (h : insert t s v k = some (t2, newId)) :
    newId = t.vec.length ∧ t2.vec.length = t.vec.length + 1 ∧
    valueOf t2 t.vec.length = some v ∧
    ∀ j, j < t.vec.length → valueOf t2 j = valueOf t j := by
  have hmap : insert t s v k = (insert_id (orphan t v).1 s t.vec.length k).map
      (fun x => (x, t.vec.length)) := rfl
  rw [hmap] at h
  cases ha : insert_id (orphan t v).1 s t.vec.length k with
  | none =>
    rw [ha] at h
    exact Option.noConfusion h
  | some t3 =>
    rw [ha] at h
    simp only [Option.map_some'] at h
    have ht2 : t2 = t3 := (congrArg Prod.fst (Option.some.inj h)).symm
    have hid : newId = t.vec.length := (congrArg Prod.snd (Option.some.inj h)).symm
    subst ht2
    subst hid
    obtain ⟨hl, hv⟩ := insert_id_frame ha
    refine ⟨rfl, by rw [hl]; simp, ?_, ?_⟩
    · rw [hv, valueOf_orphan_new]
    · intro j hj
      rw [hv, valueOf_orphan_old t v hj]

theorem insert_before_run_frame {t t2 : Tree α} {s newId : Nat} {v : α}
    (h : insert_before t s v = some (t2, newId)) :
    newId = t.vec.length ∧ t2.vec.length = t.vec.length + 1 ∧
    valueOf t2 t.vec.length = some v ∧
    ∀ j, j < t.vec.length → valueOf t2 j = valueOf t j := by
  have hmap : insert_before t s v = (insert_id_before (orphan t v).1 s t.vec.length).map
      (fun x => (x, t.vec.length)) := rfl
  rw [hmap] at h
  cases ha : insert_id_before (orphan t v).1 s t.vec.length with
  | none =>
    rw [ha] at h
    exact Option.noConfusion h
  | some t3 =>
    rw [ha] at h
    simp only [Option.map_some'] at h
    have ht2 : t2 = t3 := (congrArg Prod.fst (Option.some.inj h)).symm
    have hid : newId = t.vec.length := (congrArg Prod.snd (Option.some.inj h)).symm
    subst ht2
    subst hid
    obtain ⟨hl, hv⟩ := insert_id_before_frame ha
    refine ⟨rfl, by rw [hl]; simp, ?_, ?_⟩
    · rw [hv, valueOf_orphan_new]
    · intro j hj
      rw [hv, valueOf_orphan_old t v hj]

theorem insert_after_run_frame {t t2 : Tree α} {s newId : Nat} {v : α}
    (h : insert_after t s v = some (t2, newId)) :
    newId = t.vec.length ∧ t2.vec.length = t.vec.length + 1 ∧
    valueOf t2 t.vec.length = some v ∧
    ∀ j, j < t.vec.length → valueOf t2 j = valueOf t j := by
  have hmap : insert_after t s v = (insert_id_after (orphan t v).1 s t.vec.length).map
      (fun x => (x, t.vec.length)) := rfl
  rw [hmap] at h
  cases ha : insert_id_after (orphan t v).1 s t.vec.length with
  | none =>
    rw [ha] at h
    exact Option.noConfusion h
  | some t3 =>
    rw [ha] at h
    simp only [Option.map_some'] at h
    have ht2 : t2 = t3 := (congrArg Prod.fst (Option.some.inj h)).symm
    have hid : newId = t.vec.length := (congrArg Prod.snd (Option.some.inj h)).symm
    subst ht2
    subst hid
    obtain ⟨hl, hv⟩ := insert_id_after_frame ha
    refine ⟨rfl, by rw [hl]; simp, ?_, ?_⟩
    · rw [hv, valueOf_orphan_new]
    · intro j hj
      rw [hv, valueOf_orphan_old t v hj]

theorem applyOp_rootfree {op : Op α} {t t' : Tree α} (hrf : RootFree t)
    (hok : movedOk op = true) (h : applyOp op t = some t') : RootFree t' := by
  cases op with
  | append s v =>
    simp only [applyOp] at h
    cases ha : append t s v with
    | none =>
      rw [ha] at h
      exact Option.noConfusion h
    | some pr =>
      obtain ⟨t3, i3⟩ := pr
      rw [ha] at h
      simp only [Option.map_some'] at h
      cases h
      exact append_rootfree hrf ha
  | prepend s v =>
    simp only [applyOp] at h
    cases ha : prepend t s v with
    | none =>
      rw [ha] at h
      exact Option.noConfusion h
    | some pr =>
      obtain ⟨t3, i3⟩ := pr
      rw [ha] at h
      simp only [Option.map_some'] at h
      cases h
      exact prepend_rootfree hrf ha
  | insert s v k =>
    simp only [applyOp] at h
    cases ha : insert t s v k with
    | none =>
      rw [ha] at h
      exact Option.noConfusion h
    | some pr =>
      obtain ⟨t3, i3⟩ := pr
      rw [ha] at h
      simp only [Option.map_some'] at h
      cases h
      exact insert_rootfree hrf ha
  | insertBefore s v =>
    simp only [applyOp] at h
    cases ha : insert_before t s v with
    | none =>
      rw [ha] at h
      exact Option.noConfusion h
    | some pr =>
      obtain ⟨t3, i3⟩ := pr
      rw [ha] at h
      simp only [Option.map_some'] at h
      cases h
      exact insert_before_rootfree hrf ha
  | insertAfter s v =>
    simp only [applyOp] at h
    cases ha : insert_after t s v with
    | none =>
      rw [ha] at h
      exact Option.noConfusion h
    | some pr =>
      obtain ⟨t3, i3⟩ := pr
      rw [ha] at h
      simp only [Option.map_some'] at h
      cases h
      exact insert_after_rootfree hrf ha
  | orphanOp v =>
    simp only [applyOp] at h
    cases h
    exact hrf.orphanPush v
  | detachOp i =>
    simp only [applyOp] at h
    exact detach_rootfree hrf h
  | appendId s c =>
    simp only [movedOk, decide_eq_true_eq] at hok
    exact append_id_rootfree hrf hok h
  | prependId s c =>
    simp only [movedOk, decide_eq_true_eq] at hok
    exact prepend_id_rootfree hrf hok h
  | insertId s c k =>
    simp only [movedOk, decide_eq_true_eq] at hok
    exact insert_id_rootfree hrf hok h
  | insertIdBefore s c =>
    simp only [movedOk, decide_eq_true_eq] at hok
    exact insert_id_before_rootfree hrf hok h
  | insertIdAfter s c =>
    simp only [movedOk, decide_eq_true_eq] at hok
    exact insert_id_after_rootfree hrf hok h
  | reparentAppend s f =>
    simp only [applyOp] at h
    exact reparent_from_id_append_rootfree hrf h
  | reparentPrepend s f =>
    simp only [applyOp] at h
    exact reparent_from_id_prepend_rootfree hrf h

theorem applyOps_rootfree {ops : List (Op α)} {t t' : Tree α} (hrf : RootFree t)
    (hok : ∀ op ∈ ops, movedOk op = true) (h : applyOps ops t = some t') :
    RootFree t' := by
  induction ops generalizing t with
  | nil =>
    cases h
    exact hrf
  | cons op ops ih =>
    simp only [applyOps] at h
    cases ha : applyOp op t with
    | none =>
      rw [ha] at h
      exact Option.noConfusion h
    | some t1 =>
      rw [ha] at h
      exact ih (applyOp_rootfree hrf (hok op (by simp)) ha)
        (fun o ho => hok o (by simp [ho])) h

theorem rootFree_new (v : α) : RootFree (Tree.new v) := by
  refine ⟨by simp [Tree.new], rfl, rfl, rfl, ?_⟩
  intro i hi
  have : i = 0 := by simpa [Tree.new] using hi
  subst this
  refine ⟨by simp [prevOf, getNode, Tree.new, Node.new], ?_, ?_, ?_⟩ <;>
    simp [nextOf, childrenOf, getNode, Tree.new, Node.new]

theorem applyOp_length_le {op : Op α} {t t' : Tree α} (h : applyOp op t = some t') :
    t.vec.length ≤ t'.vec.length := by
  cases op with
  | append s v =>
    simp only [applyOp] at h
    cases ha : append t s v with
    | none =>
      rw [ha] at h
      exact Option.noConfusion h
    | some pr =>
      obtain ⟨t3, i3⟩ := pr
      rw [ha] at h
      simp only [Option.map_some'] at h
      cases h
      have := (append_run_frame ha).2.1
      omega
  | prepend s v =>
    simp only [applyOp] at h
    cases ha : prepend t s v with
    | none =>
      rw [ha] at h
      exact Option.noConfusion h
    | some pr =>
      obtain ⟨t3, i3⟩ := pr
      rw [ha] at h
      simp only [Option.map_some'] at h
      cases h
      have := (prepend_run_frame ha).2.1
      omega
  | insert s v k =>
    simp only [applyOp] at h
    cases ha : insert t s v k with
    | none =>
      rw [ha] at h
      exact Option.noConfusion h
    | some pr =>
      obtain ⟨t3, i3⟩ := pr
      rw [ha] at h
      simp only [Option.map_some'] at h
      cases h
      have := (insert_run_frame ha).2.1
      omega
  | insertBefore s v =>
    simp only [applyOp] at h
    cases ha : insert_before t s v with
    | none =>
      rw [ha] at h
      exact Option.noConfusion h
    | some pr =>
      obtain ⟨t3, i3⟩ := pr
      rw [ha] at h
      simp only [Option.map_some'] at h
      cases h
      have := (insert_before_run_frame ha).2.1
      omega
  | insertAfter s v =>
    simp only [applyOp] at h
    cases ha : insert_after t s v with
    | none =>
      rw [ha] at h
      exact Option.noConfusion h
    | some pr =>
      obtain ⟨t3, i3⟩ := pr
      rw [ha] at h
      simp only [Option.map_some'] at h
      cases h
      have := (insert_after_run_frame ha).2.1
      omega
  | orphanOp v =>
    simp only [applyOp] at h
    cases h
    simp
  | detachOp i =>
    exact Nat.le_of_eq (detach_frame h).1.symm
  | appendId s c =>
    exact Nat.le_of_eq (append_id_frame h).1.symm
  | prependId s c =>
    exact Nat.le_of_eq (prepend_id_frame h).1.symm
  | insertId s c k =>
    exact Nat.le_of_eq (insert_id_frame h).1.symm
  | insertIdBefore s c =>
    exact Nat.le_of_eq (insert_id_before_frame h).1.symm
  | insertIdAfter s c =>
    exact Nat.le_of_eq (insert_id_after_frame h).1.symm
  | reparentAppend s f =>
    exact Nat.le_of_eq (reparent_from_id_append_frame h).1.symm
  | reparentPrepend s f =>
    exact Nat.le_of_eq (reparent_from_id_prepend_frame h).1.symm

/-- C10: every value-taking insertion (`append`, `prepend`, `insert`,
`insert_before`, `insert_after`) and `orphan` grows the arena by exactly one
record, at the handle equal to the old arena length, changing no existing
value; and no public operation ever shrinks the arena. -/
theorem arena_growth (t : Tree α) :
    (∀ op : Op α, ∀ t', applyOp op t = some t' → t.vec.length ≤ t'.vec.length) ∧
    (∀ v : α, (orphan t v).2 = t.vec.length ∧
      (orphan t v).1.vec.length = t.vec.length + 1 ∧
      valueOf (orphan t v).1 t.vec.length = some v ∧
      ∀ j, j < t.vec.length → valueOf (orphan t v).1 j = valueOf t j) ∧
    (∀ s v t2 newId, append t s v = some (t2, newId) →
      newId = t.vec.length ∧ t2.vec.length = t.vec.length + 1 ∧
      valueOf t2 newId = some v ∧
      ∀ j, j < t.vec.length → valueOf t2 j = valueOf t j) ∧
    (∀ s v t2 newId, prepend t s v = some (t2, newId) →
      newId = t.vec.length ∧ t2.vec.length = t.vec.length + 1 ∧
      valueOf t2 newId = some v ∧
      ∀ j, j < t.vec.length → valueOf t2 j = valueOf t j) ∧
    (∀ s v k t2 newId, insert t s v k = some (t2, newId) →
      newId = t.vec.length ∧ t2.vec.length = t.vec.length + 1 ∧
      valueOf t2 newId = some v ∧
      ∀ j, j < t.vec.length → valueOf t2 j = valueOf t j) ∧
    (∀ s v t2 newId, insert_before t s v = some (t2, newId) →
      newId = t.vec.length ∧ t2.vec.length = t.vec.length + 1 ∧
      valueOf t2 newId = some v ∧
      ∀ j, j < t.vec.length → valueOf t2 j = valueOf t j) ∧
    (∀ s v t2 newId, insert_after t s v = some (t2, newId) →
      newId = t.vec.length ∧ t2.vec.length = t.vec.length + 1 ∧
      valueOf t2 newId = some v ∧
      ∀ j, j < t.vec.length → valueOf t2 j = valueOf t j) := by
  refine ⟨fun op t' h => applyOp_length_le h, ?_, ?_, ?_, ?_, ?_, ?_⟩
  · intro v
    exact ⟨rfl, by simp, valueOf_orphan_new t v,
      fun j hj => valueOf_orphan_old t v hj⟩
  · intro s v t2 newId h
    obtain ⟨hid, hlen, hval, hframe⟩ := append_run_frame h
    subst hid
    exact ⟨rfl, hlen, hval, hframe⟩
  · intro s v t2 newId h
    obtain ⟨hid, hlen, hval, hframe⟩ := prepend_run_frame h
    subst hid
    exact ⟨rfl, hlen, hval, hframe⟩
  · intro s v k t2 newId h
    obtain ⟨hid, hlen, hval, hframe⟩ := insert_run_frame h
    subst hid
    exact ⟨rfl, hlen, hval, hframe⟩
  · intro s v t2 newId h
    obtain ⟨hid, hlen, hval, hframe⟩ := insert_before_run_frame h
    subst hid
    exact ⟨rfl, hlen, hval, hframe⟩
  · intro s v t2 newId h
    obtain ⟨hid, hlen, hval, hframe⟩ := insert_after_run_frame h
    subst hid
    exact ⟨rfl, hlen, hval, hframe⟩

theorem arena_growth_witness :
    1 = (Tree.new (5 : Nat)).vec.length ∧
    c10Tree.vec.length = (Tree.new (5 : Nat)).vec.length + 1 ∧
    valueOf c10Tree 1 = some 7 ∧
    ∀ j, j < (Tree.new (5 : Nat)).vec.length →
      valueOf c10Tree j = valueOf (Tree.new (5 : Nat)) j :=
  (arena_growth (Tree.new 5)).2.2.1 0 7 c10Tree 1 (by decide)

/-- C3 (amended): from any tree satisfying the root-freeness invariant (as
every `Tree::new` tree does), a sequence of public operations whose
handle-taking operations never pass the root handle 0 as the moved handle
keeps the root's parent, prev_sibling and next_sibling absent. -/
theorem root_invariant_ops {t t' : Tree α} {ops : List (Op α)}
    (hrf : RootFree t) (hok : ∀ op ∈ ops, movedOk op = true)
    (h : applyOps ops t = some t') :
    (parentOf t' 0 = none ∧ prevOf t' 0 = none ∧ nextOf t' 0 = none) ∧
    RootFree t' ∧ ∀ v : α, RootFree (Tree.new v) := by
  have hrf' := applyOps_rootfree hrf hok h
  exact ⟨⟨hrf'.2.1, hrf'.2.2.1, hrf'.2.2.2.1⟩, hrf', rootFree_new⟩

theorem root_invariant_ops_witness :
    (parentOf c3Tree 0 = none ∧ prevOf c3Tree 0 = none ∧
      nextOf c3Tree 0 = none) ∧
    RootFree c3Tree ∧ ∀ v : Nat, RootFree (Tree.new v) :=
  @root_invariant_ops Nat (Tree.new 0) c3Tree [Op.append 0 1] (by decide)
    (by decide) (by decide)

/-- C3 counterexample: passing the root's own handle to `append_id` gives
the root a parent, so the unrestricted claim fails. -/
theorem root_invariant_counterexample :
    (applyOps [Op.appendId 0 0] (Tree.new 0)).map (fun t2 => parentOf t2 0) =
      some (some 0) := by decide


/-- Witness for C1's amended law at a concrete input: moving `n(3)` from
`q(1)` to `p(2)` by either handle-append or handle-prepend scrubs it from
`q`'s chain. -/
theorem append_prepend_id_detach_first_witness :
    (append_id c1WTree 2 3).isSome ∧
    (prepend_id c1WTree 2 3).isSome ∧
    (∀ t', append_id c1WTree 2 3 = some t' ∨ prepend_id c1WTree 2 3 = some t' →
      childIds t' 1 = [3].erase 3 ∧
      3 ∉ childIds t' 1 ∧
      childrenOf t' 1 = boundsOf ([3].erase 3) ∧
      (∀ j ∈ [3].erase 3, nextOf t' j ≠ some 3 ∧ prevOf t' j ≠ some 3)) :=
  append_prepend_id_detach_first c1WTree 1 2 3 [3] [] (by decide) (by decide)
    (by decide) (by decide) (by decide)

/-- Witness for C4 at a concrete input: reparenting the single child of
node 1 under the childless root. -/
theorem reparent_from_id_append_spec_witness :
    (reparent_from_id_append c4Tree 0 1).isSome ∧
    ([2] = ([] : List Nat) → reparent_from_id_append c4Tree 0 1 = some c4Tree) ∧
    (∀ t', reparent_from_id_append c4Tree 0 1 = some t' →
      childIds t' 0 = [] ++ [2] ∧ childrenOf t' 1 = none ∧
      ∀ j, valueOf t' j = valueOf c4Tree j) :=
  reparent_from_id_append_spec c4Tree 0 1 [] [2] (by decide) (by decide)
    (by decide) (by decide) (by decide)
    (by intro a ha hb; exact absurd ha (List.not_mem_nil a))

/-- Witness for C5 at a concrete input: inserting at index 1 after the
single existing child. -/
theorem insert_spec_witness :
    (insert c5Tree 0 9 1 = none ↔ [1].length < 1) ∧
    (∀ t2 newId, insert c5Tree 0 9 1 = some (t2, newId) →
      newId = c5Tree.vec.length ∧
      childIds t2 0 = [1].take 1 ++ newId :: [1].drop 1 ∧
      valueOf t2 newId = some 9 ∧
      ∀ j, j < c5Tree.vec.length → valueOf t2 j = valueOf c5Tree j) :=
  insert_spec c5Tree 0 9 1 [1] (by decide) (by decide)

/-- Witness for C6 at a concrete input: the panic-iff clause on a node that
has a parent. -/
theorem insert_before_after_spec_witness :
    insert_before c6Tree 1 9 = none ↔ c6Node.parent = none :=
  (insert_before_after_spec c6Tree 1 c6Node 9 (by decide)
    (by intro q hq; cases hq; decide)
    (fun q hq => Option.noConfusion hq)
    (fun q hq => Option.noConfusion hq)).1

/-- Witness for C8 at a concrete input: appending `[4, 5]` to the fresh root
yields them in order; prepending yields them reversed. -/
theorem append_prepend_order_witness :
    (∃ t' ids, appendAll (Tree.new (0 : Nat)) 0 [4, 5] = some (t', ids) ∧
      childIds t' 0 = [] ++ ids ∧ ids.map (valueOf t') = [4, 5].map some) ∧
    (∃ t' ids, prependAll (Tree.new (0 : Nat)) 0 [4, 5] = some (t', ids) ∧
      childIds t' 0 = ids.reverse ++ [] ∧ ids.map (valueOf t') = [4, 5].map some) :=
  append_prepend_order (Tree.new 0) 0 [] [4, 5] (by decide) (by decide)

/-- Witness for C9 at a concrete input: append a child to a fresh root and
detach it again. -/
theorem append_detach_round_trip_witness :
    ∃ t1 t2, append (Tree.new (3 : Nat)) 0 7 = some (t1, (Tree.new (3 : Nat)).vec.length) ∧
      detach t1 (Tree.new (3 : Nat)).vec.length = some t2 ∧
      (∀ j, j < (Tree.new (3 : Nat)).vec.length →
        parentOf t2 j = parentOf (Tree.new (3 : Nat)) j ∧
        prevOf t2 j = prevOf (Tree.new (3 : Nat)) j ∧
        nextOf t2 j = nextOf (Tree.new (3 : Nat)) j ∧
        childrenOf t2 j = childrenOf (Tree.new (3 : Nat)) j ∧
        valueOf t2 j = valueOf (Tree.new (3 : Nat)) j) ∧
      parentOf t2 (Tree.new (3 : Nat)).vec.length = none ∧
      prevOf t2 (Tree.new (3 : Nat)).vec.length = none ∧
      nextOf t2 (Tree.new (3 : Nat)).vec.length = none ∧
      childrenOf t2 (Tree.new (3 : Nat)).vec.length = none ∧
      valueOf t2 (Tree.new (3 : Nat)).vec.length = some 7 :=
  append_detach_round_trip (Tree.new 3) 0 7 (Node.new 3) (by decide)
    (fun f l hfl => Option.noConfusion hfl)

end EgoTree
